import Mathlib

/-!
Tailwind: a shallow embedding of `tailwind.js`.

Tailwind instruments JavaScript source text with calls to
`Tailwind.executeBlock( id )`, runs it, and reports which units ran.

Modelling conventions.

* A JavaScript string on which positions are computed (source text, tracking
  text, report text) is a `List Char`; one element stands for one UTF-16 code
  unit, so `List.length` is the `length` property and positions are list
  indices.  Property names and node type names are only ever compared and are
  Lean strings.
* JavaScript numbers that count or index (ids, offsets, execution counts) are
  natural numbers; the code only ever starts them at `0` and adds to them.
* A thrown exception is an `Except.error`.
* The closure variable `id` and the module-level array `codeblocks` form the
  explicit state `Registry`.
-/

namespace Tailwind

/-! ## JavaScript values and strings -/

/-- JavaScript values as they occur in a syntax tree produced with
`{ range: true }`.  An object carries its `type` and `range` properties (each
possibly absent, that is `undefined`) and its remaining own enumerable
properties in enumeration order.  Primitive values are leaves that the code
never looks into, so a number is kept as a natural number. -/
inductive JSValue where
  | undefined : JSValue
  | null : JSValue
  | bool (b : Bool) : JSValue
  | number (n : Nat) : JSValue
  | string (s : String) : JSValue
  | array (elems : List JSValue) : JSValue
  | node (type : Option String) (range : Option (Nat × Nat))
      (props : List (String × JSValue)) : JSValue

/-- Exceptions the modelled code can throw: the `TypeError` of a property read
on `undefined` or `null`, `unsupported` for the one input whose evaluation
is not modelled (see `lengthPositive`), and `error message` for any other
thrown value (an `Error` with that message). -/
inductive JSError where
  | typeError : JSError
  | unsupported : JSError
  | error (message : String) : JSError
  deriving DecidableEq, Repr

/-- The abstract operation `ToBoolean`: the truthiness of a value. -/
def toBoolean : JSValue → Bool
  | .undefined => false
  | .null => false
  | .bool b => b
  | .number n => n != 0
  | .string s => s != ""
  | .array _ => true
  | .node _ _ _ => true

/-- The method `s.substring( a, b )`: both indices are clamped to the length
and swapped when `a > b`. -/
def substring (s : List Char) (a b : Nat) : List Char :=
  (s.take (max a b)).drop (min a b)

/-- The method `s.substring( a )`: the text from index `a` to the end. -/
def substringFrom (s : List Char) (a : Nat) : List Char :=
  s.drop a

/-- Number-to-string conversion of a non-negative integer, as performed by
`'text' + n`: its decimal digits. -/
def numberToString (n : Nat) : List Char :=
  Nat.toDigits 10 n

/-! ## Codeblock -/

/-- The class `Codeblock`: one watched unit. -/
structure Codeblock where
  id : Nat
  statement : JSValue
  rangeStart : Nat
  rangeEnd : Nat
  type : Option String
  expression : Bool
  code : Option (List Char)
  executionCount : Nat

/-- The method `Codeblock.prototype.countExecution`. -/
def Codeblock.countExecution (cb : Codeblock) : Codeblock :=
  { cb with executionCount := cb.executionCount + 1 }

/-- The function `watchBlock`: the tracking text for a unit. -/
def watchBlock (codeblock : Codeblock) : List Char :=
  if codeblock.expression then
    "Tailwind.executeBlock( ".toList ++ numberToString codeblock.id ++ " ) || ".toList
  else
    "Tailwind.executeBlock( ".toList ++ numberToString codeblock.id ++ " );".toList

/-! ## Instrumentation (step 3 of `runCode`) -/

/-- One iteration of the injection loop of `runCode`, on the loop state
`(modifiedCode, offset)`. -/
def injectStep (st : List Char × Nat) (codeblock : Codeblock) : List Char × Nat :=
  let modifiedCode := st.1
  let offset := st.2
  let rangeStart := codeblock.rangeStart + offset
  let rangeStart := if codeblock.type = some "BlockStatement" then rangeStart + 1 else rangeStart
  let watchCode := watchBlock codeblock
  (substring modifiedCode 0 rangeStart ++ watchCode ++ substringFrom modifiedCode rangeStart,
    offset + watchCode.length)

/-- The injection loop of `runCode` from a given loop state. -/
def injectLoop : List Codeblock → List Char × Nat → List Char × Nat
  | [], st => st
  | codeblock :: rest, st => injectLoop rest (injectStep st codeblock)

/-- Step 3 of `runCode`: the instrumented text for `code` and the (sorted)
unit list. -/
def instrument (code : List Char) (codeblocks : List Codeblock) : List Char :=
  (injectLoop codeblocks (code, 0)).1

/-! ## The registry and the Codeblock constructor -/

/-- The state shared by all runs: the closure counter `id` of the `Codeblock`
constructor and the module-level array `codeblocks`. -/
structure Registry where
  nextId : Nat
  codeblocks : List Codeblock

/-- The state when the module has just been loaded. -/
def Registry.init : Registry := ⟨0, []⟩

/-- A thrown exception together with the registry at the moment of the throw. -/
abbrev Thrown := JSError × Registry

/-- Property read `object[key]` on the own properties of an object. -/
def getProp (props : List (String × JSValue)) (key : String) : JSValue :=
  match props with
  | [] => .undefined
  | (k, v) :: rest => if k = key then v else getProp rest key

/-- The `range` of a value used as `statement`: reading `statement.range[0]`
throws a TypeError unless `statement` is an object that has a `range`. -/
def statementRange : JSValue → Except JSError (Nat × Nat)
  | .node _ (some r) _ => .ok r
  | _ => .error .typeError

/-- The `type` of a value used as `statement`. -/
def statementType : JSValue → Option String
  | .node t _ _ => t
  | _ => none

/-- The constructor `new Codeblock( statement, sourceCode, expression )`: takes
the next id, reads the range and type, slices the code and pushes the new unit
on the module-level array.  The id counter has already advanced when reading
the range throws. -/
def newCodeblock (statement : JSValue) (sourceCode : Option (List Char)) (expression : Bool)
    (reg : Registry) : Except Thrown (Codeblock × Registry) :=
  let id := reg.nextId
  match statementRange statement with
  | .error e => .error (e, { reg with nextId := id + 1 })
  | .ok r =>
    let cb : Codeblock :=
      { id := id
        statement := statement
        rangeStart := r.1
        rangeEnd := r.2
        type := statementType statement
        expression := expression
        code := sourceCode.map (fun src => substring src r.1 r.2)
        executionCount := 0 }
    .ok (cb, { nextId := id + 1, codeblocks := reg.codeblocks ++ [cb] })

/-- The method `Tailwind.executeBlock( blockId )`: `codeblocks[blockId].countExecution()`
on the module-level array.  The function has no `return`, so a call that does
not throw yields `undefined`. -/
def executeBlock (blockId : Nat) (reg : Registry) : Except Thrown (JSValue × Registry) :=
  match reg.codeblocks[blockId]? with
  | none => .error (.typeError, reg)
  | some cb =>
    .ok (.undefined, { reg with codeblocks := reg.codeblocks.set blockId cb.countExecution })

/-- The registry after a call `Tailwind.executeBlock( blockId )`, whether it
returned or threw. -/
def afterExecuteBlock (reg : Registry) (blockId : Nat) : Registry :=
  match executeBlock blockId reg with
  | .ok (_, reg1) => reg1
  | .error (_, reg1) => reg1

/-- The registry after a sequence of calls of `Tailwind.executeBlock`. -/
def afterExecuteBlocks (reg : Registry) (blockIds : List Nat) : Registry :=
  blockIds.foldl afterExecuteBlock reg

/-! ## TailwindStats -/

/-- The class `TailwindStats`. -/
structure TailwindStats where
  sourceCode : List Char
  codeblocks : List Codeblock

/-- The object `getReport` returns. -/
structure Report where
  statements : Nat
  executed : Nat
  deriving DecidableEq, Repr

/-- The `for` loop of `getReport` over the units not yet looked at. -/
def getReportLoop : List Codeblock → Report → Report
  | [], report => report
  | codeblock :: rest, report =>
    if codeblock.executionCount > 0 then
      getReportLoop rest { report with executed := report.executed + 1 }
    else
      getReportLoop rest report

/-- The method `TailwindStats.prototype.getReport`: the report, and the receiver after the
call. -/
def TailwindStats.getReport (stats : TailwindStats) : Report × TailwindStats :=
  (getReportLoop stats.codeblocks { statements := stats.codeblocks.length, executed := 0 }, stats)

/-! ## Discovery (step 2 of `runCode`) -/

/-- The list `Tailwind.regularBlocks`. -/
def regularBlocks : List String := ["BlockStatement", "Program"]

/-- The state of discovery: the registry and the local array `codeblocks` of
`runCode`. -/
abbrev DiscoverState := Registry × List Codeblock

/-- The statement `codeblocks.push( new Codeblock( statement, code, expression ) )`. -/
def pushCodeblock (code : List Char) (statement : JSValue) (expression : Bool)
    (st : DiscoverState) : Except Thrown DiscoverState :=
  match newCodeblock statement (some code) expression st.1 with
  | .error e => .error e
  | .ok (cb, reg) => .ok (reg, st.2 ++ [cb])

/-- The test `consequent.length > 0` of the visitor.  An object that is not an
array and has a `length` property of its own is not modelled. -/
def lengthPositive : JSValue → Except JSError Bool
  | .undefined => .error .typeError
  | .null => .error .typeError
  | .bool _ => .ok false
  | .number _ => .ok false
  | .string s => .ok (decide (0 < s.length))
  | .array elems => .ok (decide (0 < elems.length))
  | .node _ _ props =>
    match getProp props "length" with
    | .undefined => .ok false
    | _ => .error .unsupported

/-- The synthesized statement of a non-empty `SwitchCase`:
`{ type: 'SwitchCase', range: [ c[0].range[0], c[c.length-1].range[1] ] }`
for `c = node.consequent`.  The elements of a non-empty string are strings,
which have no `range`; an object that is not an array only gets here with a
`length` property of its own, which is not modelled. -/
def switchCaseStatement : JSValue → Except JSError JSValue
  | .array elems =>
    match elems.head?, elems.getLast? with
    | some first, some last =>
      match statementRange first, statementRange last with
      | .ok r1, .ok r2 => .ok (.node (some "SwitchCase") (some (r1.1, r2.2)) [])
      | _, _ => .error .typeError
    | _, _ => .error .typeError
  | .string _ => .error .typeError
  | _ => .error .unsupported

/-- The visitor function that `runCode` passes to `traverse`. -/
def visitor (code : List Char) (node : JSValue) (st : DiscoverState) :
    Except Thrown DiscoverState :=
  match node with
  | .undefined => .error (.typeError, st.1)
  | .null => .error (.typeError, st.1)
  | .node (some type) (some _) props =>
    match (if regularBlocks.contains type then pushCodeblock code node false st else .ok st) with
    | .error e => .error e
    | .ok st1 =>
      if type = "ConditionalExpression" then
        match pushCodeblock code (getProp props "consequent") true st1 with
        | .error e => .error e
        | .ok st2 => pushCodeblock code (getProp props "alternate") true st2
      else if type = "SwitchCase" then
        match lengthPositive (getProp props "consequent") with
        | .error e => .error (e, st1.1)
        | .ok false => .ok st1
        | .ok true =>
          match switchCaseStatement (getProp props "consequent") with
          | .error e => .error (e, st1.1)
          | .ok statement => pushCodeblock code statement false st1
      else .ok st1
  | _ => .ok st

mutual
/-- The function `traverse`: visit the object, then traverse every own property
that is a non-null object, in enumeration order.  The `type` string is not an
object, and the visit of the `range` array returns at once (an array has no
`type`) and finds no object among its two numbers. -/
def traverse (code : List Char) (object : JSValue) (st : DiscoverState) :
    Except Thrown DiscoverState :=
  match visitor code object st with
  | .error e => .error e
  | .ok st1 =>
    match object with
    | .array elems => traverseElems code elems st1
    | .node _ _ props => traverseProps code props st1
    | _ => .ok st1
/-- The `for ( key in object )` loop of `traverse` over the elements of an
array. -/
def traverseElems (code : List Char) (elems : List JSValue) (st : DiscoverState) :
    Except Thrown DiscoverState :=
  match elems with
  | [] => .ok st
  | child :: rest =>
    match (match child with
      | .array _ => traverse code child st
      | .node _ _ _ => traverse code child st
      | _ => .ok st) with
    | .error e => .error e
    | .ok st1 => traverseElems code rest st1
/-- The `for ( key in object )` loop of `traverse` over the properties of an
object. -/
def traverseProps (code : List Char) (props : List (String × JSValue)) (st : DiscoverState) :
    Except Thrown DiscoverState :=
  match props with
  | [] => .ok st
  | (_, child) :: rest =>
    match (match child with
      | .array _ => traverse code child st
      | .node _ _ _ => traverse code child st
      | _ => .ok st) with
    | .error e => .error e
    | .ok st1 => traverseProps code rest st1
end

/-- Step 2 of `runCode`: the units discovered in `syntaxTree`, in discovery
order, and the registry afterwards. -/
def discover (code : List Char) (syntaxTree : JSValue) (reg : Registry) :
    Except Thrown DiscoverState :=
  traverse code syntaxTree (reg, [])

/-! ## The marker stage of `Tailwind.Reporters.html` -/

/-- The `type` of a queued marker. -/
inductive MarkerType where
  | hitStart : MarkerType
  | hitEnd : MarkerType
  | missStart : MarkerType
  | missEnd : MarkerType
  deriving DecidableEq, Repr

/-- The sparse array `coverageLocations`: index `where` holds the markers
queued for that position, `none` is a hole. -/
abbrev CoverageLocations := List (Option (List MarkerType))

/-- The function `addCoverageLocation( where, what )`. -/
def addCoverageLocation (coverageLocations : CoverageLocations) (position : Nat)
    (what : MarkerType) : CoverageLocations :=
  match coverageLocations[position]? with
  | some (some queued) => coverageLocations.set position (some (queued ++ [what]))
  | some none => coverageLocations.set position (some [what])
  | none =>
    coverageLocations ++ List.replicate (position - coverageLocations.length) none ++ [some [what]]

/-- The loop "Queue marker locations" of `html`. -/
def queueMarkers : List Codeblock → CoverageLocations → CoverageLocations
  | [], coverageLocations => coverageLocations
  | block :: rest, coverageLocations =>
    if block.executionCount > 0 then
      queueMarkers rest
        (addCoverageLocation (addCoverageLocation coverageLocations block.rangeStart .hitStart)
          block.rangeEnd .hitEnd)
    else
      queueMarkers rest
        (addCoverageLocation (addCoverageLocation coverageLocations block.rangeStart .missStart)
          block.rangeEnd .missEnd)

/-- The text injected for a marker. -/
def injection : MarkerType → List Char
  | .hitStart => "<span class=\"tailwind-covered\">".toList
  | .missStart => "<span class=\"tailwind-missed\">".toList
  | .hitEnd => "</span>".toList
  | .missEnd => "</span>".toList

/-- The inner loop (over `j`) of "Apply markers" at position `i`, on the loop
state `(code, offset)`. -/
def applyMarkersAt (position : Nat) : List MarkerType → List Char × Nat → List Char × Nat
  | [], st => st
  | coverage :: rest, (code, offset) =>
    let inj := injection coverage
    applyMarkersAt position rest
      (substring code 0 (position + offset) ++ inj ++ substringFrom code (position + offset),
        offset + inj.length)

/-- The outer loop (over `i`) of "Apply markers", from index `i` on; the list is
the part `coverageLocations[i..]` still to be processed. -/
def applyMarkers (i : Nat) : CoverageLocations → List Char × Nat → List Char × Nat
  | [], st => st
  | none :: rest, st => applyMarkers (i + 1) rest st
  | some coverageLocation :: rest, st =>
    applyMarkers (i + 1) rest (applyMarkersAt i coverageLocation st)

/-- The marker stage of `Tailwind.Reporters.html`: the source text with the
coverage markers applied, before line numbers are inserted. -/
def markerStage (stats : TailwindStats) : List Char :=
  (applyMarkers 0 (queueMarkers stats.codeblocks []) (stats.sourceCode, 0)).1

/-! ## The line-number stage of `Tailwind.Reporters.html` -/

/-- The function `padLeft` from its loop counter `i` on: `character` is put in
front `i` times. -/
def padLeftLoop (character : List Char) : Nat → List Char → List Char
  | 0, out => out
  | i + 1, out => padLeftLoop character i (character ++ out)

/-- The function `padLeft( src, character, length )`; the loop counter starts
at `length - src.length` and the loop runs while it is positive. -/
def padLeft (src character : List Char) (length : Nat) : List Char :=
  padLeftLoop character (length - src.length) src

/-- The characters the regular expression class `[\r\n]` matches. -/
def isLineBreak (c : Char) : Bool :=
  c = '\r' || c = '\n'

/-- Splitting at every maximal run of line breaks; `current` is the piece read
so far (reversed) and `inRun` tells whether the last character was a line
break. -/
def splitLinesAux (current : List Char) (inRun : Bool) : List Char → List (List Char)
  | [] => [current.reverse]
  | c :: rest =>
    if isLineBreak c then
      if inRun then splitLinesAux current true rest
      else current.reverse :: splitLinesAux [] true rest
    else splitLinesAux (c :: current) false rest

/-- The call `code.split( /[\r\n]+/ )`. -/
def splitLines (code : List Char) : List (List Char) :=
  splitLinesAux [] false code

/-- The constant `linenoStart`. -/
def linenoStart : List Char := "<span class=\"tailwind-lineno\">".toList

/-- The constant `linenoEnd`. -/
def linenoEnd : List Char := "</span>".toList

/-- The element `linenoStart + lineno + linenoEnd` for line number
`currentLine`. -/
def linenoElement (currentLine lineCountLength : Nat) : List Char :=
  linenoStart ++ padLeft (numberToString currentLine) "&nbsp;".toList lineCountLength
    ++ linenoEnd

/-- The callback of `code.reduce( ... )` on the accumulator `a`, the closure
variable `currentLine` and the next line `b`; `a.indexOf( linenoStart ) !== 0`
says that `a` does not start with `linenoStart`. -/
def numberLine (lineCountLength : Nat) (st : List Char × Nat) (b : List Char) :
    List Char × Nat :=
  let a := st.1
  let currentLine := st.2
  let numbered : List Char × Nat :=
    if linenoStart.isPrefixOf a then ([], currentLine)
    else (linenoElement currentLine lineCountLength, currentLine + 1)
  let a_lineno := numbered.1
  let currentLine := numbered.2
  let b_lineno := linenoElement currentLine lineCountLength
  (a_lineno ++ a ++ ['\n'] ++ b_lineno ++ b, currentLine + 1)

/-- The stage "Insert line numbers" of `html`.  A call of `reduce` without an
initial value starts from the first element and never calls the callback on a
one-element array; `split` never returns an empty array. -/
def insertLineNumbers (code : List Char) : List Char :=
  let lines := splitLines code
  let lineCount := lines.length
  let lineCountLength := (numberToString lineCount).length
  match lines with
  | [] => []
  | first :: rest => (rest.foldl (numberLine lineCountLength) (first, 1)).1

/-- The function `Tailwind.Reporters.html`. -/
def Reporters.html (stats : TailwindStats) : List Char :=
  insertLineNumbers (markerStage stats)

/-! ## `runCode` -/

/-- What the page provides to `runCode`: `window.esprima`, absent or given by
its `parse( code, { range: true } )`, and `window.eval`.  Evaluating an
instrumented text makes the tracking calls `Tailwind.executeBlock( id )` for
the listed ids in order and then returns, or throws the given value. -/
structure Window where
  esprima : Option (List Char → Except JSError JSValue)
  eval : List Char → List Nat × Option JSError

/-- The comparator call `codeblocks.sort( ... )` of `runCode`: ascending
`rangeStart`; `Array.prototype.sort` is stable, so the result is the one of any
stable sort. -/
def sortCodeblocks (codeblocks : List Codeblock) : List Codeblock :=
  codeblocks.insertionSort (fun a b => a.rangeStart ≤ b.rangeStart)

/-- The present state of a unit object: the entry of the module-level array
with the same id (an id is given out once). -/
def Codeblock.current (reg : Registry) (cb : Codeblock) : Codeblock :=
  match reg.codeblocks.find? (fun u => decide (u.id = cb.id)) with
  | some u => u
  | none => cb

/-- A stats object as it reads when the registry is `reg`: its units are
shared with the module-level array. -/
def TailwindStats.current (stats : TailwindStats) (reg : Registry) : TailwindStats :=
  { stats with codeblocks := stats.codeblocks.map (Codeblock.current reg) }

/-- The method `Tailwind.runCode`: check for esprima, parse, discover, sort,
inject, evaluate, return the stats.  The result holds the stats object as it
reads at the return, and the registry; a throw holds the registry at the
throw.  The assignment `window.test = modifiedCode` is left out. -/
def runCode (window : Window) (code : List Char) (reg : Registry) :
    Except Thrown (TailwindStats × Registry) :=
  match window.esprima with
  | none => .error (.error "Esprima must be included on the page <http://esprima.org/>", reg)
  | some parse =>
    match parse code with
    | .error e => .error (e, reg)
    | .ok syntaxTree =>
      match discover code syntaxTree reg with
      | .error e => .error e
      | .ok (reg1, codeblocks) =>
        let stats : TailwindStats := { sourceCode := code, codeblocks := sortCodeblocks codeblocks }
        let modifiedCode := instrument code stats.codeblocks
        match window.eval modifiedCode with
        | (calls, some e) => .error (e, afterExecuteBlocks reg1 calls)
        | (calls, none) =>
          .ok (stats.current (afterExecuteBlocks reg1 calls), afterExecuteBlocks reg1 calls)

/-- The registry after a call of `runCode`, whether it returned or threw. -/
def afterRunCode (reg : Registry) (call : Window × List Char) : Registry :=
  match runCode call.1 call.2 reg with
  | .ok (_, reg1) => reg1
  | .error (_, reg1) => reg1

/-- The registry after a sequence of calls of `runCode`. -/
def afterRunCodes (reg : Registry) (calls : List (Window × List Char)) : Registry :=
  calls.foldl afterRunCode reg

/-- What the caller of `runCode` gets: the returned stats object or the thrown
value.  The module-level array is private to the module. -/
def callerReceives (result : Except Thrown (TailwindStats × Registry)) :
    Except JSError TailwindStats :=
  match result with
  | .ok (stats, _) => .ok stats
  | .error (e, _) => .error e

/-! ## Requests -/

/-- A request object as `handleReadyStateChange` sees it: `callback` tells
whether the call `this.callback( responseText )` returns (`none`) or throws;
`onerror` is `none` when `typeof this.onerror` is not `'function'`, and
otherwise tells whether the call `this.onerror()` returns or throws. -/
structure Request where
  readyState : Nat
  status : Nat
  responseText : List Char
  callback : List Char → Option JSError
  onerror : Option (Option JSError)

/-- A call made by `handleReadyStateChange`. -/
inductive Call where
  | callback (responseText : List Char) : Call
  | onerror : Call
  deriving DecidableEq, Repr

/-- The function `getAjaxObject( callback, errorCallback )`: a fresh request
with the callback, and with `onerror` only if `errorCallback` is a function. -/
def getAjaxObject (callback : List Char → Option JSError)
    (errorCallback : Option (Option JSError)) : Request :=
  { readyState := 0, status := 0, responseText := [], callback := callback,
    onerror := errorCallback }

/-- The request `Tailwind.runScript` creates: `getAjaxObject` is called with
one argument, the function that runs the code and calls `callback`. -/
def runScriptRequest (callback : List Char → Option JSError) : Request :=
  getAjaxObject callback none

/-- The function `handleReadyStateChange`: the calls it makes, in order, and
the value it throws, if any. -/
def handleReadyStateChange (request : Request) : List Call × Option JSError :=
  if request.readyState = 4 then
    if request.status ≥ 400 then
      match request.onerror with
      | some thrown => ([.onerror], thrown)
      | none => ([], none)
    else
      match request.callback request.responseText with
      | none => ([.callback request.responseText], none)
      | some e =>
        match request.onerror with
        | some thrown => ([.callback request.responseText, .onerror], thrown)
        | none => ([.callback request.responseText], some e)
  else ([], none)

/-! ## Specification-side definitions -/

/-- Deleting the text `w` that was inserted at index `p` (an index past the end
inserts at the end): `none` unless `w` stands at that place. -/
def removeAt (text : List Char) (p : Nat) (w : List Char) : Option (List Char) :=
  let q := min p (text.length - w.length)
  if w.length ≤ text.length ∧ (text.drop q).take w.length = w then
    some (text.take q ++ text.drop (q + w.length))
  else
    none

/-- Undoing the injection loop: the tracking texts of the units are deleted
from `text`, last inserted first, each at the index where the loop inserted it;
`offset` is the loop's offset before the first of the units. -/
def stripLoop : List Codeblock → Nat → List Char → Option (List Char)
  | [], _, text => some text
  | codeblock :: rest, offset, text =>
    let rangeStart := codeblock.rangeStart + offset
    let rangeStart := if codeblock.type = some "BlockStatement" then rangeStart + 1 else rangeStart
    match stripLoop rest (offset + (watchBlock codeblock).length) text with
    | none => none
    | some text1 => removeAt text1 rangeStart (watchBlock codeblock)

/-- Stripping all inserted tracking calls from an instrumented text. -/
def stripTracking (codeblocks : List Codeblock) (text : List Char) : Option (List Char) :=
  stripLoop codeblocks 0 text

/-- The value a list of decimal digits denotes. -/
def decimalValue (digits : List Char) : Nat :=
  digits.foldl (fun acc c => 10 * acc + (c.toNat - '0'.toNat)) 0

/-- Every unit's id is its index in the module-level array, and the id counter
is the number of units: what the constructor maintains as long as it does not
throw. -/
def Registry.Consistent (reg : Registry) : Prop :=
  reg.nextId = reg.codeblocks.length ∧
    reg.codeblocks.map (fun cb => cb.id) = List.range reg.codeblocks.length

instance (reg : Registry) : Decidable reg.Consistent := by
  unfold Registry.Consistent; infer_instance

/-- Visiting a list of objects one after the other. -/
def visitAll (code : List Char) : List JSValue → DiscoverState → Except Thrown DiscoverState
  | [], st => .ok st
  | node :: rest, st =>
    match visitor code node st with
    | .error e => .error e
    | .ok st1 => visitAll code rest st1

mutual
/-- The objects a traversal of `object` visits, in visiting order: the object
itself, then what the traversals of its object-valued properties visit. -/
def visited (object : JSValue) : List JSValue :=
  match object with
  | .array elems => .array elems :: visitedElems elems
  | .node type range props => .node type range props :: visitedProps props
  | .undefined => [.undefined]
  | .null => [.null]
  | .bool b => [.bool b]
  | .number n => [.number n]
  | .string s => [.string s]
/-- The objects visited below the elements of an array. -/
def visitedElems (elems : List JSValue) : List JSValue :=
  match elems with
  | [] => []
  | child :: rest =>
    (match child with
      | .array _ => visited child
      | .node _ _ _ => visited child
      | _ => []) ++ visitedElems rest
/-- The objects visited below the properties of an object. -/
def visitedProps (props : List (String × JSValue)) : List JSValue :=
  match props with
  | [] => []
  | (_, child) :: rest =>
    (match child with
      | .array _ => visited child
      | .node _ _ _ => visited child
      | _ => []) ++ visitedProps rest
end

/-- The unit the constructor builds from a statement with range `range`. -/
def mkUnit (code : List Char) (id : Nat) (statement : JSValue) (range : Nat × Nat)
    (expression : Bool) : Codeblock :=
  { id := id
    statement := statement
    rangeStart := range.1
    rangeEnd := range.2
    type := statementType statement
    expression := expression
    code := some (substring code range.1 range.2)
    executionCount := 0 }

/-- The units a visit of `node` creates when it does not throw, `id` being the
next free id. -/
def visitUnits (code : List Char) (node : JSValue) (id : Nat) : List Codeblock :=
  match node with
  | .node (some type) (some range) props =>
    let blocks :=
      if regularBlocks.contains type then
        [mkUnit code id (.node (some type) (some range) props) range false]
      else []
    blocks ++
      (if type = "ConditionalExpression" then
        match statementRange (getProp props "consequent"),
            statementRange (getProp props "alternate") with
        | .ok r1, .ok r2 =>
          [mkUnit code (id + blocks.length) (getProp props "consequent") r1 true,
            mkUnit code (id + blocks.length + 1) (getProp props "alternate") r2 true]
        | _, _ => []
      else if type = "SwitchCase" then
        match lengthPositive (getProp props "consequent"),
            switchCaseStatement (getProp props "consequent") with
        | .ok true, .ok (.node (some "SwitchCase") (some r) []) =>
          [mkUnit code (id + blocks.length) (.node (some "SwitchCase") (some r) []) r false]
        | _, _ => []
      else [])
  | _ => []

/-- The units the visits of a list of objects create, one visit after the
other. -/
def visitUnitsAll (code : List Char) : List JSValue → Nat → List Codeblock
  | [], _ => []
  | node :: rest, id =>
    visitUnits code node id ++ visitUnitsAll code rest (id + (visitUnits code node id).length)

/-- A unit that is statement-form and whose type is one of `regularBlocks`. -/
def isBlockUnit (u : Codeblock) : Bool :=
  !u.expression &&
    (match u.type with
      | some t => regularBlocks.contains t
      | none => false)

/-- The type and range of a node that has a range and whose type is one of
`regularBlocks`. -/
def regularBlockNode? : JSValue → Option (String × (Nat × Nat))
  | .node (some type) (some range) _ =>
    if regularBlocks.contains type then some (type, range) else none
  | _ => none

/-- A node of type `ConditionalExpression` that has a range. -/
def isConditionalNode : JSValue → Bool
  | .node (some type) (some _) _ => decide (type = "ConditionalExpression")
  | _ => false

/-- The ranges of the `consequent` and of the `alternate` of a
`ConditionalExpression` node that has a range. -/
def branchRanges : JSValue → List (Nat × Nat)
  | .node (some type) (some _) props =>
    if type = "ConditionalExpression" then
      match statementRange (getProp props "consequent"),
          statementRange (getProp props "alternate") with
      | .ok r1, .ok r2 => [r1, r2]
      | _, _ => []
    else []
  | _ => []

/-- A unit that is statement-form and of type `SwitchCase`. -/
def isSwitchUnit (u : Codeblock) : Bool :=
  !u.expression && decide (u.type = some "SwitchCase")

/-- For a `SwitchCase` node that has a range and a non-empty body: the start of
the first body statement and the end of the last. -/
def switchBody? : JSValue → Option (Nat × Nat)
  | .node (some type) (some _) props =>
    if type = "SwitchCase" then
      match getProp props "consequent" with
      | .array elems =>
        match elems.head?, elems.getLast? with
        | some first, some last =>
          match statementRange first, statementRange last with
          | .ok r1, .ok r2 => some (r1.1, r2.2)
          | _, _ => none
        | _, _ => none
      | _ => none
    else none
  | _ => none

/-- The opening marker of a unit: "covered" when the unit was executed at
least once, "missed" otherwise. -/
def openMarker (u : Codeblock) : List Char :=
  if u.executionCount > 0 then "<span class=\"tailwind-covered\">".toList
  else "<span class=\"tailwind-missed\">".toList

/-- The closing marker. -/
def closeMarker : List Char := "</span>".toList

/-- The markers that belong at position `p`: unit by unit in list order, the
opening marker of a unit that starts at `p`, then the closing marker of a unit
that ends at `p`. -/
def markersAt (units : List Codeblock) (p : Nat) : List Char :=
  units.flatMap (fun u =>
    (if u.rangeStart = p then openMarker u else []) ++
      (if u.rangeEnd = p then closeMarker else []))

/-- One more than the largest position that carries a marker (0 without
units). -/
def markerBound : List Codeblock → Nat
  | [] => 0
  | u :: rest => max (max (u.rangeStart + 1) (u.rangeEnd + 1)) (markerBound rest)

/-- The text `source` with `marks p` inserted in front of the character at
position `p`, for every position `p` below `bound`; what is marked at a position
past the end of the text comes after the text, in position order. -/
def annotate (source : List Char) (marks : Nat → List Char) (bound : Nat) : List Char :=
  (List.range bound).flatMap (fun p => marks p ++ (source[p]?).toList) ++ source.drop bound

/-- The markers queued at index `p` of `coverageLocations`, none at a hole or
past the end. -/
def queuedAt (coverageLocations : CoverageLocations) (p : Nat) : List MarkerType :=
  match coverageLocations[p]? with
  | some (some queued) => queued
  | _ => []

/-- The marker types that belong at position `p`, unit by unit in list
order. -/
def eventsAt (units : List Codeblock) (p : Nat) : List MarkerType :=
  units.flatMap (fun u =>
    (if u.rangeStart = p then [if u.executionCount > 0 then .hitStart else .missStart]
      else []) ++
    (if u.rangeEnd = p then [if u.executionCount > 0 then .hitEnd else .missEnd] else []))

/-- Removing the markers from an annotated text, position by position from
`p` on for `fuel` positions: at each position the markers that belong there
are deleted, and below `sourceLength` one character of the source is kept;
`none` when the markers are not found in place. -/
def stripMarkersFrom (units : List Codeblock) (sourceLength : Nat) :
    Nat → Nat → List Char → Option (List Char)
  | 0, _, text => some text
  | fuel + 1, p, text =>
    if text.take (markersAt units p).length = markersAt units p then
      if p < sourceLength then
        match text.drop (markersAt units p).length with
        | [] => none
        | c :: rest => (stripMarkersFrom units sourceLength fuel (p + 1) rest).map (fun t => c :: t)
      else
        stripMarkersFrom units sourceLength fuel (p + 1) (text.drop (markersAt units p).length)
    else none

/-- Removing from a report text all markers inserted for `units`. -/
def stripMarkers (units : List Codeblock) (sourceLength : Nat) (text : List Char) :
    Option (List Char) :=
  stripMarkersFrom units sourceLength (markerBound units) 0 text

/-- What a parser guarantees about a visited object: it is not `undefined` or
`null`, the `consequent` and `alternate` of a `ConditionalExpression` are
objects with a range, and the `consequent` of a `SwitchCase` is an array whose
first and last elements, if any, are objects with a range. -/
def visitOk : JSValue → Bool
  | .undefined => false
  | .null => false
  | .node (some type) (some _) props =>
    if type = "ConditionalExpression" then
      match statementRange (getProp props "consequent"),
          statementRange (getProp props "alternate") with
      | .ok _, .ok _ => true
      | _, _ => false
    else if type = "SwitchCase" then
      match getProp props "consequent" with
      | .array elems =>
        match elems.head?, elems.getLast? with
        | some first, some last =>
          match statementRange first, statementRange last with
          | .ok _, .ok _ => true
          | _, _ => false
        | _, _ => true
      | _ => false
    else true
  | _ => true

/-- A unit with its execution count put back to 0: the unit as it was created. -/
def Codeblock.resetCount (cb : Codeblock) : Codeblock :=
  { cb with executionCount := 0 }

/-- The parser keeps its guarantees: every tree it returns meets `visitOk` at
every visited object. -/
def Window.ParserOk (window : Window) : Prop :=
  ∀ parse, window.esprima = some parse →
    ∀ code syntaxTree, parse code = .ok syntaxTree → (visited syntaxTree).all visitOk = true

/-- The insertion point of a unit in the source text: its `rangeStart`, and
one more for a unit of type `BlockStatement`. -/
def insertionPoint (u : Codeblock) : Nat :=
  u.rangeStart + (if u.type = some "BlockStatement" then 1 else 0)

/-- The tracking texts that belong at position `p`: those of the units whose
insertion point is `p`, in list order. -/
def trackingAt (units : List Codeblock) (p : Nat) : List Char :=
  units.flatMap (fun u => if insertionPoint u = p then watchBlock u else [])

/-- One more than the largest insertion point (0 without units). -/
def insertionBound : List Codeblock → Nat
  | [] => 0
  | u :: rest => max (insertionPoint u + 1) (insertionBound rest)

/-- The opening marker of a missed unit. -/
def missMarker : List Char := "<span class=\"tailwind-missed\">".toList

/-- A text that can be inserted anywhere without making or completing a miss
marker: it contains none, none of its non-empty endings begins one, and its
first character does not occur in a miss marker after the first character. -/
def Inert (T : List Char) : Prop :=
  ¬ List.IsInfix missMarker T ∧
    (∀ s ∈ T.tails, s ≠ [] → ¬ List.IsPrefix s missMarker) ∧
    (∀ c ∈ T.head?, c ∉ missMarker.tail)

instance (T : List Char) : Decidable (Inert T) := by
  unfold Inert; infer_instance

/-! ## Evaluation of instrumented code -/

/-- The evaluation of a piece of an instrumented script: it starts from the
registry as it is and returns a value together with the registry after its
tracking calls, or throws. -/
abbrev Evaluation := Registry → Except Thrown (JSValue × Registry)

/-- An expression that makes no tracking call and has the value `v`. -/
def valueOf (v : JSValue) : Evaluation :=
  fun reg => .ok (v, reg)

/-- The expression `left || right`: `right` is evaluated only when `left` came
out falsy. -/
def logicalOr (left right : Evaluation) : Evaluation :=
  fun reg =>
    match left reg with
    | .error e => .error e
    | .ok (v, reg1) => if toBoolean v then .ok (v, reg1) else right reg1

/-- The expression `test ? consequent : alternate`. -/
def conditionalExpression (test consequent alternate : Evaluation) : Evaluation :=
  fun reg =>
    match test reg with
    | .error e => .error e
    | .ok (v, reg1) => if toBoolean v then consequent reg1 else alternate reg1

/-- The statement `if ( test ) consequent else alternate` with a `return` at
the end of either branch: the value is the returned one. -/
def ifElse (test consequent alternate : Evaluation) : Evaluation :=
  fun reg =>
    match test reg with
    | .error e => .error e
    | .ok (v, reg1) => if toBoolean v then consequent reg1 else alternate reg1

/-- The statement `first;` followed by `rest`. -/
def andThen (first rest : Evaluation) : Evaluation :=
  fun reg =>
    match first reg with
    | .error e => .error e
    | .ok (_, reg1) => rest reg1

/-- The comparison `left === right` of a value with a primitive value; an
object on either side is never identical to a primitive value. -/
def strictEquals : JSValue → JSValue → Bool
  | .undefined, .undefined => true
  | .null, .null => true
  | .bool a, .bool b => a == b
  | .number a, .number b => a == b
  | .string a, .string b => a == b
  | _, _ => false

/-- The registry after an evaluation, whether it returned or threw. -/
def afterEvaluation (evaluation : Evaluation) (reg : Registry) : Registry :=
  match evaluation reg with
  | .ok (_, reg1) => reg1
  | .error (_, reg1) => reg1

/-- The instrumented form of a ternary `a ? x : y` whose branches have the
unit ids `i` and `j`:
`a ? Tailwind.executeBlock( i ) || x : Tailwind.executeBlock( j ) || y`. -/
def trackedConditional (i j : Nat) (a x y : Evaluation) : Evaluation :=
  conditionalExpression a (logicalOr (executeBlock i) x) (logicalOr (executeBlock j) y)

/-- The function `branching1` of the test script as `branchingInstrumented`
declares it, called with `input`. -/
def branching1 (input : JSValue) : Evaluation :=
  andThen (executeBlock 1)
    (ifElse (valueOf input)
      (andThen (executeBlock 2) (valueOf (.bool true)))
      (andThen (executeBlock 3) (valueOf (.bool false))))

/-- The function `conditional` of the test script as `conditionalInstrumented`
declares it, called with `input`.  The assignment to the global `a` passes the
value on. -/
def conditional (input : JSValue) : Evaluation :=
  andThen (executeBlock 1)
    (conditionalExpression (valueOf (.bool (strictEquals input (.bool true))))
      (logicalOr (executeBlock 2) (valueOf (.bool true)))
      (conditionalExpression
        (logicalOr (executeBlock 3) (valueOf (.bool (strictEquals input (.number 0)))))
        (logicalOr (executeBlock 4) (valueOf (.number 0)))
        (logicalOr (executeBlock 5) (valueOf input))))

/-- The number `getReport().executed` of a stats object when the registry is
`reg`. -/
def executedAt (stats : TailwindStats) (reg : Registry) : Nat :=
  (stats.current reg).getReport.1.executed

/-! ## Ranges of units -/

/-- The range of a unit. -/
def unitRange (u : Codeblock) : Nat × Nat :=
  (u.rangeStart, u.rangeEnd)

/-- Two ranges apart from each other: one ends where the other starts, or
before. -/
def Apart (a b : Nat × Nat) : Prop :=
  a.2 ≤ b.1 ∨ b.2 ≤ a.1

instance (a b : Nat × Nat) : Decidable (Apart a b) := by
  unfold Apart; infer_instance

/-- The range `a` lies within the range `b`. -/
def Within (a b : Nat × Nat) : Prop :=
  b.1 ≤ a.1 ∧ a.2 ≤ b.2

instance (a b : Nat × Nat) : Decidable (Within a b) := by
  unfold Within; infer_instance

/-- Two ranges that are disjoint or nested (equal ranges included). -/
def Laminar (a b : Nat × Nat) : Prop :=
  Apart a b ∨ Within a b ∨ Within b a

instance (a b : Nat × Nat) : Decidable (Laminar a b) := by
  unfold Laminar; infer_instance

/-- How the range `a` of a unit stands to the range `b` of a unit discovered
after it: they are apart, or `b` lies within `a`. -/
def Precedes (a b : Nat × Nat) : Prop :=
  Apart a b ∨ Within b a

instance (a b : Nat × Nat) : Decidable (Precedes a b) := by
  unfold Precedes; infer_instance

/-- How the range `a` of a unit stands to the range `b` of a unit listed after
it in the order of the report: `a` starts no later than `b`, and it ends where
`b` starts or before, or no earlier than `b` ends. -/
def InListOrder (a b : Nat × Nat) : Prop :=
  a.1 ≤ b.1 ∧ (a.2 ≤ b.1 ∨ b.2 ≤ a.2)

instance (a b : Nat × Nat) : Decidable (InListOrder a b) := by
  unfold InListOrder; infer_instance

/-- The ranges of the units a visit of `node` creates, in the order of
creation. -/
def ownRanges (node : JSValue) : List (Nat × Nat) :=
  (visitUnits [] node 0).map unitRange

mutual
/-- The ranges of the topmost nodes with a range in `object`: its own range if
it has one, otherwise those found in its properties or elements. -/
def tops (object : JSValue) : List (Nat × Nat) :=
  match object with
  | .node _ (some range) _ => [range]
  | .node _ none props => topsProps props
  | .array elems => topsElems elems
  | _ => []
/-- The ranges of the topmost nodes with a range in the elements of an
array. -/
def topsElems (elems : List JSValue) : List (Nat × Nat) :=
  match elems with
  | [] => []
  | child :: rest => tops child ++ topsElems rest
/-- The ranges of the topmost nodes with a range in the properties of an
object. -/
def topsProps (props : List (String × JSValue)) : List (Nat × Nat) :=
  match props with
  | [] => []
  | (_, child) :: rest => tops child ++ topsProps rest
end

/-- What a parser guarantees about a range `r` of a unit created at a node with
range `range`, `below` being the ranges of the nodes directly below that node:
`r` is not inverted and lies within `range`, and every node directly below
lies within `r` or apart from it (for the body of a case: the body statements
lie between the start of the first and the end of the last, and the test lies
before them). -/
def unitRangeOk (range : Nat × Nat) (below : List (Nat × Nat)) (r : Nat × Nat) : Bool :=
  decide (r.1 ≤ r.2) && decide (Within r range) &&
    below.all (fun t => decide (Within t r ∨ Apart t r))

mutual
/-- What a parser guarantees about the ranges in a tree: the range of a node
is not inverted, the nodes directly below a node lie within its range and
apart from each other, and the units created at the node meet `unitRangeOk`. -/
def wellRanged (object : JSValue) : Bool :=
  match object with
  | .node type (some range) props =>
    decide (range.1 ≤ range.2) &&
      (topsProps props).all (fun t => decide (Within t range)) &&
      decide ((topsProps props).Pairwise Apart) &&
      (ownRanges (.node type (some range) props)).all (unitRangeOk range (topsProps props)) &&
      wellRangedProps props
  | .node _ none props =>
    decide ((topsProps props).Pairwise Apart) && wellRangedProps props
  | .array elems =>
    decide ((topsElems elems).Pairwise Apart) && wellRangedElems elems
  | _ => true
/-- The guarantee `wellRanged` for the elements of an array. -/
def wellRangedElems (elems : List JSValue) : Bool :=
  match elems with
  | [] => true
  | child :: rest => wellRanged child && wellRangedElems rest
/-- The guarantee `wellRanged` for the properties of an object. -/
def wellRangedProps (props : List (String × JSValue)) : Bool :=
  match props with
  | [] => true
  | (_, child) :: rest => wellRanged child && wellRangedProps rest
end

/-! ## Nesting of markers -/

/-- A marker as `html` queues and inserts it: the opening or the closing
marker of the unit `u`. -/
inductive Mark where
  | opening (u : Codeblock) : Mark
  | closing (u : Codeblock) : Mark

/-- The `type` with which `html` queues a marker. -/
def Mark.type : Mark → MarkerType
  | .opening u => if u.executionCount > 0 then .hitStart else .missStart
  | .closing u => if u.executionCount > 0 then .hitEnd else .missEnd

/-- The markers queued for position `p`, in the order of the queue: unit by
unit in list order, the opening marker of a unit that starts at `p`, then the
closing marker of a unit that ends at `p`. -/
def marksAt (units : List Codeblock) (p : Nat) : List Mark :=
  units.flatMap (fun u =>
    (if u.rangeStart = p then [Mark.opening u] else []) ++
      (if u.rangeEnd = p then [Mark.closing u] else []))

/-- All markers in the order in which they stand in the report, left to
right. -/
def allMarks (units : List Codeblock) : List Mark :=
  (List.range (markerBound units)).flatMap (marksAt units)

/-- Bracket matching of the markers read left to right.  `stack` holds the
units whose opening marker is not closed yet, innermost first.  The result
lists, closing marker by closing marker, the unit whose opening marker it
closes and the unit for which it was inserted, and gives the stack left at the
end; there is no result when a closing marker comes with no opening marker
left to close. -/
def matchMarks : List Mark → List Codeblock →
    Option (List (Codeblock × Codeblock) × List Codeblock)
  | [], stack => some ([], stack)
  | .opening u :: rest, stack => matchMarks rest (u :: stack)
  | .closing _ :: _, [] => none
  | .closing c :: rest, o :: stack =>
    (matchMarks rest stack).map (fun r => ((o, c) :: r.1, r.2))

/-! ## Starts of units -/

/-- What the forward pass reads of a unit besides its text: whether its type
is `BlockStatement`, and its range. -/
def unitStart (u : Codeblock) : Bool × (Nat × Nat) :=
  (decide (u.type = some "BlockStatement"), unitRange u)

/-- The insertion point that goes with `unitStart`: the start of the range,
and one more for a unit of type `BlockStatement`. -/
def startPoint (x : Bool × (Nat × Nat)) : Nat :=
  x.2.1 + (if x.1 = true then 1 else 0)

/-- The `unitStart` of the units a visit of `node` creates, in the order of
creation. -/
def ownStarts (node : JSValue) : List (Bool × (Nat × Nat)) :=
  (visitUnits [] node 0).map unitStart

/-- What a parser guarantees about a unit created at a node of type `type`
with range `range`, `below` being the ranges of the nodes directly below that
node: the unit is not empty; a unit of type `BlockStatement` is created only
for a block, which holds its two braces, with every node directly below after
the opening brace; any other unit (a branch of a ternary, the body of a case)
starts after the start of the node it is created at. -/
def unitStartOk (type : Option String) (range : Nat × Nat) (below : List (Nat × Nat))
    (x : Bool × (Nat × Nat)) : Bool :=
  decide (x.2.1 < x.2.2) &&
    (if x.1 = true then
      decide (type = some "BlockStatement") && decide (range.1 + 2 ≤ range.2) &&
        below.all (fun t => decide (range.1 < t.1))
    else decide (range.1 < x.2.1))

mutual
/-- The guarantee `unitStartOk` for every unit created at or below `object`. -/
def startsOk (object : JSValue) : Bool :=
  match object with
  | .node type (some range) props =>
    (ownStarts (.node type (some range) props)).all (unitStartOk type range (topsProps props)) &&
      startsOkProps props
  | .node _ none props => startsOkProps props
  | .array elems => startsOkElems elems
  | _ => true
/-- The guarantee `startsOk` for the elements of an array. -/
def startsOkElems (elems : List JSValue) : Bool :=
  match elems with
  | [] => true
  | child :: rest => startsOk child && startsOkElems rest
/-- The guarantee `startsOk` for the properties of an object. -/
def startsOkProps (props : List (String × JSValue)) : Bool :=
  match props with
  | [] => true
  | (_, child) :: rest => startsOk child && startsOkProps rest
end

/-- What a parser guarantees about the tree it returns: the root is a
`Program` node, and everything below it meets `startsOk`.  (The `Program` unit
itself may be empty, for a source without tokens.) -/
def programOk (syntaxTree : JSValue) : Bool :=
  match syntaxTree with
  | .node (some type) _ props => decide (type = "Program") && startsOkProps props
  | _ => false

/-- How a unit stands to a unit discovered after it, for the forward pass:
their insertion points differ, and if both start at the same position the
insertion point of the earlier one comes first. -/
def DiscoveredBefore (a b : Bool × (Nat × Nat)) : Prop :=
  startPoint a ≠ startPoint b ∧ (a.2.1 = b.2.1 → startPoint a < startPoint b)

/-- A unit that is not empty, and holds two characters if it is of type
`BlockStatement`. -/
def GoodStart (x : Bool × (Nat × Nat)) : Prop :=
  x.2.1 < x.2.2 ∧ (x.1 = true → x.2.1 + 2 ≤ x.2.2)

/-! ## Sample inputs -/

/-- A parse of the source text `a;`. -/
def programTree : JSValue :=
  .node (some "Program") (some (0, 2)) [("body", .array [
    .node (some "ExpressionStatement") (some (0, 2)) [
      ("expression", .node (some "Identifier") (some (0, 1)) [("name", .string "a")])]])]

/-- The unit discovery creates for the `Program` node of `programTree`. -/
def programUnit : Codeblock :=
  { id := 0, statement := programTree, rangeStart := 0, rangeEnd := 2, type := some "Program",
    expression := false, code := some "a;".toList, executionCount := 0 }

/-- A registry of two units, the second already executed three times. -/
def sampleRegistry : Registry :=
  { nextId := 2,
    codeblocks :=
      [ { id := 0, statement := programTree, rangeStart := 0, rangeEnd := 2,
          type := some "Program", expression := false, code := some "a;".toList,
          executionCount := 0 },
        { id := 1, statement := .node (some "Identifier") (some (0, 1)) [],
          rangeStart := 0, rangeEnd := 1, type := some "Identifier", expression := true,
          code := some "a".toList, executionCount := 3 } ] }

/-- A parse of the source text `switch(x){case 1:a?b:c;break;default:}`. -/
def switchTree : JSValue :=
  .node (some "Program") (some (0, 38)) [("body", .array [
    .node (some "SwitchStatement") (some (0, 38)) [
      ("discriminant", .node (some "Identifier") (some (7, 8)) [("name", .string "x")]),
      ("cases", .array [
        .node (some "SwitchCase") (some (10, 29)) [
          ("test", .node (some "Literal") (some (15, 16)) [("value", .number 1)]),
          ("consequent", .array [
            .node (some "ExpressionStatement") (some (17, 23)) [
              ("expression", .node (some "ConditionalExpression") (some (17, 22)) [
                ("test", .node (some "Identifier") (some (17, 18)) [("name", .string "a")]),
                ("consequent",
                  .node (some "Identifier") (some (19, 20)) [("name", .string "b")]),
                ("alternate",
                  .node (some "Identifier") (some (21, 22)) [("name", .string "c")])])],
            .node (some "BreakStatement") (some (23, 29)) [("label", .null)]])],
        .node (some "SwitchCase") (some (29, 37)) [
          ("test", .null),
          ("consequent", .array [])]])]])]

/-- The source text of `switchTree`. -/
def switchSource : List Char :=
  "switch(x)\x7bcase 1:a?b:c;break;default:\x7d".toList

/-- A parse of the source text `x(function(){})?b:c`. -/
def ternaryTree : JSValue :=
  .node (some "Program") (some (0, 19)) [("body", .array [
    .node (some "ExpressionStatement") (some (0, 19)) [
      ("expression", .node (some "ConditionalExpression") (some (0, 19)) [
        ("test", .node (some "CallExpression") (some (0, 15)) [
          ("callee", .node (some "Identifier") (some (0, 1)) [("name", .string "x")]),
          ("arguments", .array [
            .node (some "FunctionExpression") (some (2, 14)) [
              ("id", .null),
              ("params", .array []),
              ("defaults", .array []),
              ("body", .node (some "BlockStatement") (some (12, 14)) [("body", .array [])]),
              ("rest", .null),
              ("generator", .bool false),
              ("expression", .bool false)]])]),
        ("consequent", .node (some "Identifier") (some (16, 17)) [("name", .string "b")]),
        ("alternate", .node (some "Identifier") (some (18, 19)) [("name", .string "c")])])]])]

/-- The source text of `ternaryTree`. -/
def ternarySource : List Char :=
  "x(function()\x7b\x7d)?b:c".toList

/-- The state after discovery on `ternaryTree` from a fresh registry. -/
def ternaryDiscovered : DiscoverState :=
  match discover ternarySource ternaryTree Registry.init with
  | .ok st => st
  | .error e => (e.2, [])

/-- A parser that knows `ternarySource`. -/
def ternaryParse (code : List Char) : Except JSError JSValue :=
  if code = ternarySource then .ok ternaryTree else .error (.error "Unexpected token")

/-- A page on which `x` calls its argument and returns a truthy value. -/
def ternaryWindow : Window :=
  { esprima := some ternaryParse, eval := fun _ => ([0, 3, 1], none) }

/-- A page on which `x` is not defined. -/
def undefinedWindow : Window :=
  { esprima := some ternaryParse, eval := fun _ => ([0], some (.error "x is not defined")) }

/-- A page on which `x` calls its argument and then throws. -/
def throwingWindow : Window :=
  { esprima := some ternaryParse,
    eval := fun _ => ([0, 3], some (.error "x is not defined")) }

/-- The state after a second discovery on `ternaryTree`, following one run of
`runCode` on `ternaryWindow`. -/
def secondDiscovered : DiscoverState :=
  match discover ternarySource ternaryTree
      (afterRunCodes Registry.init [(ternaryWindow, ternarySource)]) with
  | .ok st => st
  | .error e => (e.2, [])

/-- The source text of `quotedTree`: two lines, the second one assigning a
string that spells the opening marker of a missed unit. -/
def quotedSource : List Char :=
  "a;\nb = \x27<span class=\"tailwind-missed\">\x27;".toList

/-- A parse of `quotedSource`. -/
def quotedTree : JSValue :=
  .node (some "Program") (some (0, 40)) [("body", .array [
    .node (some "ExpressionStatement") (some (0, 2)) [
      ("expression", .node (some "Identifier") (some (0, 1)) [("name", .string "a")])],
    .node (some "ExpressionStatement") (some (3, 40)) [
      ("expression", .node (some "AssignmentExpression") (some (3, 39)) [
        ("operator", .string "="),
        ("left", .node (some "Identifier") (some (3, 4)) [("name", .string "b")]),
        ("right", .node (some "Literal") (some (7, 39)) [
          ("value", .string "<span class=\"tailwind-missed\">")])])]])]

/-- The stats of a run of `quotedSource`: its one unit, executed once. -/
def quotedStats : TailwindStats :=
  { sourceCode := quotedSource,
    codeblocks :=
      [ { id := 0, statement := quotedTree, rangeStart := 0, rangeEnd := 40,
          type := some "Program", expression := false, code := some quotedSource,
          executionCount := 1 } ] }

/-- A parse of the two lines `a;` and `b;`. -/
def twoLineTree : JSValue :=
  .node (some "Program") (some (0, 5)) [("body", .array [
    .node (some "ExpressionStatement") (some (0, 2)) [
      ("expression", .node (some "Identifier") (some (0, 1)) [("name", .string "a")])],
    .node (some "ExpressionStatement") (some (3, 5)) [
      ("expression", .node (some "Identifier") (some (3, 4)) [("name", .string "b")])]])]

/-- The stats of a run of the two lines `a;` and `b;`: one unit, executed once. -/
def twoLineStats : TailwindStats :=
  { sourceCode := "a;\nb;".toList,
    codeblocks :=
      [ { id := 0, statement := twoLineTree, rangeStart := 0, rangeEnd := 5,
          type := some "Program", expression := false, code := some "a;\nb;".toList,
          executionCount := 1 } ] }

/-- The stats of a run of the one-line source `a;`: one unit, executed once. -/
def oneLineStats : TailwindStats :=
  { sourceCode := "a;".toList, codeblocks := [programUnit.countExecution] }

/-- A parse of the three lines `a;`, an empty line and `b;`. -/
def blankLineTree : JSValue :=
  .node (some "Program") (some (0, 6)) [("body", .array [
    .node (some "ExpressionStatement") (some (0, 2)) [
      ("expression", .node (some "Identifier") (some (0, 1)) [("name", .string "a")])],
    .node (some "ExpressionStatement") (some (4, 6)) [
      ("expression", .node (some "Identifier") (some (4, 5)) [("name", .string "b")])]])]

/-- The stats of a run of the three lines `a;`, an empty line and `b;`: one
unit, executed once. -/
def blankLineStats : TailwindStats :=
  { sourceCode := "a;\n\nb;".toList,
    codeblocks :=
      [ { id := 0, statement := blankLineTree, rangeStart := 0, rangeEnd := 6,
          type := some "Program", expression := false, code := some "a;\n\nb;".toList,
          executionCount := 1 } ] }

/-- The function `branching1` of the test script, as a script of its own. -/
def branchingSource : List Char :=
  ("function branching1( input )\n\x7b\n    if ( input )\n    \x7b\n        return true;\n" ++
    "    \x7d\n    else\n    \x7b\n        return false;\n    \x7d\n\x7d").toList

/-- A parse of `branchingSource`. -/
def branchingTree : JSValue :=
  .node (some "Program") (some (0, 125)) [("body", .array [
    .node (some "FunctionDeclaration") (some (0, 125)) [
      ("id", .node (some "Identifier") (some (9, 19)) [("name", .string "branching1")]),
      ("params", .array [
        .node (some "Identifier") (some (21, 26)) [("name", .string "input")]]),
      ("defaults", .array []),
      ("body", .node (some "BlockStatement") (some (29, 125)) [("body", .array [
        .node (some "IfStatement") (some (35, 123)) [
          ("test", .node (some "Identifier") (some (40, 45)) [("name", .string "input")]),
          ("consequent", .node (some "BlockStatement") (some (52, 80)) [("body", .array [
            .node (some "ReturnStatement") (some (62, 74)) [
              ("argument", .node (some "Literal") (some (69, 73)) [("value", .bool true)])]])]),
          ("alternate", .node (some "BlockStatement") (some (94, 123)) [("body", .array [
            .node (some "ReturnStatement") (some (104, 117)) [
              ("argument",
                .node (some "Literal") (some (111, 116)) [("value", .bool false)])]])])]])]),
      ("rest", .null),
      ("generator", .bool false),
      ("expression", .bool false)]])]

/-- The text `runCode` evaluates for `branchingSource`. -/
def branchingInstrumented : List Char :=
  ("Tailwind.executeBlock( 0 );function branching1( input )\n" ++
    "\x7bTailwind.executeBlock( 1 );\n    if ( input )\n" ++
    "    \x7bTailwind.executeBlock( 2 );\n        return true;\n    \x7d\n    else\n" ++
    "    \x7bTailwind.executeBlock( 3 );\n        return false;\n    \x7d\n\x7d").toList

/-- A page with a parser that knows `branchingSource`; evaluating
`branchingInstrumented` makes the tracking call of the `Program` unit and
declares the function. -/
def branchingWindow : Window :=
  { esprima := some (fun code =>
      if code = branchingSource then .ok branchingTree else .error (.error "Unexpected token")),
    eval := fun modifiedCode =>
      if modifiedCode = branchingInstrumented then ([0], none)
      else ([], some (.error "Unexpected token")) }

/-- The function `conditional` of the test script, as a script of its own. -/
def conditionalSource : List Char :=
  ("function conditional( input )\n\x7b\n" ++
    "    return a = input === true ? true : ( input === 0 ? 0 : input );\n\x7d").toList

/-- A parse of `conditionalSource`. -/
def conditionalTree : JSValue :=
  .node (some "Program") (some (0, 101)) [("body", .array [
    .node (some "FunctionDeclaration") (some (0, 101)) [
      ("id", .node (some "Identifier") (some (9, 20)) [("name", .string "conditional")]),
      ("params", .array [
        .node (some "Identifier") (some (22, 27)) [("name", .string "input")]]),
      ("defaults", .array []),
      ("body", .node (some "BlockStatement") (some (30, 101)) [("body", .array [
        .node (some "ReturnStatement") (some (36, 99)) [
          ("argument", .node (some "AssignmentExpression") (some (43, 98)) [
            ("operator", .string "="),
            ("left", .node (some "Identifier") (some (43, 44)) [("name", .string "a")]),
            ("right", .node (some "ConditionalExpression") (some (47, 98)) [
              ("test", .node (some "BinaryExpression") (some (47, 61)) [
                ("operator", .string "==="),
                ("left", .node (some "Identifier") (some (47, 52)) [("name", .string "input")]),
                ("right", .node (some "Literal") (some (57, 61)) [("value", .bool true)])]),
              ("consequent", .node (some "Literal") (some (64, 68)) [("value", .bool true)]),
              ("alternate", .node (some "ConditionalExpression") (some (73, 96)) [
                ("test", .node (some "BinaryExpression") (some (73, 84)) [
                  ("operator", .string "==="),
                  ("left",
                    .node (some "Identifier") (some (73, 78)) [("name", .string "input")]),
                  ("right", .node (some "Literal") (some (83, 84)) [("value", .number 0)])]),
                ("consequent", .node (some "Literal") (some (87, 88)) [("value", .number 0)]),
                ("alternate",
                  .node (some "Identifier") (some (91, 96)) [("name", .string "input")])])])])]])]),
      ("rest", .null),
      ("generator", .bool false),
      ("expression", .bool false)]])]

/-- The text `runCode` evaluates for `conditionalSource`. -/
def conditionalInstrumented : List Char :=
  ("Tailwind.executeBlock( 0 );function conditional( input )\n" ++
    "\x7bTailwind.executeBlock( 1 );\n" ++
    "    return a = input === true ? Tailwind.executeBlock( 2 ) || true : " ++
    "( Tailwind.executeBlock( 3 ) || input === 0 ? Tailwind.executeBlock( 4 ) || 0 : " ++
    "Tailwind.executeBlock( 5 ) || input );\n\x7d").toList

/-- A page with a parser that knows `conditionalSource`; evaluating
`conditionalInstrumented` makes the tracking call of the `Program` unit and
declares the function. -/
def conditionalWindow : Window :=
  { esprima := some (fun code =>
      if code = conditionalSource then .ok conditionalTree
      else .error (.error "Unexpected token")),
    eval := fun modifiedCode =>
      if modifiedCode = conditionalInstrumented then ([0], none)
      else ([], some (.error "Unexpected token")) }

/-- The stats object `runCode` returns for `branchingSource` on a fresh module
(an empty one if it threw). -/
def branchingStats : TailwindStats :=
  match runCode branchingWindow branchingSource Registry.init with
  | .ok (stats, _) => stats
  | .error _ => { sourceCode := [], codeblocks := [] }

/-- The registry after that call of `runCode`. -/
def branchingLoaded : Registry :=
  afterRunCode Registry.init (branchingWindow, branchingSource)

/-- The stats object `runCode` returns for `conditionalSource` on a fresh
module (an empty one if it threw). -/
def conditionalStats : TailwindStats :=
  match runCode conditionalWindow conditionalSource Registry.init with
  | .ok (stats, _) => stats
  | .error _ => { sourceCode := [], codeblocks := [] }

/-- The registry after that call of `runCode`. -/
def conditionalLoaded : Registry :=
  afterRunCode Registry.init (conditionalWindow, conditionalSource)

/-- A parse of the source text `{}`. -/
def blockTree : JSValue :=
  .node (some "Program") (some (0, 2)) [("body", .array [
    .node (some "BlockStatement") (some (0, 2)) [("body", .array [])]])]

/-- The source text `switch(x){case 1:{}}`. -/
def caseBlockSource : List Char :=
  "switch(x)\x7bcase 1:\x7b\x7d\x7d".toList

/-- A parse of `caseBlockSource`. -/
def caseBlockTree : JSValue :=
  .node (some "Program") (some (0, 20)) [("body", .array [
    .node (some "SwitchStatement") (some (0, 20)) [
      ("discriminant", .node (some "Identifier") (some (7, 8)) [("name", .string "x")]),
      ("cases", .array [
        .node (some "SwitchCase") (some (10, 19)) [
          ("test", .node (some "Literal") (some (15, 16)) [("value", .number 1)]),
          ("consequent", .array [
            .node (some "BlockStatement") (some (17, 19)) [("body", .array [])]])]])]])]

/-- The stats object `runCode` returns for `ternarySource` on `ternaryWindow`,
where the `Program`, the block and the first branch run and the second branch
does not (an empty one if it threw). -/
def ternaryStats : TailwindStats :=
  match runCode ternaryWindow ternarySource Registry.init with
  | .ok (stats, _) => stats
  | .error _ => { sourceCode := [], codeblocks := [] }

/-- A parse of the source text `{a}`. -/
def braceTree : JSValue :=
  .node (some "Program") (some (0, 3)) [("body", .array [
    .node (some "BlockStatement") (some (0, 3)) [("body", .array [
      .node (some "ExpressionStatement") (some (1, 2)) [
        ("expression", .node (some "Identifier") (some (1, 2)) [("name", .string "a")])]])]])]

/-- The source text `{a}`. -/
def braceSource : List Char :=
  "\x7ba\x7d".toList

/-- The unit list `runCode` builds for `braceSource`: the units discovered in
`braceTree` on a fresh module, sorted (none if discovery threw). -/
def braceUnits : List Codeblock :=
  match discover braceSource braceTree Registry.init with
  | .ok st => sortCodeblocks st.2
  | .error _ => []

/-! ## Helper lemmas -/

theorem substring_zero (s : List Char) (n : Nat) : substring s 0 n = s.take n := by
  simp [substring]

theorem removeAt_splice (s w : List Char) (p : Nat) :
    removeAt (s.take p ++ w ++ s.drop p) p w = some s := by
  have hq : min p ((s.take p ++ w ++ s.drop p).length - w.length) = (s.take p).length := by
    simp only [List.length_append, List.length_take, List.length_drop]
    omega
  unfold removeAt
  simp only [hq]
  have h1 : (s.take p ++ w ++ s.drop p).drop (s.take p).length = w ++ s.drop p := by
    rw [List.append_assoc, List.drop_left]
  have h2 : (s.take p ++ w ++ s.drop p).drop ((s.take p).length + w.length) = s.drop p := by
    rw [← List.drop_drop, h1, List.drop_left]
  have h3 : (s.take p ++ w ++ s.drop p).take (s.take p).length = s.take p := by
    rw [List.append_assoc, List.take_left]
  rw [h1, h2, h3, List.take_left, List.take_append_drop]
  simp only [List.length_append, and_true, ite_eq_left_iff, reduceCtorEq, imp_false, not_not]
  omega

theorem injectStep_eq (st : List Char × Nat) (cb : Codeblock) :
    injectStep st cb =
      (st.1.take (cb.rangeStart + st.2 + (if cb.type = some "BlockStatement" then 1 else 0))
          ++ watchBlock cb
          ++ st.1.drop (cb.rangeStart + st.2 + (if cb.type = some "BlockStatement" then 1 else 0)),
        st.2 + (watchBlock cb).length) := by
  unfold injectStep
  by_cases h : cb.type = some "BlockStatement" <;>
    simp [h, substring_zero, substringFrom]

theorem stripLoop_injectLoop (cbs : List Codeblock) :
    ∀ (m : List Char) (offset : Nat),
      stripLoop cbs offset (injectLoop cbs (m, offset)).1 = some m := by
  induction cbs with
  | nil => intro m offset; rfl
  | cons cb rest ih =>
    intro m offset
    simp only [injectLoop, stripLoop]
    rw [injectStep_eq]
    simp only []
    rw [ih]
    simp only []
    have hp : (if cb.type = some "BlockStatement" then cb.rangeStart + offset + 1
        else cb.rangeStart + offset)
        = cb.rangeStart + offset + (if cb.type = some "BlockStatement" then 1 else 0) := by
      split <;> rfl
    rw [hp]
    exact removeAt_splice m (watchBlock cb) _

theorem sublist_injectLoop (cbs : List Codeblock) :
    ∀ (st : List Char × Nat), st.1.Sublist (injectLoop cbs st).1 := by
  induction cbs with
  | nil => intro st; exact List.Sublist.refl _
  | cons cb rest ih =>
    intro st
    simp only [injectLoop]
    refine List.Sublist.trans ?_ (ih _)
    rw [injectStep_eq]
    simp only []
    have h := List.take_append_drop
      (cb.rangeStart + st.2 + (if cb.type = some "BlockStatement" then 1 else 0)) st.1
    conv_lhs => rw [← h]
    rw [List.append_assoc]
    exact List.Sublist.append (List.Sublist.refl _) (List.sublist_append_right _ _)

theorem length_injectLoop (cbs : List Codeblock) :
    ∀ (st : List Char × Nat),
      (injectLoop cbs st).1.length
        = st.1.length + (cbs.map (fun cb => (watchBlock cb).length)).sum := by
  induction cbs with
  | nil => intro st; simp [injectLoop]
  | cons cb rest ih =>
    intro st
    simp only [injectLoop]
    rw [ih, injectStep_eq]
    simp only [List.length_append, List.length_take, List.length_drop, List.map_cons,
      List.sum_cons]
    omega

theorem digitChar_value (d : Nat) (h : d < 10) :
    (Nat.digitChar d).toNat - '0'.toNat = d := by
  interval_cases d <;> rfl

theorem decimalValue_toDigitsCore (fuel : Nat) :
    ∀ (n : Nat) (ds : List Char), n < fuel →
      List.foldl (fun acc c => 10 * acc + (c.toNat - '0'.toNat)) 0
          (Nat.toDigitsCore 10 fuel n ds)
        = List.foldl (fun acc c => 10 * acc + (c.toNat - '0'.toNat)) n ds := by
  induction fuel with
  | zero => intro n ds h; omega
  | succ fuel ih =>
    intro n ds h
    unfold Nat.toDigitsCore
    simp only []
    have hd := digitChar_value (n % 10) (Nat.mod_lt _ (by decide))
    by_cases h0 : n / 10 = 0
    · simp only [h0, if_true, List.foldl_cons, hd]
      congr 1
      omega
    · simp only [h0, if_false]
      rw [ih (n / 10) _ (by omega)]
      simp only [List.foldl_cons, hd]
      congr 1
      omega

theorem decimalValue_toDigits (n : Nat) : decimalValue (toString n).toList = n := by
  show decimalValue (Nat.toDigits 10 n) = n
  unfold decimalValue Nat.toDigits
  rw [decimalValue_toDigitsCore (n + 1) n [] (by omega)]
  rfl

theorem getReportLoop_eq (cbs : List Codeblock) :
    ∀ (report : Report),
      getReportLoop cbs report
        = { statements := report.statements,
            executed := report.executed
              + (cbs.filter (fun cb => decide (cb.executionCount > 0))).length } := by
  induction cbs with
  | nil => intro report; rfl
  | cons cb rest ih =>
    intro report
    unfold getReportLoop
    by_cases h : cb.executionCount > 0
    · simp only [h, if_true, ih, List.filter_cons, decide_True, List.length_cons]
      congr 1
      omega
    · simp only [h, if_false, ih, List.filter_cons, decide_False]
      rfl

theorem consistent_id_getElem (reg : Registry) (hreg : reg.Consistent) (k : Nat)
    (hk : k < reg.codeblocks.length) : (reg.codeblocks[k]).id = k := by
  have h := hreg.2
  have h1 : (reg.codeblocks.map (fun cb => cb.id))[k]? = (List.range reg.codeblocks.length)[k]? := by
    rw [h]
  rw [List.getElem?_map, List.getElem?_range hk, List.getElem?_eq_getElem hk] at h1
  simpa using h1

theorem consistent_getElem (reg : Registry) (hreg : reg.Consistent) (cb : Codeblock)
    (hcb : cb ∈ reg.codeblocks) : reg.codeblocks[cb.id]? = some cb := by
  obtain ⟨k, hk, rfl⟩ := List.getElem_of_mem hcb
  rw [consistent_id_getElem reg hreg k hk]
  exact List.getElem?_eq_getElem hk

theorem consistent_set_eq_map (reg : Registry) (hreg : reg.Consistent) (cb : Codeblock)
    (hcb : cb ∈ reg.codeblocks) :
    reg.codeblocks.set cb.id { cb with executionCount := cb.executionCount + 1 }
      = reg.codeblocks.map (fun u =>
          if u.id = cb.id then { u with executionCount := u.executionCount + 1 } else u) := by
  obtain ⟨k, hk, rfl⟩ := List.getElem_of_mem hcb
  have hid := consistent_id_getElem reg hreg k hk
  apply List.ext_getElem
  · simp
  · intro j h1 h2
    have hj : j < reg.codeblocks.length := by simpa using h2
    rw [List.getElem_map, List.getElem_set]
    have hj2 := consistent_id_getElem reg hreg j hj
    by_cases hkj : k = j
    · subst hkj; simp [hid]
    · have hjk : ¬ j = k := fun h => hkj h.symm
      simp [hid, hj2, hkj, hjk]

theorem forall₂_set_countExecution (l : List Codeblock) :
    ∀ (i : Nat) (cb : Codeblock), l[i]? = some cb →
      List.Forall₂
        (fun u v => v.id = u.id ∧ v.rangeStart = u.rangeStart ∧ v.rangeEnd = u.rangeEnd ∧
          u.executionCount ≤ v.executionCount)
        l (l.set i cb.countExecution) := by
  induction l with
  | nil => intro i cb h; simp at h
  | cons a rest ih =>
    intro i cb h
    cases i with
    | zero =>
      simp only [List.getElem?_cons_zero, Option.some.injEq] at h
      subst h
      simp only [List.set_cons_zero]
      refine List.Forall₂.cons ⟨rfl, rfl, rfl, ?_⟩ ?_
      · simp [Codeblock.countExecution]
      · exact List.forall₂_same.mpr (fun u _ => ⟨rfl, rfl, rfl, Nat.le_refl _⟩)
    | succ i =>
      simp only [List.getElem?_cons_succ] at h
      simp only [List.set_cons_succ]
      exact List.Forall₂.cons ⟨rfl, rfl, rfl, Nat.le_refl _⟩ (ih i cb h)

theorem forall₂_afterExecuteBlock (reg : Registry) (blockId : Nat) :
    List.Forall₂
      (fun u v => v.id = u.id ∧ v.rangeStart = u.rangeStart ∧ v.rangeEnd = u.rangeEnd ∧
        u.executionCount ≤ v.executionCount)
      reg.codeblocks (afterExecuteBlock reg blockId).codeblocks := by
  unfold afterExecuteBlock executeBlock
  cases h : reg.codeblocks[blockId]? with
  | none => exact List.forall₂_same.mpr (fun u _ => ⟨rfl, rfl, rfl, Nat.le_refl _⟩)
  | some cb => exact forall₂_set_countExecution reg.codeblocks blockId cb h

theorem forall₂_counts_trans {l1 l2 l3 : List Codeblock}
    (h1 : List.Forall₂
      (fun u v => v.id = u.id ∧ v.rangeStart = u.rangeStart ∧ v.rangeEnd = u.rangeEnd ∧
        u.executionCount ≤ v.executionCount) l1 l2)
    (h2 : List.Forall₂
      (fun u v => v.id = u.id ∧ v.rangeStart = u.rangeStart ∧ v.rangeEnd = u.rangeEnd ∧
        u.executionCount ≤ v.executionCount) l2 l3) :
    List.Forall₂
      (fun u v => v.id = u.id ∧ v.rangeStart = u.rangeStart ∧ v.rangeEnd = u.rangeEnd ∧
        u.executionCount ≤ v.executionCount) l1 l3 := by
  induction h1 generalizing l3 with
  | nil => cases h2; exact List.Forall₂.nil
  | cons hab _ ih =>
    cases h2 with
    | cons hbc hrest =>
      refine List.Forall₂.cons ?_ (ih hrest)
      exact ⟨hbc.1.trans hab.1, hbc.2.1.trans hab.2.1, hbc.2.2.1.trans hab.2.2.1,
        Nat.le_trans hab.2.2.2 hbc.2.2.2⟩

theorem forall₂_afterExecuteBlocks (blockIds : List Nat) :
    ∀ (reg : Registry),
      List.Forall₂
        (fun u v => v.id = u.id ∧ v.rangeStart = u.rangeStart ∧ v.rangeEnd = u.rangeEnd ∧
          u.executionCount ≤ v.executionCount)
        reg.codeblocks (afterExecuteBlocks reg blockIds).codeblocks := by
  induction blockIds with
  | nil => intro reg; exact List.forall₂_same.mpr (fun u _ => ⟨rfl, rfl, rfl, Nat.le_refl _⟩)
  | cons b rest ih =>
    intro reg
    have h1 := forall₂_afterExecuteBlock reg b
    have h2 := ih (afterExecuteBlock reg b)
    exact forall₂_counts_trans h1 h2

theorem visitAll_append (code : List Char) (l1 l2 : List JSValue) :
    ∀ (st : DiscoverState),
      visitAll code (l1 ++ l2) st
        = (match visitAll code l1 st with
          | .error e => .error e
          | .ok st1 => visitAll code l2 st1) := by
  induction l1 with
  | nil => intro st; rfl
  | cons n rest ih =>
    intro st
    simp only [List.cons_append, visitAll]
    cases visitor code n st with
    | error e => rfl
    | ok st1 => exact ih st1

mutual
theorem traverse_eq_visitAll (code : List Char) (object : JSValue) (st : DiscoverState) :
    traverse code object st = visitAll code (visited object) st := by
  cases object with
  | array elems =>
    rw [traverse, visited, visitAll]
    cases visitor code (.array elems) st with
    | error e => rfl
    | ok st1 => exact traverseElems_eq_visitAll code elems st1
  | node type range props =>
    rw [traverse, visited, visitAll]
    cases visitor code (.node type range props) st with
    | error e => rfl
    | ok st1 => exact traverseProps_eq_visitAll code props st1
  | undefined => rw [traverse, visited, visitAll]; cases visitor code .undefined st <;> rfl
  | null => rw [traverse, visited, visitAll]; cases visitor code .null st <;> rfl
  | bool b => rw [traverse, visited, visitAll]; cases visitor code (.bool b) st <;> rfl
  | number n => rw [traverse, visited, visitAll]; cases visitor code (.number n) st <;> rfl
  | string s => rw [traverse, visited, visitAll]; cases visitor code (.string s) st <;> rfl
theorem traverseElems_eq_visitAll (code : List Char) (elems : List JSValue)
    (st : DiscoverState) :
    traverseElems code elems st = visitAll code (visitedElems elems) st := by
  cases elems with
  | nil => rw [traverseElems, visitedElems, visitAll]
  | cons child rest =>
    cases child with
    | array elems1 =>
      simp only [traverseElems, visitedElems, visitAll_append]
      rw [traverse_eq_visitAll code (.array elems1) st]
      cases visitAll code (visited (.array elems1)) st with
      | error e => rfl
      | ok st1 => exact traverseElems_eq_visitAll code rest st1
    | node type range props =>
      simp only [traverseElems, visitedElems, visitAll_append]
      rw [traverse_eq_visitAll code (.node type range props) st]
      cases visitAll code (visited (.node type range props)) st with
      | error e => rfl
      | ok st1 => exact traverseElems_eq_visitAll code rest st1
    | undefined =>
      simp only [traverseElems, visitedElems, List.nil_append]
      exact traverseElems_eq_visitAll code rest st
    | null =>
      simp only [traverseElems, visitedElems, List.nil_append]
      exact traverseElems_eq_visitAll code rest st
    | bool b =>
      simp only [traverseElems, visitedElems, List.nil_append]
      exact traverseElems_eq_visitAll code rest st
    | number n =>
      simp only [traverseElems, visitedElems, List.nil_append]
      exact traverseElems_eq_visitAll code rest st
    | string s =>
      simp only [traverseElems, visitedElems, List.nil_append]
      exact traverseElems_eq_visitAll code rest st
theorem traverseProps_eq_visitAll (code : List Char) (props : List (String × JSValue))
    (st : DiscoverState) :
    traverseProps code props st = visitAll code (visitedProps props) st := by
  cases props with
  | nil => rw [traverseProps, visitedProps, visitAll]
  | cons kv rest =>
    obtain ⟨key, child⟩ := kv
    cases child with
    | array elems1 =>
      simp only [traverseProps, visitedProps, visitAll_append]
      rw [traverse_eq_visitAll code (.array elems1) st]
      cases visitAll code (visited (.array elems1)) st with
      | error e => rfl
      | ok st1 => exact traverseProps_eq_visitAll code rest st1
    | node type range props1 =>
      simp only [traverseProps, visitedProps, visitAll_append]
      rw [traverse_eq_visitAll code (.node type range props1) st]
      cases visitAll code (visited (.node type range props1)) st with
      | error e => rfl
      | ok st1 => exact traverseProps_eq_visitAll code rest st1
    | undefined =>
      simp only [traverseProps, visitedProps, List.nil_append]
      exact traverseProps_eq_visitAll code rest st
    | null =>
      simp only [traverseProps, visitedProps, List.nil_append]
      exact traverseProps_eq_visitAll code rest st
    | bool b =>
      simp only [traverseProps, visitedProps, List.nil_append]
      exact traverseProps_eq_visitAll code rest st
    | number n =>
      simp only [traverseProps, visitedProps, List.nil_append]
      exact traverseProps_eq_visitAll code rest st
    | string s =>
      simp only [traverseProps, visitedProps, List.nil_append]
      exact traverseProps_eq_visitAll code rest st
end

theorem pushCodeblock_of_range (code : List Char) (statement : JSValue) (expression : Bool)
    (st : DiscoverState) (r : Nat × Nat) (h : statementRange statement = .ok r) :
    pushCodeblock code statement expression st
      = .ok ({ nextId := st.1.nextId + 1,
               codeblocks := st.1.codeblocks ++ [mkUnit code st.1.nextId statement r expression] },
             st.2 ++ [mkUnit code st.1.nextId statement r expression]) := by
  unfold pushCodeblock newCodeblock
  rw [h]
  rfl

theorem pushCodeblock_of_error (code : List Char) (statement : JSValue) (expression : Bool)
    (st : DiscoverState) (e : JSError) (h : statementRange statement = .error e) :
    pushCodeblock code statement expression st
      = .error (e, { st.1 with nextId := st.1.nextId + 1 }) := by
  unfold pushCodeblock newCodeblock
  rw [h]

theorem switchCaseStatement_ok (c statement : JSValue)
    (h : switchCaseStatement c = .ok statement) :
    ∃ r, statement = .node (some "SwitchCase") (some r) [] := by
  unfold switchCaseStatement at h
  split at h
  · split at h
    · split at h
      · simp only [Except.ok.injEq] at h
        exact ⟨_, h.symm⟩
      · simp at h
    · simp at h
  · simp at h
  · simp at h

theorem regularBlocks_contains (type : String) (h : regularBlocks.contains type = true) :
    type = "BlockStatement" ∨ type = "Program" := by
  simpa [regularBlocks] using h

theorem visitor_ok_new (code : List Char) (node : JSValue) (st st1 : DiscoverState)
    (h : visitor code node st = .ok st1) :
    st1 = ({ nextId := st.1.nextId + (visitUnits code node st.1.nextId).length,
             codeblocks := st.1.codeblocks ++ visitUnits code node st.1.nextId },
           st.2 ++ visitUnits code node st.1.nextId) := by
  obtain ⟨⟨nid, cbs⟩, loc⟩ := st
  cases node with
  | undefined => simp [visitor] at h
  | null => simp [visitor] at h
  | bool b => simp only [visitor, Except.ok.injEq] at h; subst h; simp [visitUnits]
  | number n => simp only [visitor, Except.ok.injEq] at h; subst h; simp [visitUnits]
  | string s => simp only [visitor, Except.ok.injEq] at h; subst h; simp [visitUnits]
  | array elems => simp only [visitor, Except.ok.injEq] at h; subst h; simp [visitUnits]
  | node type range props =>
    cases type with
    | none => simp only [visitor, Except.ok.injEq] at h; subst h; simp [visitUnits]
    | some t =>
      cases range with
      | none => simp only [visitor, Except.ok.injEq] at h; subst h; simp [visitUnits]
      | some r =>
        simp only [visitor] at h
        by_cases hb : regularBlocks.contains t = true
        · have hne1 : ¬ t = "ConditionalExpression" := by
            rcases regularBlocks_contains t hb with ht | ht <;> subst ht <;> decide
          have hne2 : ¬ t = "SwitchCase" := by
            rcases regularBlocks_contains t hb with ht | ht <;> subst ht <;> decide
          have hb2 : t ∈ regularBlocks := by simpa using hb
          rw [if_pos hb, pushCodeblock_of_range code (.node (some t) (some r) props) false
            (⟨nid, cbs⟩, loc) r rfl] at h
          simp only [hne1, hne2, if_false, Except.ok.injEq] at h
          subst h
          simp [visitUnits, hb2, hne1, hne2]
        · rw [if_neg hb] at h
          have hb2 : ¬ t ∈ regularBlocks := by simpa using hb
          simp only [] at h
          by_cases hce : t = "ConditionalExpression"
          · rw [if_pos hce] at h
            subst hce
            cases h1 : statementRange (getProp props "consequent") with
            | error e => rw [pushCodeblock_of_error code _ true _ e h1] at h; simp at h
            | ok r1 =>
              rw [pushCodeblock_of_range code _ true _ r1 h1] at h
              simp only [] at h
              cases h2 : statementRange (getProp props "alternate") with
              | error e => rw [pushCodeblock_of_error code _ true _ e h2] at h; simp at h
              | ok r2 =>
                rw [pushCodeblock_of_range code _ true _ r2 h2] at h
                simp only [Except.ok.injEq] at h
                subst h
                simp [visitUnits, hb2, h1, h2]
          · rw [if_neg hce] at h
            by_cases hsw : t = "SwitchCase"
            · rw [if_pos hsw] at h
              subst hsw
              cases hl : lengthPositive (getProp props "consequent") with
              | error e => rw [hl] at h; simp at h
              | ok pos =>
                rw [hl] at h
                cases pos with
                | false =>
                  simp only [Except.ok.injEq] at h
                  subst h
                  simp [visitUnits, hb2, hce, hl]
                | true =>
                  simp only [] at h
                  cases hs : switchCaseStatement (getProp props "consequent") with
                  | error e => rw [hs] at h; simp at h
                  | ok statement =>
                    rw [hs] at h
                    obtain ⟨r3, rfl⟩ := switchCaseStatement_ok _ _ hs
                    simp only [] at h
                    rw [pushCodeblock_of_range code (.node (some "SwitchCase") (some r3) []) false
                      (⟨nid, cbs⟩, loc) r3 rfl] at h
                    simp only [Except.ok.injEq] at h
                    subst h
                    simp [visitUnits, hb2, hce, hl, hs]
            · rw [if_neg hsw] at h
              simp only [Except.ok.injEq] at h
              subst h
              simp [visitUnits, hb2, hce, hsw]

theorem visitAll_ok_new (code : List Char) (l : List JSValue) :
    ∀ (st st1 : DiscoverState), visitAll code l st = .ok st1 →
      st1 = ({ nextId := st.1.nextId + (visitUnitsAll code l st.1.nextId).length,
               codeblocks := st.1.codeblocks ++ visitUnitsAll code l st.1.nextId },
             st.2 ++ visitUnitsAll code l st.1.nextId) := by
  induction l with
  | nil =>
    intro st st1 h
    obtain ⟨⟨nid, cbs⟩, loc⟩ := st
    simp only [visitAll, Except.ok.injEq] at h
    subst h
    simp [visitUnitsAll]
  | cons n rest ih =>
    intro st st1 h
    simp only [visitAll] at h
    cases hv : visitor code n st with
    | error e => rw [hv] at h; simp at h
    | ok st2 =>
      rw [hv] at h
      have h2 := visitor_ok_new code n st st2 hv
      have h3 := ih st2 st1 h
      rw [h3, h2]
      simp [visitUnitsAll, Nat.add_assoc]

theorem visitAll_project {β : Type} (code : List Char) (P : List Codeblock → List β)
    (hP : ∀ a b, P (a ++ b) = P a ++ P b) (g : JSValue → List β)
    (hv : ∀ n st st1, visitor code n st = .ok st1 → P (visitUnits code n st.1.nextId) = g n)
    (l : List JSValue) :
    ∀ (st st1 : DiscoverState), visitAll code l st = .ok st1 →
      P st1.2 = P st.2 ++ l.flatMap g := by
  induction l with
  | nil =>
    intro st st1 h
    simp only [visitAll, Except.ok.injEq] at h
    subst h
    simp
  | cons n rest ih =>
    intro st st1 h
    simp only [visitAll] at h
    cases hvis : visitor code n st with
    | error e => rw [hvis] at h; simp at h
    | ok st2 =>
      rw [hvis] at h
      have h2 := visitor_ok_new code n st st2 hvis
      have h3 := ih st2 st1 h
      rw [h3, h2]
      simp only [hP, hv n st st2 hvis, List.flatMap_cons, List.append_assoc]

theorem discover_project {β : Type} (code : List Char) (P : List Codeblock → List β)
    (hnil : P [] = []) (hP : ∀ a b, P (a ++ b) = P a ++ P b) (g : JSValue → List β)
    (hv : ∀ n st st1, visitor code n st = .ok st1 → P (visitUnits code n st.1.nextId) = g n)
    (syntaxTree : JSValue) (reg : Registry) (st1 : DiscoverState)
    (h : discover code syntaxTree reg = .ok st1) :
    P st1.2 = (visited syntaxTree).flatMap g := by
  unfold discover at h
  rw [traverse_eq_visitAll] at h
  have h1 := visitAll_project code P hP g hv (visited syntaxTree) (reg, []) st1 h
  simpa [hnil] using h1

theorem discover_ok_units (code : List Char) (syntaxTree : JSValue) (reg : Registry)
    (st1 : DiscoverState) (h : discover code syntaxTree reg = .ok st1) :
    st1 = ({ nextId := reg.nextId + (visitUnitsAll code (visited syntaxTree) reg.nextId).length,
             codeblocks := reg.codeblocks ++ visitUnitsAll code (visited syntaxTree) reg.nextId },
           visitUnitsAll code (visited syntaxTree) reg.nextId) := by
  unfold discover at h
  rw [traverse_eq_visitAll] at h
  simpa using visitAll_ok_new code (visited syntaxTree) (reg, []) st1 h

theorem visitUnits_blocks (code : List Char) (n : JSValue) (id : Nat) :
    ((visitUnits code n id).filter isBlockUnit).map
        (fun u => (u.type, u.rangeStart, u.rangeEnd, u.expression, u.executionCount, u.code))
      = (regularBlockNode? n).toList.map
          (fun tr => (some tr.1, tr.2.1, tr.2.2, false, 0, some (substring code tr.2.1 tr.2.2))) := by
  cases n with
  | node type range props =>
    cases type with
    | none => simp [visitUnits, regularBlockNode?]
    | some t =>
      cases range with
      | none => simp [visitUnits, regularBlockNode?]
      | some r =>
        by_cases hb : regularBlocks.contains t = true
        · have hne1 : ¬ t = "ConditionalExpression" := by
            rcases regularBlocks_contains t hb with ht | ht <;> subst ht <;> decide
          have hne2 : ¬ t = "SwitchCase" := by
            rcases regularBlocks_contains t hb with ht | ht <;> subst ht <;> decide
          have hb2 : t ∈ regularBlocks := by simpa using hb
          simp [visitUnits, regularBlockNode?, hb2, hne1, hne2, isBlockUnit, mkUnit,
            statementType]
        · have hb2 : ¬ t ∈ regularBlocks := by simpa using hb
          simp only [visitUnits, regularBlockNode?, hb, hb2, if_false, List.nil_append,
            List.contains_eq_any_beq, Bool.false_eq_true, Option.toList_none, List.map_nil]
          split_ifs
          · split <;> simp [isBlockUnit, mkUnit]
          · split <;> simp [isBlockUnit, mkUnit, statementType, regularBlocks]
          · simp
  | undefined => simp [visitUnits, regularBlockNode?]
  | null => simp [visitUnits, regularBlockNode?]
  | bool b => simp [visitUnits, regularBlockNode?]
  | number k => simp [visitUnits, regularBlockNode?]
  | string str => simp [visitUnits, regularBlockNode?]
  | array elems => simp [visitUnits, regularBlockNode?]

theorem visitUnits_branches (code : List Char) (n : JSValue) (id : Nat) :
    ((visitUnits code n id).filter (fun u => u.expression)).map
        (fun u => (u.rangeStart, u.rangeEnd))
      = branchRanges n := by
  cases n with
  | node type range props =>
    cases type with
    | none => simp [visitUnits, branchRanges]
    | some t =>
      cases range with
      | none => simp [visitUnits, branchRanges]
      | some r =>
        by_cases hb : regularBlocks.contains t = true
        · have hne1 : ¬ t = "ConditionalExpression" := by
            rcases regularBlocks_contains t hb with ht | ht <;> subst ht <;> decide
          have hne2 : ¬ t = "SwitchCase" := by
            rcases regularBlocks_contains t hb with ht | ht <;> subst ht <;> decide
          have hb2 : t ∈ regularBlocks := by simpa using hb
          simp [visitUnits, branchRanges, hb2, hne1, hne2, mkUnit]
        · have hb2 : ¬ t ∈ regularBlocks := by simpa using hb
          simp only [visitUnits, branchRanges, hb, hb2, if_false, List.nil_append,
            List.contains_eq_any_beq, Bool.false_eq_true]
          split_ifs
          · split <;> simp [mkUnit]
          · split <;> simp [mkUnit]
          · simp
  | undefined => simp [visitUnits, branchRanges]
  | null => simp [visitUnits, branchRanges]
  | bool b => simp [visitUnits, branchRanges]
  | number k => simp [visitUnits, branchRanges]
  | string str => simp [visitUnits, branchRanges]
  | array elems => simp [visitUnits, branchRanges]

theorem switch_part_eq (code : List Char) (c : JSValue) (id : Nat) :
    ((match lengthPositive c, switchCaseStatement c with
        | .ok true, .ok (.node (some "SwitchCase") (some r) []) =>
          [mkUnit code id (.node (some "SwitchCase") (some r) []) r false]
        | _, _ => []).filter isSwitchUnit).map
        (fun (u : Codeblock) => (u.type, u.rangeStart, u.rangeEnd, u.expression, u.executionCount, u.code))
      = (match c with
          | .array elems =>
            match elems.head?, elems.getLast? with
            | some first, some last =>
              match statementRange first, statementRange last with
              | .ok r1, .ok r2 => some (r1.1, r2.2)
              | _, _ => none
            | _, _ => none
          | _ => none).toList.map
          (fun (r : Nat × Nat) => (some "SwitchCase", r.1, r.2, false, 0, some (substring code r.1 r.2))) := by
  cases c with
  | array elems =>
    cases elems with
    | nil => simp [lengthPositive, switchCaseStatement]
    | cons first rest =>
      simp only [lengthPositive, switchCaseStatement, List.head?_cons]
      cases hl : (first :: rest).getLast? with
      | none => simp at hl
      | some last =>
        simp only []
        cases h1 : statementRange first with
        | error e => simp
        | ok r1 =>
          cases h2 : statementRange last with
          | error e => simp
          | ok r2 => simp [isSwitchUnit, mkUnit, statementType]
  | undefined => simp [lengthPositive, switchCaseStatement]
  | null => simp [lengthPositive, switchCaseStatement]
  | bool b => simp [lengthPositive, switchCaseStatement]
  | number k => simp [lengthPositive, switchCaseStatement]
  | string str => simp [lengthPositive, switchCaseStatement]
  | node t r ps => simp [lengthPositive, switchCaseStatement]

theorem visitUnits_switch (code : List Char) (n : JSValue) (id : Nat) :
    ((visitUnits code n id).filter isSwitchUnit).map
        (fun u => (u.type, u.rangeStart, u.rangeEnd, u.expression, u.executionCount, u.code))
      = (switchBody? n).toList.map
          (fun r => (some "SwitchCase", r.1, r.2, false, 0, some (substring code r.1 r.2))) := by
  cases n with
  | node type range props =>
    cases type with
    | none => simp [visitUnits, switchBody?]
    | some t =>
      cases range with
      | none => simp [visitUnits, switchBody?]
      | some r =>
        by_cases hb : regularBlocks.contains t = true
        · have hne1 : ¬ t = "ConditionalExpression" := by
            rcases regularBlocks_contains t hb with ht | ht <;> subst ht <;> decide
          have hne2 : ¬ t = "SwitchCase" := by
            rcases regularBlocks_contains t hb with ht | ht <;> subst ht <;> decide
          have hb2 : t ∈ regularBlocks := by simpa using hb
          simp [visitUnits, switchBody?, hb2, hne1, hne2, mkUnit, isSwitchUnit, statementType]
        · have hb2 : ¬ t ∈ regularBlocks := by simpa using hb
          by_cases hce : t = "ConditionalExpression"
          · subst hce
            cases h1 : statementRange (getProp props "consequent") <;>
              cases h2 : statementRange (getProp props "alternate") <;>
              simp [visitUnits, switchBody?, hb2, h1, h2, isSwitchUnit, mkUnit]
          · by_cases hsw : t = "SwitchCase"
            · subst hsw
              simp only [visitUnits, switchBody?, hb, if_false, List.nil_append, if_true, hce,
                List.length_nil, Nat.add_zero]
              exact switch_part_eq code (getProp props "consequent") id
            · simp [visitUnits, switchBody?, hb2, hce, hsw]
  | undefined => simp [visitUnits, switchBody?]
  | null => simp [visitUnits, switchBody?]
  | bool b => simp [visitUnits, switchBody?]
  | number k => simp [visitUnits, switchBody?]
  | string str => simp [visitUnits, switchBody?]
  | array elems => simp [visitUnits, switchBody?]

theorem flatMap_toList_map {α β γ : Type} (f : α → Option β) (k : β → γ) (l : List α) :
    l.flatMap (fun n => (f n).toList.map k) = (l.filterMap f).map k := by
  induction l with
  | nil => rfl
  | cons a rest ih =>
    rw [List.flatMap_cons, ih, List.filterMap_cons]
    cases f a <;> simp

theorem visitor_ok_branches (code : List Char) (n : JSValue) (st st1 : DiscoverState)
    (h : visitor code n st = .ok st1) :
    (branchRanges n).map (fun _ => ()) = if isConditionalNode n = true then [(), ()] else [] := by
  cases n with
  | node type range props =>
    cases type with
    | none => simp [branchRanges, isConditionalNode]
    | some t =>
      cases range with
      | none => simp [branchRanges, isConditionalNode]
      | some r =>
        by_cases hce : t = "ConditionalExpression"
        · subst hce
          have hb : regularBlocks.contains "ConditionalExpression" = false := by decide
          simp only [visitor, hb, if_true, Bool.false_eq_true, if_false] at h
          cases h1 : statementRange (getProp props "consequent") with
          | error e => rw [pushCodeblock_of_error code _ true _ e h1] at h; simp at h
          | ok r1 =>
            rw [pushCodeblock_of_range code _ true _ r1 h1] at h
            simp only [] at h
            cases h2 : statementRange (getProp props "alternate") with
            | error e => rw [pushCodeblock_of_error code _ true _ e h2] at h; simp at h
            | ok r2 => simp [branchRanges, isConditionalNode, h1, h2]
        · simp [branchRanges, isConditionalNode, hce]
  | undefined => simp [branchRanges, isConditionalNode]
  | null => simp [branchRanges, isConditionalNode]
  | bool b => simp [branchRanges, isConditionalNode]
  | number k => simp [branchRanges, isConditionalNode]
  | string str => simp [branchRanges, isConditionalNode]
  | array elems => simp [branchRanges, isConditionalNode]

theorem flatMap_pair_length {α : Type} (c : α → Bool) (l : List α) :
    (l.flatMap (fun n => if c n = true then [(), ()] else [])).length
      = 2 * (l.filter c).length := by
  induction l with
  | nil => rfl
  | cons a rest ih =>
    rw [List.flatMap_cons, List.length_append, ih, List.filter_cons]
    cases c a
    · simp
    · simp only [if_true, List.length_cons, List.length_nil]
      omega

theorem length_addCoverageLocation (locs : CoverageLocations) (w : Nat) (m : MarkerType) :
    (addCoverageLocation locs w m).length = max locs.length (w + 1) := by
  unfold addCoverageLocation
  cases h : locs[w]? with
  | none =>
    have hw : locs.length ≤ w := by
      rcases Nat.lt_or_ge w locs.length with hlt | hge
      · rw [List.getElem?_eq_getElem hlt] at h; simp at h
      · exact hge
    simp only [List.length_append, List.length_replicate, List.length_cons, List.length_nil]
    omega
  | some e =>
    have hw : w < locs.length := by
      rcases Nat.lt_or_ge w locs.length with hlt | hge
      · exact hlt
      · rw [List.getElem?_eq_none hge] at h; simp at h
    cases e <;> simp only [List.length_set] <;> omega

theorem queuedAt_addCoverageLocation (locs : CoverageLocations) (w : Nat) (m : MarkerType)
    (p : Nat) :
    queuedAt (addCoverageLocation locs w m) p
      = queuedAt locs p ++ (if w = p then [m] else []) := by
  unfold addCoverageLocation queuedAt
  cases h : locs[w]? with
  | none =>
    have hw : locs.length ≤ w := by
      rcases Nat.lt_or_ge w locs.length with hlt | hge
      · rw [List.getElem?_eq_getElem hlt] at h; simp at h
      · exact hge
    simp only []
    rcases Nat.lt_trichotomy p w with hlt | heq | hgt
    · have hne : ¬ w = p := by omega
      rw [if_neg hne, List.append_nil]
      rcases Nat.lt_or_ge p locs.length with h1 | h1
      · rw [List.append_assoc, List.getElem?_append_left h1]
      · rw [List.getElem?_eq_none h1]
        rw [List.getElem?_append_left (by simp; omega), List.getElem?_append_right h1]
        rw [List.getElem?_replicate]
        simp
    · subst heq
      rw [h]
      rw [List.getElem?_append_right (by simp; omega)]
      have h0 : p - (locs ++ List.replicate (p - locs.length) none).length = 0 := by
        simp only [List.length_append, List.length_replicate]
        omega
      rw [h0]
      simp
    · have hne : ¬ w = p := by omega
      rw [if_neg hne, List.append_nil]
      rw [List.getElem?_eq_none (by simp; omega), List.getElem?_eq_none (by omega)]
  | some e =>
    have hw : w < locs.length := by
      rcases Nat.lt_or_ge w locs.length with hlt | hge
      · exact hlt
      · rw [List.getElem?_eq_none hge] at h; simp at h
    by_cases hwp : w = p
    · subst hwp
      cases e with
      | none => simp [h, hw]
      | some queued => simp [h, hw]
    · cases e with
      | none => simp [hwp, List.getElem?_set_ne hwp]
      | some queued => simp [hwp, List.getElem?_set_ne hwp]

theorem queueMarkers_spec (units : List Codeblock) :
    ∀ (locs : CoverageLocations),
      (queueMarkers units locs).length = max locs.length (markerBound units) ∧
      ∀ p, queuedAt (queueMarkers units locs) p = queuedAt locs p ++ eventsAt units p := by
  induction units with
  | nil =>
    intro locs
    simp [queueMarkers, markerBound, eventsAt]
  | cons u rest ih =>
    intro locs
    by_cases hx : u.executionCount > 0
    · simp only [queueMarkers, hx, if_true]
      obtain ⟨hlen, hq⟩ := ih (addCoverageLocation (addCoverageLocation locs u.rangeStart
        .hitStart) u.rangeEnd .hitEnd)
      constructor
      · rw [hlen, length_addCoverageLocation, length_addCoverageLocation]
        simp only [markerBound]
        omega
      · intro p
        rw [hq, queuedAt_addCoverageLocation, queuedAt_addCoverageLocation]
        simp [eventsAt, hx]
    · simp only [queueMarkers, hx, if_false]
      obtain ⟨hlen, hq⟩ := ih (addCoverageLocation (addCoverageLocation locs u.rangeStart
        .missStart) u.rangeEnd .missEnd)
      constructor
      · rw [hlen, length_addCoverageLocation, length_addCoverageLocation]
        simp only [markerBound]
        omega
      · intro p
        rw [hq, queuedAt_addCoverageLocation, queuedAt_addCoverageLocation]
        simp [eventsAt, hx]

theorem eventsAt_injection (units : List Codeblock) (p : Nat) :
    (eventsAt units p).flatMap injection = markersAt units p := by
  induction units with
  | nil => rfl
  | cons u rest ih =>
    simp only [eventsAt, markersAt, List.flatMap_cons, List.flatMap_append] at ih ⊢
    rw [ih]
    congr 1
    by_cases hs : u.rangeStart = p <;> by_cases he : u.rangeEnd = p <;>
      by_cases hx : u.executionCount > 0 <;>
      simp [hs, he, hx, injection, openMarker, closeMarker]

theorem take_splice (c w : List Char) (q : Nat) :
    (c.take q ++ w ++ c.drop q).take (q + w.length) = c.take q ++ w := by
  rcases Nat.le_total q c.length with h | h
  · have hl : (c.take q ++ w).length = q + w.length := by
      simp [List.length_take, Nat.min_eq_left h]
    rw [← hl, List.take_left]
  · rw [List.drop_eq_nil_of_le h, List.append_nil, List.take_of_length_le h]
    exact List.take_of_length_le (by simp; omega)

theorem drop_splice (c w : List Char) (q : Nat) :
    (c.take q ++ w ++ c.drop q).drop (q + w.length) = c.drop q := by
  rcases Nat.le_total q c.length with h | h
  · have hl : (c.take q ++ w).length = q + w.length := by
      simp [List.length_take, Nat.min_eq_left h]
    rw [← hl, List.drop_left]
  · rw [List.drop_eq_nil_of_le h, List.append_nil, List.take_of_length_le h]
    exact List.drop_eq_nil_of_le (by simp; omega)

theorem applyMarkersAt_spec (position : Nat) (events : List MarkerType) :
    ∀ (code : List Char) (offset : Nat),
      applyMarkersAt position events (code, offset)
        = (code.take (position + offset) ++ events.flatMap injection
              ++ code.drop (position + offset),
            offset + (events.flatMap injection).length) := by
  induction events with
  | nil => intro code offset; simp [applyMarkersAt]
  | cons e rest ih =>
    intro code offset
    simp only [applyMarkersAt, substring_zero, substringFrom]
    rw [ih]
    have e1 : position + (offset + (injection e).length)
        = (position + offset) + (injection e).length := by omega
    rw [e1, take_splice, drop_splice]
    simp [List.flatMap_cons, Nat.add_assoc]

theorem drop_eq_getElem?_append (src : List Char) (i : Nat) :
    src.drop i = (src[i]?).toList ++ src.drop (i + 1) := by
  rcases Nat.lt_or_ge i src.length with h | h
  · rw [List.getElem?_eq_getElem h]
    simp
  · rw [List.getElem?_eq_none h, List.drop_eq_nil_of_le h,
      List.drop_eq_nil_of_le (Nat.le_succ_of_le h)]
    rfl

theorem take_drop_prefix (pre src : List Char) (i offset : Nat)
    (hinv : offset + min i src.length = pre.length) :
    (pre ++ src.drop i).take (i + offset) = pre ∧
    (pre ++ src.drop i).drop (i + offset) = src.drop i := by
  rcases Nat.le_total i src.length with h | h
  · have e : i + offset = pre.length := by
      rw [Nat.min_eq_left h] at hinv; omega
    rw [e, List.take_left, List.drop_left]
    exact ⟨rfl, rfl⟩
  · have e : pre.length ≤ i + offset := by
      rw [Nat.min_eq_right h] at hinv; omega
    rw [List.drop_eq_nil_of_le h, List.append_nil]
    exact ⟨List.take_of_length_le e, List.drop_eq_nil_of_le e⟩

theorem applyMarkers_spec (src : List Char) (ev : Nat → List MarkerType)
    (rest : CoverageLocations) :
    ∀ (i : Nat) (pre : List Char) (offset : Nat),
      (∀ k, k < rest.length → queuedAt rest k = ev (i + k)) →
      offset + min i src.length = pre.length →
      (applyMarkers i rest (pre ++ src.drop i, offset)).1
        = pre ++ (List.range' i rest.length).flatMap
              (fun p => (ev p).flatMap injection ++ (src[p]?).toList)
            ++ src.drop (i + rest.length) := by
  induction rest with
  | nil => intro i pre offset _ _; simp [applyMarkers]
  | cons e rest ih =>
    intro i pre offset hev hinv
    have hev0 := hev 0 (by simp)
    have hev1 : ∀ k, k < rest.length → queuedAt rest k = ev (i + 1 + k) := by
      intro k hk
      have h1 := hev (k + 1) (by simp; omega)
      have e1 : i + (k + 1) = i + 1 + k := by omega
      rw [e1] at h1
      rw [← h1]
      simp [queuedAt]
    have hstep : ∀ (J : List Char),
        (applyMarkers (i + 1) rest (pre ++ J ++ src.drop i, offset + J.length)).1
          = pre ++ (J ++ (src[i]?).toList)
            ++ (List.range' (i + 1) rest.length).flatMap
              (fun p => (ev p).flatMap injection ++ (src[p]?).toList)
            ++ src.drop (i + 1 + rest.length) := by
      intro J
      have e2 : pre ++ J ++ src.drop i = (pre ++ (J ++ (src[i]?).toList)) ++ src.drop (i + 1) := by
        rw [drop_eq_getElem?_append src i]
        simp
      rw [e2]
      apply ih (i + 1) (pre ++ (J ++ (src[i]?).toList)) (offset + J.length) hev1
      rcases Nat.lt_or_ge i src.length with h | h
      · rw [List.getElem?_eq_getElem h]
        simp only [List.length_append, Option.toList_some, List.length_cons, List.length_nil]
        rw [Nat.min_eq_left (Nat.le_of_lt h)] at hinv
        rw [Nat.min_eq_left h]
        omega
      · rw [List.getElem?_eq_none h]
        simp only [List.length_append, Option.toList_none, List.length_nil]
        rw [Nat.min_eq_right h] at hinv
        rw [Nat.min_eq_right (Nat.le_succ_of_le h)]
        omega
    have hfin : ∀ (J : List Char), J = (ev i).flatMap injection →
        pre ++ (J ++ (src[i]?).toList)
            ++ (List.range' (i + 1) rest.length).flatMap
              (fun p => (ev p).flatMap injection ++ (src[p]?).toList)
            ++ src.drop (i + 1 + rest.length)
        = pre ++ (List.range' i (e :: rest).length).flatMap
              (fun p => (ev p).flatMap injection ++ (src[p]?).toList)
            ++ src.drop (i + (e :: rest).length) := by
      intro J hJ
      subst hJ
      have e3 : i + (e :: rest).length = i + 1 + rest.length := by simp; omega
      rw [e3, List.length_cons, List.range'_succ, List.flatMap_cons]
      simp only [List.append_assoc]
    cases e with
    | none =>
      have hnil : ev i = [] := by rw [← Nat.add_zero i, ← hev0]; simp [queuedAt]
      have h1 := hstep []
      simp only [List.append_nil, List.length_nil, Nat.add_zero] at h1
      simp only [applyMarkers]
      rw [h1]
      have h2 := hfin [] (by rw [hnil]; rfl)
      simpa using h2
    | some l =>
      have hl : ev i = l := by rw [← Nat.add_zero i, ← hev0]; simp [queuedAt]
      simp only [applyMarkers]
      rw [applyMarkersAt_spec]
      obtain ⟨ht, hd⟩ := take_drop_prefix pre src i offset hinv
      rw [ht, hd, hstep (l.flatMap injection)]
      exact hfin _ (by rw [hl])

theorem annotate_no_marks (src : List Char) (bound : Nat) :
    annotate src (fun _ => []) bound = src := by
  unfold annotate
  induction bound with
  | zero => simp
  | succ n ih =>
    rw [List.range_succ, List.flatMap_append, List.append_assoc]
    simp only [List.flatMap_cons, List.flatMap_nil, List.nil_append, List.append_nil]
    rw [← drop_eq_getElem?_append]
    exact ih

theorem sublist_annotate (src : List Char) (marks : Nat → List Char) (bound : Nat) :
    src.Sublist (annotate src marks bound) := by
  have h0 := annotate_no_marks src bound
  have h1 : (annotate src (fun _ => []) bound).Sublist (annotate src marks bound) := by
    unfold annotate
    refine List.Sublist.append ?_ (List.Sublist.refl _)
    induction (List.range bound) with
    | nil => exact List.Sublist.refl _
    | cons a rest ih =>
      rw [List.flatMap_cons, List.flatMap_cons]
      exact List.Sublist.append (by simp) ih
  rw [h0] at h1
  exact h1

theorem stripMarkersFrom_spec (units : List Codeblock) (src : List Char) (n : Nat) :
    ∀ (p : Nat),
      stripMarkersFrom units src.length n p
          ((List.range' p n).flatMap (fun q => markersAt units q ++ (src[q]?).toList)
            ++ src.drop (p + n))
        = some (src.drop p) := by
  induction n with
  | zero => intro p; simp [stripMarkersFrom]
  | succ n ih =>
    intro p
    have e1 : p + (n + 1) = p + 1 + n := by omega
    rw [List.range'_succ, List.flatMap_cons, e1]
    simp only [stripMarkersFrom, List.append_assoc, List.take_left, List.drop_left, if_true]
    rcases Nat.lt_or_ge p src.length with h | h
    · rw [if_pos h, List.getElem?_eq_getElem h]
      simp only [Option.toList_some, List.cons_append, List.nil_append]
      have h2 := ih (p + 1)
      simp only [List.append_assoc] at h2
      rw [h2]
      simp
    · rw [if_neg (by omega), List.getElem?_eq_none h]
      simp only [Option.toList_none, List.nil_append]
      have h2 := ih (p + 1)
      simp only [List.append_assoc] at h2
      rw [h2, List.drop_eq_nil_of_le h, List.drop_eq_nil_of_le (Nat.le_succ_of_le h)]

theorem markerStage_eq_annotate (stats : TailwindStats) :
    markerStage stats
      = annotate stats.sourceCode (markersAt stats.codeblocks)
          (markerBound stats.codeblocks) := by
  obtain ⟨hlen, hq⟩ := queueMarkers_spec stats.codeblocks []
  have hq2 : ∀ p, queuedAt (queueMarkers stats.codeblocks []) p = eventsAt stats.codeblocks p := by
    intro p
    rw [hq p]
    simp [queuedAt]
  have h := applyMarkers_spec stats.sourceCode (eventsAt stats.codeblocks)
    (queueMarkers stats.codeblocks []) 0 [] 0
    (by intro k _; rw [hq2 k, Nat.zero_add]) (by simp)
  simp only [List.nil_append, List.drop_zero, Nat.zero_add] at h
  unfold markerStage annotate
  rw [h, hlen]
  simp only [List.length_nil, Nat.zero_max, eventsAt_injection, List.range_eq_range']

theorem visitor_ok_of_visitOk (code : List Char) (n : JSValue) (st : DiscoverState)
    (h : visitOk n = true) : ∃ st1, visitor code n st = .ok st1 := by
  cases n with
  | undefined => simp [visitOk] at h
  | null => simp [visitOk] at h
  | bool b => exact ⟨st, rfl⟩
  | number k => exact ⟨st, rfl⟩
  | string str => exact ⟨st, rfl⟩
  | array elems => exact ⟨st, rfl⟩
  | node type range props =>
    cases type with
    | none => exact ⟨st, rfl⟩
    | some t =>
      cases range with
      | none => exact ⟨st, rfl⟩
      | some r =>
        by_cases hb : regularBlocks.contains t = true
        · have hne1 : ¬ t = "ConditionalExpression" := by
            rcases regularBlocks_contains t hb with ht | ht <;> subst ht <;> decide
          have hne2 : ¬ t = "SwitchCase" := by
            rcases regularBlocks_contains t hb with ht | ht <;> subst ht <;> decide
          simp only [visitor]
          rw [if_pos hb, pushCodeblock_of_range code (.node (some t) (some r) props) false
            st r rfl]
          simp [hne1, hne2]
        · simp only [visitor]
          rw [if_neg hb]
          simp only []
          by_cases hce : t = "ConditionalExpression"
          · subst hce
            simp only [visitOk, if_true] at h
            cases h1 : statementRange (getProp props "consequent") with
            | error e => rw [h1] at h; simp at h
            | ok r1 =>
              cases h2 : statementRange (getProp props "alternate") with
              | error e => rw [h1, h2] at h; simp at h
              | ok r2 =>
                rw [if_pos rfl, pushCodeblock_of_range code _ true st r1 h1]
                simp only []
                rw [pushCodeblock_of_range code _ true _ r2 h2]
                exact ⟨_, rfl⟩
          · rw [if_neg hce]
            by_cases hsw : t = "SwitchCase"
            · subst hsw
              simp only [visitOk, hce, if_false, if_true] at h
              rw [if_pos rfl]
              cases hc : getProp props "consequent" with
              | array elems =>
                rw [hc] at h
                cases elems with
                | nil => exact ⟨st, by simp [lengthPositive]⟩
                | cons first rest =>
                  simp only [List.head?_cons] at h
                  cases hl : (first :: rest).getLast? with
                  | none => simp at hl
                  | some last =>
                    rw [hl] at h
                    simp only [] at h
                    cases h1 : statementRange first with
                    | error e => rw [h1] at h; simp at h
                    | ok r1 =>
                      cases h2 : statementRange last with
                      | error e => rw [h1, h2] at h; simp at h
                      | ok r2 =>
                        simp only [lengthPositive, switchCaseStatement, List.head?_cons, hl, h1,
                          h2, List.length_cons, Nat.zero_lt_succ, decide_True]
                        rw [pushCodeblock_of_range code
                          (.node (some "SwitchCase") (some (r1.1, r2.2)) []) false st
                          (r1.1, r2.2) rfl]
                        exact ⟨_, rfl⟩
              | undefined => rw [hc] at h; simp at h
              | null => rw [hc] at h; simp at h
              | bool b => rw [hc] at h; simp at h
              | number k => rw [hc] at h; simp at h
              | string str => rw [hc] at h; simp at h
              | node t2 r2 p2 => rw [hc] at h; simp at h
            · rw [if_neg hsw]
              exact ⟨st, rfl⟩

theorem visitAll_ok_of_visitOk (code : List Char) (l : List JSValue) :
    ∀ (st : DiscoverState), l.all visitOk = true → ∃ st1, visitAll code l st = .ok st1 := by
  induction l with
  | nil => intro st _; exact ⟨st, rfl⟩
  | cons n rest ih =>
    intro st h
    simp only [List.all_cons, Bool.and_eq_true] at h
    obtain ⟨st2, h2⟩ := visitor_ok_of_visitOk code n st h.1
    obtain ⟨st3, h3⟩ := ih st2 h.2
    exact ⟨st3, by simp only [visitAll, h2, h3]⟩

theorem discover_ok_of_visitOk (code : List Char) (syntaxTree : JSValue) (reg : Registry)
    (h : (visited syntaxTree).all visitOk = true) :
    ∃ st1, discover code syntaxTree reg = .ok st1 := by
  unfold discover
  rw [traverse_eq_visitAll]
  exact visitAll_ok_of_visitOk code (visited syntaxTree) (reg, []) h

theorem consistent_init : Registry.init.Consistent := by decide

theorem newCodeblock_consistent (statement : JSValue) (sourceCode : Option (List Char))
    (expression : Bool) (reg reg1 : Registry) (cb : Codeblock) (hreg : reg.Consistent)
    (h : newCodeblock statement sourceCode expression reg = .ok (cb, reg1)) :
    reg1.Consistent := by
  unfold newCodeblock at h
  cases hr : statementRange statement with
  | error e => rw [hr] at h; simp at h
  | ok r =>
    rw [hr] at h
    simp only [Except.ok.injEq, Prod.mk.injEq] at h
    obtain ⟨-, rfl⟩ := h
    obtain ⟨h1, h2⟩ := hreg
    refine ⟨by simp [h1], ?_⟩
    simp [List.range_succ, h2, h1]

theorem afterExecuteBlock_consistent (reg : Registry) (blockId : Nat) (hreg : reg.Consistent) :
    (afterExecuteBlock reg blockId).Consistent := by
  obtain ⟨h1, h2⟩ := hreg
  unfold afterExecuteBlock executeBlock
  cases h : reg.codeblocks[blockId]? with
  | none => exact ⟨h1, h2⟩
  | some cb =>
    have hlt : blockId < reg.codeblocks.length := by
      rcases Nat.lt_or_ge blockId reg.codeblocks.length with hlt | hge
      · exact hlt
      · rw [List.getElem?_eq_none hge] at h; simp at h
    have hcb : reg.codeblocks[blockId] = cb := by
      rw [List.getElem?_eq_getElem hlt] at h
      simpa using h
    refine ⟨by simpa using h1, ?_⟩
    simp only [List.length_set]
    rw [← h2]
    apply List.ext_getElem
    · simp
    · intro j hj1 hj2
      simp only [List.getElem_map, List.getElem_set]
      by_cases hbj : blockId = j
      · subst hbj
        simp [Codeblock.countExecution, hcb]
      · simp [hbj]

theorem visitUnits_ids (code : List Char) (n : JSValue) (id : Nat) :
    (visitUnits code n id).map (fun u => u.id)
      = List.range' id (visitUnits code n id).length := by
  cases n with
  | node type range props =>
    cases type with
    | none => simp [visitUnits]
    | some t =>
      cases range with
      | none => simp [visitUnits]
      | some r =>
        by_cases hb : regularBlocks.contains t = true
        · have hne1 : ¬ t = "ConditionalExpression" := by
            rcases regularBlocks_contains t hb with ht | ht <;> subst ht <;> decide
          have hne2 : ¬ t = "SwitchCase" := by
            rcases regularBlocks_contains t hb with ht | ht <;> subst ht <;> decide
          have hb2 : t ∈ regularBlocks := by simpa using hb
          simp [visitUnits, hb2, hne1, hne2, mkUnit, List.range']
        · have hb2 : ¬ t ∈ regularBlocks := by simpa using hb
          by_cases hce : t = "ConditionalExpression"
          · subst hce
            cases h1 : statementRange (getProp props "consequent") <;>
              cases h2 : statementRange (getProp props "alternate") <;>
              simp [visitUnits, hb2, h1, h2, mkUnit, List.range']
          · by_cases hsw : t = "SwitchCase"
            · subst hsw
              simp only [visitUnits, hb, Bool.false_eq_true, if_false, List.nil_append, hce,
                if_true, List.length_nil, Nat.add_zero]
              split <;> simp [mkUnit, List.range']
            · simp [visitUnits, hb2, hce, hsw]
  | undefined => simp [visitUnits]
  | null => simp [visitUnits]
  | bool b => simp [visitUnits]
  | number k => simp [visitUnits]
  | string str => simp [visitUnits]
  | array elems => simp [visitUnits]

theorem visitUnits_count (code : List Char) (n : JSValue) (id : Nat) :
    (visitUnits code n id).map Codeblock.resetCount = visitUnits code n id := by
  cases n with
  | node type range props =>
    cases type with
    | none => simp [visitUnits]
    | some t =>
      cases range with
      | none => simp [visitUnits]
      | some r =>
        by_cases hb : regularBlocks.contains t = true
        · have hne1 : ¬ t = "ConditionalExpression" := by
            rcases regularBlocks_contains t hb with ht | ht <;> subst ht <;> decide
          have hne2 : ¬ t = "SwitchCase" := by
            rcases regularBlocks_contains t hb with ht | ht <;> subst ht <;> decide
          have hb2 : t ∈ regularBlocks := by simpa using hb
          simp [visitUnits, hb2, hne1, hne2, mkUnit, Codeblock.resetCount]
        · have hb2 : ¬ t ∈ regularBlocks := by simpa using hb
          by_cases hce : t = "ConditionalExpression"
          · subst hce
            cases h1 : statementRange (getProp props "consequent") <;>
              cases h2 : statementRange (getProp props "alternate") <;>
              simp [visitUnits, hb2, h1, h2, mkUnit, Codeblock.resetCount]
          · by_cases hsw : t = "SwitchCase"
            · subst hsw
              simp only [visitUnits, hb, Bool.false_eq_true, if_false, List.nil_append, hce,
                if_true, List.length_nil, Nat.add_zero]
              split <;> simp [mkUnit, Codeblock.resetCount]
            · simp [visitUnits, hb2, hce, hsw]
  | undefined => simp [visitUnits]
  | null => simp [visitUnits]
  | bool b => simp [visitUnits]
  | number k => simp [visitUnits]
  | string str => simp [visitUnits]
  | array elems => simp [visitUnits]

theorem visitUnitsAll_ids (code : List Char) (l : List JSValue) :
    ∀ (id : Nat), (visitUnitsAll code l id).map (fun u => u.id)
      = List.range' id (visitUnitsAll code l id).length := by
  induction l with
  | nil => intro id; simp [visitUnitsAll]
  | cons n rest ih =>
    intro id
    simp only [visitUnitsAll, List.map_append, List.length_append]
    rw [visitUnits_ids, ih, List.range'_append_1, Nat.add_comm]

theorem visitUnitsAll_count (code : List Char) (l : List JSValue) :
    ∀ (id : Nat), (visitUnitsAll code l id).map Codeblock.resetCount
      = visitUnitsAll code l id := by
  induction l with
  | nil => intro id; simp [visitUnitsAll]
  | cons n rest ih =>
    intro id
    simp only [visitUnitsAll, List.map_append]
    rw [visitUnits_count, ih]

theorem discover_consistent (code : List Char) (syntaxTree : JSValue) (reg : Registry)
    (st1 : DiscoverState) (hreg : reg.Consistent)
    (h : discover code syntaxTree reg = .ok st1) :
    st1.1.Consistent ∧ st1.1.codeblocks = reg.codeblocks ++ st1.2 ∧
      st1.2.map (fun u => u.id) = List.range' reg.nextId st1.2.length ∧
      st1.2.map Codeblock.resetCount = st1.2 := by
  have h1 := discover_ok_units code syntaxTree reg st1 h
  rw [h1]
  have hids := visitUnitsAll_ids code (visited syntaxTree) reg.nextId
  refine ⟨⟨?_, ?_⟩, rfl, hids, visitUnitsAll_count _ _ _⟩
  · simp [hreg.1]
  · simp only [List.map_append, List.length_append]
    rw [hids, hreg.2, hreg.1, List.range_eq_range', List.range_eq_range']
    have e := List.range'_append_1 0 reg.codeblocks.length
      (visitUnitsAll code (visited syntaxTree) reg.codeblocks.length).length
    rw [Nat.zero_add] at e
    rw [e, Nat.add_comm]

theorem find?_id_range' (l : List Codeblock) :
    ∀ (s : Nat), l.map (fun u => u.id) = List.range' s l.length →
      ∀ (k : Nat) (hk : k < l.length),
        l.find? (fun u => decide (u.id = s + k)) = some l[k] := by
  induction l with
  | nil => intro s _ k hk; simp at hk
  | cons a rest ih =>
    intro s h k hk
    simp only [List.map_cons, List.length_cons, List.range'_succ, List.cons.injEq] at h
    obtain ⟨ha, hrest⟩ := h
    cases k with
    | zero => simp [List.find?_cons, ha]
    | succ k =>
      have hne : ¬ a.id = s + (k + 1) := by omega
      have hk2 : k < rest.length := by simpa using hk
      have e : s + (k + 1) = s + 1 + k := by omega
      simp only [List.find?_cons, hne, decide_False, List.getElem_cons_succ]
      rw [e]
      exact ih (s + 1) hrest k hk2

theorem current_of_consistent (reg : Registry) (hreg : reg.Consistent) (cb : Codeblock)
    (hk : cb.id < reg.codeblocks.length) :
    cb.current reg = reg.codeblocks[cb.id] := by
  have h := find?_id_range' reg.codeblocks 0
    (by rw [hreg.2, List.range_eq_range']) cb.id hk
  rw [Nat.zero_add] at h
  unfold Codeblock.current
  rw [h]

theorem afterExecuteBlock_resetCount (reg : Registry) (blockId : Nat) :
    (afterExecuteBlock reg blockId).codeblocks.map Codeblock.resetCount
      = reg.codeblocks.map Codeblock.resetCount := by
  unfold afterExecuteBlock executeBlock
  cases h : reg.codeblocks[blockId]? with
  | none => rfl
  | some cb =>
    simp only [List.map_set]
    have hlt : blockId < reg.codeblocks.length := by
      rcases Nat.lt_or_ge blockId reg.codeblocks.length with hlt | hge
      · exact hlt
      · rw [List.getElem?_eq_none hge] at h; simp at h
    have hcb : reg.codeblocks[blockId] = cb := by
      rw [List.getElem?_eq_getElem hlt] at h
      simpa using h
    apply List.ext_getElem
    · simp
    · intro j h1 h2
      rw [List.getElem_set]
      by_cases hj : blockId = j
      · subst hj
        simp [hcb, Codeblock.countExecution, Codeblock.resetCount]
      · simp [hj]

theorem afterExecuteBlocks_resetCount (blockIds : List Nat) :
    ∀ (reg : Registry),
      (afterExecuteBlocks reg blockIds).codeblocks.map Codeblock.resetCount
        = reg.codeblocks.map Codeblock.resetCount := by
  induction blockIds with
  | nil => intro reg; rfl
  | cons b rest ih =>
    intro reg
    show (afterExecuteBlocks (afterExecuteBlock reg b) rest).codeblocks.map _ = _
    rw [ih, afterExecuteBlock_resetCount]

theorem afterExecuteBlocks_consistent (blockIds : List Nat) :
    ∀ (reg : Registry), reg.Consistent → (afterExecuteBlocks reg blockIds).Consistent := by
  induction blockIds with
  | nil => intro reg h; exact h
  | cons b rest ih =>
    intro reg h
    exact ih _ (afterExecuteBlock_consistent reg b h)

theorem current_resetCount (reg1 : Registry) (hreg : reg1.Consistent) (blockIds : List Nat)
    (cb : Codeblock) (hcb : cb ∈ reg1.codeblocks) (h0 : cb.resetCount = cb) :
    (cb.current (afterExecuteBlocks reg1 blockIds)).resetCount = cb := by
  have hm := afterExecuteBlocks_resetCount blockIds reg1
  have hlen : (afterExecuteBlocks reg1 blockIds).codeblocks.length = reg1.codeblocks.length := by
    have := congrArg List.length hm
    simpa using this
  have hget := consistent_getElem reg1 hreg cb hcb
  have hk : cb.id < reg1.codeblocks.length := by
    rcases Nat.lt_or_ge cb.id reg1.codeblocks.length with hlt | hge
    · exact hlt
    · rw [List.getElem?_eq_none hge] at hget; simp at hget
  have hk2 : cb.id < (afterExecuteBlocks reg1 blockIds).codeblocks.length := by omega
  rw [current_of_consistent _ (afterExecuteBlocks_consistent blockIds reg1 hreg) cb hk2]
  have e1 : ((afterExecuteBlocks reg1 blockIds).codeblocks.map Codeblock.resetCount)[cb.id]?
      = (reg1.codeblocks.map Codeblock.resetCount)[cb.id]? := by rw [hm]
  rw [List.getElem?_map, List.getElem?_map, hget, List.getElem?_eq_getElem hk2] at e1
  simp only [Option.map_some', Option.some.injEq] at e1
  rw [e1, h0]

theorem runCode_returns (window : Window) (code : List Char) (reg : Registry)
    (parse : List Char → Except JSError JSValue) (syntaxTree : JSValue) (reg1 : Registry)
    (discovered : List Codeblock) (calls : List Nat)
    (hw : window.esprima = some parse) (hp : parse code = .ok syntaxTree)
    (hd : discover code syntaxTree reg = .ok (reg1, discovered))
    (he : window.eval (instrument code (sortCodeblocks discovered)) = (calls, none)) :
    runCode window code reg
      = .ok ({ sourceCode := code,
               codeblocks := (sortCodeblocks discovered).map
                 (Codeblock.current (afterExecuteBlocks reg1 calls)) },
             afterExecuteBlocks reg1 calls) := by
  unfold runCode
  simp only [hw, hp, hd, he]
  rfl

theorem runCode_throws (window : Window) (code : List Char) (reg : Registry)
    (parse : List Char → Except JSError JSValue) (syntaxTree : JSValue) (reg1 : Registry)
    (discovered : List Codeblock) (calls : List Nat) (e : JSError)
    (hw : window.esprima = some parse) (hp : parse code = .ok syntaxTree)
    (hd : discover code syntaxTree reg = .ok (reg1, discovered))
    (he : window.eval (instrument code (sortCodeblocks discovered)) = (calls, some e)) :
    runCode window code reg = .error (e, afterExecuteBlocks reg1 calls) := by
  unfold runCode
  simp only [hw, hp, hd, he]

theorem afterRunCode_consistent (reg : Registry) (call : Window × List Char)
    (hreg : reg.Consistent) (hp : call.1.ParserOk) : (afterRunCode reg call).Consistent := by
  unfold afterRunCode runCode
  cases hw : call.1.esprima with
  | none => exact hreg
  | some parse =>
    simp only []
    cases hparse : parse call.2 with
    | error e => exact hreg
    | ok syntaxTree =>
      simp only []
      obtain ⟨st1, hd⟩ := discover_ok_of_visitOk call.2 syntaxTree reg
        (hp parse hw call.2 syntaxTree hparse)
      obtain ⟨reg1, discovered⟩ := st1
      have hc := (discover_consistent call.2 syntaxTree reg _ hreg hd).1
      rw [hd]
      simp only []
      cases hev : call.1.eval (instrument call.2 (sortCodeblocks discovered)) with
      | mk calls thrown =>
        cases thrown with
        | none => exact afterExecuteBlocks_consistent calls reg1 hc
        | some e => exact afterExecuteBlocks_consistent calls reg1 hc

theorem afterRunCodes_consistent (calls : List (Window × List Char)) :
    ∀ (reg : Registry), reg.Consistent → (∀ c ∈ calls, c.1.ParserOk) →
      (afterRunCodes reg calls).Consistent := by
  induction calls with
  | nil => intro reg h _; exact h
  | cons c rest ih =>
    intro reg h hp
    exact ih _ (afterRunCode_consistent reg c h (hp c (List.mem_cons_self _ _)))
      (fun d hd => hp d (List.mem_cons_of_mem _ hd))

theorem ternaryParse_ok (eval : List Char → List Nat × Option JSError) :
    Window.ParserOk { esprima := some ternaryParse, eval := eval } := by
  intro parse hw code syntaxTree hparse
  simp only [Option.some.injEq] at hw
  subst hw
  unfold ternaryParse at hparse
  split at hparse
  · simp only [Except.ok.injEq] at hparse
    subst hparse
    rfl
  · simp at hparse

theorem sortCodeblocks_props (discovered : List Codeblock) :
    (sortCodeblocks discovered).Perm discovered ∧
    (sortCodeblocks discovered).Sorted (fun u v => u.rangeStart ≤ v.rangeStart) := by
  haveI : IsTotal Codeblock (fun u v => u.rangeStart ≤ v.rangeStart) :=
    ⟨fun u v => Nat.le_total _ _⟩
  haveI : IsTrans Codeblock (fun u v => u.rangeStart ≤ v.rangeStart) :=
    ⟨fun _ _ _ h1 h2 => Nat.le_trans h1 h2⟩
  exact ⟨List.perm_insertionSort _ _, List.sorted_insertionSort _ _⟩

theorem sortCodeblocks_stable (discovered : List Codeblock) (a b : Codeblock)
    (hab : List.Sublist [a, b] discovered) (hle : a.rangeStart ≤ b.rangeStart) :
    List.Sublist [a, b] (sortCodeblocks discovered) := by
  haveI : IsTotal Codeblock (fun u v => u.rangeStart ≤ v.rangeStart) :=
    ⟨fun u v => Nat.le_total _ _⟩
  haveI : IsTrans Codeblock (fun u v => u.rangeStart ≤ v.rangeStart) :=
    ⟨fun _ _ _ h1 h2 => Nat.le_trans h1 h2⟩
  exact List.pair_sublist_insertionSort hle hab

theorem flatMap_chars (src : List Char) (n : Nat) :
    ∀ (L : Nat), (List.range' L n).flatMap (fun p => (src[p]?).toList)
      = (src.drop L).take n := by
  induction n with
  | zero => intro L; simp
  | succ n ih =>
    intro L
    rw [List.range'_succ, List.flatMap_cons, ih (L + 1), drop_eq_getElem?_append src L]
    cases h : src[L]? with
    | none =>
      have hge : src.length ≤ L := by
        rcases Nat.lt_or_ge L src.length with hlt | hge
        · rw [List.getElem?_eq_getElem hlt] at h; simp at h
        · exact hge
      simp [List.drop_eq_nil_of_le (Nat.le_succ_of_le hge)]
    | some c => simp

theorem trackingAt_cons (u : Codeblock) (rest : List Codeblock) (p : Nat) :
    trackingAt (u :: rest) p
      = (if insertionPoint u = p then watchBlock u else []) ++ trackingAt rest p := by
  simp [trackingAt]

theorem trackingAt_eq_nil (units : List Codeblock) (p : Nat)
    (h : ∀ v ∈ units, insertionPoint v ≠ p) : trackingAt units p = [] := by
  induction units with
  | nil => rfl
  | cons u rest ih =>
    rw [trackingAt_cons, if_neg (h u (List.mem_cons_self _ _)),
      ih (fun v hv => h v (List.mem_cons_of_mem _ hv))]
    rfl

theorem insertionPoint_lt_bound (units : List Codeblock) :
    ∀ v ∈ units, insertionPoint v < insertionBound units := by
  induction units with
  | nil => intro v hv; simp at hv
  | cons u rest ih =>
    intro v hv
    simp only [insertionBound]
    rcases List.mem_cons.mp hv with rfl | hr
    · omega
    · have := ih v hr
      omega

theorem injectLoop_spec (src : List Char) (units : List Codeblock) :
    ∀ (L : Nat) (A : List Char) (offset bound : Nat),
      (units.map insertionPoint).Pairwise (fun a b => a ≤ b) →
      (∀ u ∈ units, L ≤ insertionPoint u) →
      offset + min L src.length = A.length →
      insertionBound units ≤ bound → L ≤ bound →
      (injectLoop units (A ++ src.drop L, offset)).1
        = A ++ (List.range' L (bound - L)).flatMap
              (fun p => trackingAt units p ++ (src[p]?).toList)
            ++ src.drop bound := by
  induction units with
  | nil =>
    intro L A offset bound _ _ _ _ hLb
    simp only [injectLoop]
    have e : (fun p => trackingAt [] p ++ (src[p]?).toList) = (fun p => (src[p]?).toList) := by
      funext p; simp [trackingAt]
    rw [e, flatMap_chars, List.append_assoc]
    congr 1
    have e2 : src.drop bound = (src.drop L).drop (bound - L) := by
      rw [List.drop_drop]; congr 1; omega
    rw [e2, List.take_append_drop]
  | cons u rest ih =>
    intro L A offset bound hs hL hinv hb hLb
    have hq : L ≤ insertionPoint u := hL u (List.mem_cons_self _ _)
    have hqb : insertionPoint u < bound :=
      Nat.lt_of_lt_of_le (insertionPoint_lt_bound (u :: rest) u (List.mem_cons_self _ _)) hb
    simp only [List.map_cons, List.pairwise_cons] at hs
    obtain ⟨hu, hrest⟩ := hs
    have hrestq : ∀ v ∈ rest, insertionPoint u ≤ insertionPoint v := by
      intro v hv
      exact hu _ (List.mem_map_of_mem _ hv)
    -- the text read so far, extended to the insertion point
    have esplit : A ++ src.drop L
        = (A ++ (src.drop L).take (insertionPoint u - L)) ++ src.drop (insertionPoint u) := by
      have e2 : src.drop (insertionPoint u) = (src.drop L).drop (insertionPoint u - L) := by
        rw [List.drop_drop]; congr 1; omega
      rw [e2, List.append_assoc, List.take_append_drop]
    have hinv1 : offset + min (insertionPoint u) src.length
        = (A ++ (src.drop L).take (insertionPoint u - L)).length := by
      simp only [List.length_append, List.length_take, List.length_drop]
      omega
    obtain ⟨ht, hd⟩ := take_drop_prefix (A ++ (src.drop L).take (insertionPoint u - L)) src
      (insertionPoint u) offset hinv1
    simp only [injectLoop]
    rw [injectStep_eq]
    simp only []
    have epos : u.rangeStart + offset + (if u.type = some "BlockStatement" then 1 else 0)
        = insertionPoint u + offset := by
      unfold insertionPoint; omega
    rw [epos, esplit, ht, hd]
    have hbrest : insertionBound rest ≤ bound := by
      simp only [insertionBound] at hb; omega
    have hinv2 : (offset + (watchBlock u).length) + min (insertionPoint u) src.length
        = ((A ++ (src.drop L).take (insertionPoint u - L)) ++ watchBlock u).length := by
      rw [List.length_append, ← hinv1]; omega
    rw [ih (insertionPoint u) _ (offset + (watchBlock u).length) bound hrest hrestq hinv2
      hbrest (Nat.le_of_lt hqb)]
    -- now compare the two annotated forms
    have hrange : List.range' L (bound - L)
        = List.range' L (insertionPoint u - L)
          ++ List.range' (insertionPoint u) (bound - insertionPoint u) := by
      have e3 := List.range'_append_1 L (insertionPoint u - L) (bound - insertionPoint u)
      have e4 : L + (insertionPoint u - L) = insertionPoint u := by omega
      have e5 : bound - insertionPoint u + (insertionPoint u - L) = bound - L := by omega
      rw [e4, e5] at e3
      exact e3.symm
    have hlow : (List.range' L (insertionPoint u - L)).flatMap
          (fun p => trackingAt (u :: rest) p ++ (src[p]?).toList)
        = (src.drop L).take (insertionPoint u - L) := by
      rw [← flatMap_chars]
      apply List.flatMap_congr
      intro p hp
      have hp2 : p < insertionPoint u := by
        have := (List.mem_range'_1.mp hp).2; omega
      rw [trackingAt_eq_nil]
      · rfl
      · intro v hv
        rcases List.mem_cons.mp hv with rfl | hr
        · omega
        · have := hrestq v hr; omega
    have hhigh : (List.range' (insertionPoint u) (bound - insertionPoint u)).flatMap
          (fun p => trackingAt (u :: rest) p ++ (src[p]?).toList)
        = watchBlock u ++ (List.range' (insertionPoint u) (bound - insertionPoint u)).flatMap
          (fun p => trackingAt rest p ++ (src[p]?).toList) := by
      have e6 : bound - insertionPoint u = (bound - insertionPoint u - 1) + 1 := by omega
      rw [e6, List.range'_succ, List.flatMap_cons, List.flatMap_cons, trackingAt_cons,
        if_pos rfl]
      simp only [List.append_assoc]
      congr 3
      apply List.flatMap_congr
      intro p hp
      have hp2 : insertionPoint u < p := by
        have := (List.mem_range'_1.mp hp).1; omega
      rw [trackingAt_cons, if_neg (by omega)]
      rfl
    rw [hrange, List.flatMap_append, hlow, hhigh]
    simp only [List.append_assoc]

theorem infix_append_cases {α : Type} (M a b : List α) (h : List.IsInfix M (a ++ b)) :
    List.IsInfix M a ∨ List.IsInfix M b ∨
      ∃ s p, s ≠ [] ∧ p ≠ [] ∧ List.IsSuffix s a ∧ List.IsPrefix p b ∧ M = s ++ p := by
  obtain ⟨pre, suf, h⟩ := h
  rw [List.append_assoc] at h
  rcases List.append_eq_append_iff.mp h with ⟨x, hx1, hx2⟩ | ⟨x, hx1, hx2⟩
  · rcases List.append_eq_append_iff.mp hx2 with ⟨y, hy1, hy2⟩ | ⟨y, hy1, hy2⟩
    · -- x = M ++ y
      left
      exact ⟨pre, y, by rw [hx1, hy1, List.append_assoc]⟩
    · -- M = x ++ y, b = y ++ suf
      by_cases hxe : x = []
      · subst hxe
        right; left
        exact ⟨[], suf, by rw [hy2, hy1]; simp⟩
      · by_cases hye : y = []
        · subst hye
          left
          exact ⟨pre, [], by rw [hx1, hy1]; simp⟩
        · right; right
          exact ⟨x, y, hxe, hye, ⟨pre, hx1.symm⟩, ⟨suf, hy2.symm⟩, hy1⟩
  · right; left
    exact ⟨x, suf, by rw [hx2, List.append_assoc]⟩

theorem noMiss_insert (a T b : List Char) (hne : T ≠ []) (hT : Inert T)
    (ha : ¬ List.IsInfix missMarker a) (hb : ¬ List.IsInfix missMarker b) :
    ¬ List.IsInfix missMarker (a ++ T ++ b) := by
  intro h
  rw [List.append_assoc] at h
  rcases infix_append_cases _ _ _ h with h1 | h1 | ⟨s, p, hs, hp, _, hpre, hM⟩
  · exact ha h1
  · rcases infix_append_cases _ _ _ h1 with h2 | h2 | ⟨s, p, hs, _, hsuf, _, hM⟩
    · exact hT.1 h2
    · exact hb h2
    · exact hT.2.1 s ((List.mem_tails _ _).mpr hsuf) hs ⟨p, hM.symm⟩
  · -- the first character of `T` would occur inside the marker
    cases T with
    | nil => exact hne rfl
    | cons c T1 =>
      cases p with
      | nil => exact hp rfl
      | cons d p1 =>
        have hd : d = c := by
          obtain ⟨r, hr⟩ := hpre
          simp only [List.cons_append, List.cons.injEq] at hr
          exact hr.1
        subst hd
        cases s with
        | nil => exact hs rfl
        | cons e s1 =>
          apply hT.2.2 d (by simp)
          rw [hM]
          simp

theorem noMiss_insert' (a T b : List Char) (hT : T = [] ∨ Inert T)
    (hab : ¬ List.IsInfix missMarker (a ++ b)) :
    ¬ List.IsInfix missMarker (a ++ T ++ b) := by
  rcases hT with rfl | hT
  · simpa using hab
  · by_cases hne : T = []
    · subst hne; simpa using hab
    · apply noMiss_insert a T b hne hT
      · intro h; exact hab (h.trans (List.infix_append' [] a b |>.trans (by simp)))
      · intro h; exact hab (h.trans ⟨a, [], by simp⟩)

theorem inert_append (T1 T2 : List Char) (h1 : Inert T1) (hne : T1 ≠ [])
    (h2 : ¬ List.IsInfix missMarker T2)
    (h3 : ∀ s ∈ T2.tails, s ≠ [] → ¬ List.IsPrefix s missMarker) :
    Inert (T1 ++ T2) := by
  refine ⟨?_, ?_, ?_⟩
  · have := noMiss_insert [] T1 T2 hne h1 (by decide) h2
    simpa using this
  · intro s hs hsne hpre
    rw [List.mem_tails] at hs
    have hcases : (∃ t, s = t ++ T2 ∧ List.IsSuffix t T1) ∨ List.IsSuffix s T2 := by
      obtain ⟨r, hr⟩ := hs
      rcases List.append_eq_append_iff.mp hr with ⟨x, hx1, hx2⟩ | ⟨x, hx1, hx2⟩
      · exact Or.inl ⟨x, hx2, ⟨r, hx1.symm⟩⟩
      · exact Or.inr ⟨x, hx2.symm⟩
    rcases hcases with ⟨t, rfl, ht⟩ | hs2
    · -- s = t ++ T2 with t a suffix of T1
      by_cases hte : t = []
      · subst hte
        exact h3 T2 ((List.mem_tails _ _).mpr (List.suffix_refl _)) (by simpa using hsne)
          (by simpa using hpre)
      · exact h1.2.1 t ((List.mem_tails _ _).mpr ht) hte
          ((List.prefix_append t T2).trans hpre)
    · exact h3 s ((List.mem_tails _ _).mpr hs2) hsne hpre
  · intro c hc
    cases T1 with
    | nil => exact absurd rfl hne
    | cons d T => exact h1.2.2 c (by simpa using hc)

theorem inertOrNil_append (T1 T2 : List Char) (h1 : T1 = [] ∨ Inert T1)
    (h2 : T2 = [] ∨ Inert T2) : T1 ++ T2 = [] ∨ Inert (T1 ++ T2) := by
  rcases h1 with rfl | h1
  · simpa using h2
  · by_cases hne : T1 = []
    · subst hne; simpa using h2
    · right
      rcases h2 with rfl | h2
      · simpa using h1
      · exact inert_append T1 T2 h1 hne h2.1 h2.2.1

theorem inert_covered : Inert "<span class=\"tailwind-covered\">".toList := by decide

theorem inert_close : Inert "</span>".toList := by decide

theorem inert_linenoStart : Inert linenoStart := by decide

theorem inert_newline : Inert ['\n'] := by decide

theorem noMiss_middle (mid : List Char) (h : ∀ c ∈ mid, c ≠ '<') :
    ¬ List.IsInfix missMarker (mid ++ linenoEnd) ∧
      ∀ s ∈ (mid ++ linenoEnd).tails, s ≠ [] → ¬ List.IsPrefix s missMarker := by
  induction mid with
  | nil => exact ⟨by decide, by decide⟩
  | cons c rest ih =>
    obtain ⟨ih1, ih2⟩ := ih (fun d hd => h d (List.mem_cons_of_mem _ hd))
    have hc : c ≠ '<' := h c (List.mem_cons_self _ _)
    constructor
    · intro hin
      rw [List.cons_append, List.infix_cons_iff] at hin
      rcases hin with hpre | hin
      · obtain ⟨r, hr⟩ := hpre
        simp only [missMarker, String.toList, List.cons_append, List.cons.injEq] at hr
        exact hc hr.1.symm
      · exact ih1 hin
    · intro s hs hsne hpre
      rw [List.cons_append, List.tails_cons, List.mem_cons] at hs
      rcases hs with rfl | hs
      · obtain ⟨r, hr⟩ := hpre
        simp only [missMarker, String.toList, List.cons_append, List.cons.injEq] at hr
        exact hc hr.1
      · exact ih2 s hs hsne hpre

theorem digitChar_ne_lt (d : Nat) (h : d < 10) : Nat.digitChar d ≠ '<' := by
  interval_cases d <;> decide

theorem toDigitsCore_ne_lt (fuel : Nat) :
    ∀ (n : Nat) (ds : List Char), (∀ c ∈ ds, c ≠ '<') →
      ∀ c ∈ Nat.toDigitsCore 10 fuel n ds, c ≠ '<' := by
  induction fuel with
  | zero => intro n ds h c hc; exact h c (by simpa [Nat.toDigitsCore] using hc)
  | succ fuel ih =>
    intro n ds h c hc
    unfold Nat.toDigitsCore at hc
    simp only [] at hc
    have hd := digitChar_ne_lt (n % 10) (Nat.mod_lt _ (by decide))
    have hds : ∀ c ∈ Nat.digitChar (n % 10) :: ds, c ≠ '<' := by
      intro c hc
      rcases List.mem_cons.mp hc with rfl | hc
      · exact hd
      · exact h c hc
    by_cases h0 : n / 10 = 0
    · rw [if_pos h0] at hc
      exact hds c hc
    · rw [if_neg h0] at hc
      exact ih _ _ hds c hc

theorem numberToString_ne_lt (n : Nat) : ∀ c ∈ numberToString n, c ≠ '<' :=
  toDigitsCore_ne_lt _ n [] (by simp)

theorem padLeftLoop_ne_lt (i : Nat) :
    ∀ (out : List Char), (∀ c ∈ out, c ≠ '<') →
      ∀ c ∈ padLeftLoop "&nbsp;".toList i out, c ≠ '<' := by
  induction i with
  | zero => intro out h c hc; exact h c hc
  | succ i ih =>
    intro out h c hc
    apply ih ("&nbsp;".toList ++ out) _ c hc
    intro d hd
    rcases List.mem_append.mp hd with h1 | h1
    · intro hlt
      subst hlt
      revert h1
      decide
    · exact h d h1

theorem inert_linenoElement (currentLine lineCountLength : Nat) :
    Inert (linenoElement currentLine lineCountLength) := by
  unfold linenoElement
  rw [List.append_assoc]
  have hmid := noMiss_middle
    (padLeft (numberToString currentLine) "&nbsp;".toList lineCountLength)
    (padLeftLoop_ne_lt _ _ (numberToString_ne_lt currentLine))
  exact inert_append _ _ inert_linenoStart (by decide) hmid.1 hmid.2

theorem inert_newline_lineno (currentLine lineCountLength : Nat) :
    Inert (['\n'] ++ linenoElement currentLine lineCountLength) :=
  inert_append _ _ inert_newline (by decide)
    (inert_linenoElement currentLine lineCountLength).1
    (inert_linenoElement currentLine lineCountLength).2.1

theorem markersAt_inert (units : List Codeblock) (p : Nat)
    (hall : ∀ u ∈ units, u.executionCount > 0) :
    markersAt units p = [] ∨ Inert (markersAt units p) := by
  induction units with
  | nil => left; rfl
  | cons u rest ih =>
    have hu : u.executionCount > 0 := hall u (List.mem_cons_self _ _)
    have e : markersAt (u :: rest) p
        = ((if u.rangeStart = p then openMarker u else []) ++
            (if u.rangeEnd = p then closeMarker else [])) ++ markersAt rest p := by
      simp [markersAt]
    rw [e]
    apply inertOrNil_append _ _ _ (ih (fun v hv => hall v (List.mem_cons_of_mem _ hv)))
    apply inertOrNil_append
    · by_cases hs : u.rangeStart = p
      · right
        rw [if_pos hs]
        unfold openMarker
        rw [if_pos hu]
        exact inert_covered
      · left; rw [if_neg hs]
    · by_cases he : u.rangeEnd = p
      · right; rw [if_pos he]; exact inert_close
      · left; rw [if_neg he]

theorem noMiss_annotate_aux (src : List Char) (marks : Nat → List Char)
    (hm : ∀ p, marks p = [] ∨ Inert (marks p)) (n : Nat) :
    ∀ (b : List Char), ¬ List.IsInfix missMarker (src.take n ++ b) →
      ¬ List.IsInfix missMarker
        ((List.range n).flatMap (fun p => marks p ++ (src[p]?).toList) ++ b) := by
  induction n with
  | zero => intro b h; simpa using h
  | succ n ih =>
    intro b h
    rw [List.range_succ, List.flatMap_append, List.append_assoc]
    simp only [List.flatMap_cons, List.flatMap_nil, List.append_nil]
    apply ih
    have e : src.take (n + 1) = src.take n ++ (src[n]?).toList := by
      rw [List.take_succ]
    rw [e, List.append_assoc] at h
    have := noMiss_insert' (src.take n) (marks n) ((src[n]?).toList ++ b) (hm n) h
    simpa [List.append_assoc] using this

theorem noMiss_annotate (src : List Char) (marks : Nat → List Char) (bound : Nat)
    (hm : ∀ p, marks p = [] ∨ Inert (marks p))
    (hsrc : ¬ List.IsInfix missMarker src) :
    ¬ List.IsInfix missMarker (annotate src marks bound) := by
  unfold annotate
  apply noMiss_annotate_aux src marks hm bound
  rw [List.take_append_drop]
  exact hsrc

theorem splitLinesAux_infix (s : List Char) :
    ∀ (current : List Char) (inRun : Bool), (inRun = true → current = []) →
      ∀ line ∈ splitLinesAux current inRun s, List.IsInfix line (current.reverse ++ s) := by
  induction s with
  | nil =>
    intro current inRun _ line hl
    simp only [splitLinesAux, List.mem_singleton] at hl
    subst hl
    simp
  | cons c rest ih =>
    intro current inRun hrun line hl
    simp only [splitLinesAux] at hl
    by_cases hb : isLineBreak c = true
    · rw [if_pos hb] at hl
      by_cases hr : inRun = true
      · rw [if_pos hr] at hl
        have hcur := hrun hr
        subst hcur
        have := ih [] true (fun _ => rfl) line hl
        simp only [List.reverse_nil, List.nil_append] at this ⊢
        exact this.trans ⟨[c], [], by simp⟩
      · rw [if_neg hr] at hl
        rcases List.mem_cons.mp hl with rfl | hl
        · exact (List.prefix_append _ _).isInfix
        · have := ih [] true (fun _ => rfl) line hl
          simp only [List.reverse_nil, List.nil_append] at this
          exact this.trans ⟨current.reverse ++ [c], [], by simp⟩
    · rw [if_neg hb] at hl
      have := ih (c :: current) false (by simp) line hl
      simpa using this

theorem noMiss_numberLines (lineCountLength : Nat) (rest : List (List Char)) :
    ∀ (st : List Char × Nat), ¬ List.IsInfix missMarker st.1 →
      (∀ b ∈ rest, ¬ List.IsInfix missMarker b) →
      ¬ List.IsInfix missMarker (rest.foldl (numberLine lineCountLength) st).1 := by
  induction rest with
  | nil => intro st h _; exact h
  | cons b rest ih =>
    intro st h hrest
    simp only [List.foldl_cons]
    apply ih _ _ (fun d hd => hrest d (List.mem_cons_of_mem _ hd))
    have hb := hrest b (List.mem_cons_self _ _)
    unfold numberLine
    simp only []
    by_cases hp : linenoStart.isPrefixOf st.1 = true
    · simp only [hp, if_true, List.nil_append]
      have := noMiss_insert st.1 (['\n'] ++ linenoElement st.2 lineCountLength) b (by simp)
        (inert_newline_lineno _ _) h hb
      simpa [List.append_assoc] using this
    · simp only [hp, if_false]
      have h1 := noMiss_insert st.1 (['\n'] ++ linenoElement (st.2 + 1) lineCountLength) b
        (by simp) (inert_newline_lineno _ _) h hb
      have h2 := noMiss_insert' [] (linenoElement st.2 lineCountLength)
        (st.1 ++ (['\n'] ++ linenoElement (st.2 + 1) lineCountLength) ++ b)
        (Or.inr (inert_linenoElement _ _)) (by simpa using h1)
      simpa [List.append_assoc] using h2

theorem noMiss_insertLineNumbers (code : List Char)
    (h : ¬ List.IsInfix missMarker code) :
    ¬ List.IsInfix missMarker (insertLineNumbers code) := by
  have hlines : ∀ line ∈ splitLines code, ¬ List.IsInfix missMarker line := by
    intro line hl hin
    have := splitLinesAux_infix code [] false (by simp) line hl
    exact h (hin.trans (by simpa using this))
  unfold insertLineNumbers
  simp only []
  cases hs : splitLines code with
  | nil =>
    simp only [List.infix_nil]
    decide
  | cons first rest =>
    rw [hs] at hlines
    exact noMiss_numberLines _ rest (first, 1) (hlines first (List.mem_cons_self _ _))
      (fun b hb => hlines b (List.mem_cons_of_mem _ hb))

theorem executeBlock_member (reg : Registry) (hreg : reg.Consistent) (cb : Codeblock)
    (hcb : cb ∈ reg.codeblocks) :
    executeBlock cb.id reg = .ok (.undefined, afterExecuteBlock reg cb.id) ∧
    (afterExecuteBlock reg cb.id).codeblocks[cb.id]?
      = some { cb with executionCount := cb.executionCount + 1 } ∧
    ∀ other ∈ reg.codeblocks, other.id ≠ cb.id →
      (afterExecuteBlock reg cb.id).codeblocks[other.id]? = some other := by
  have hget := consistent_getElem reg hreg cb hcb
  have hex : executeBlock cb.id reg
      = .ok (.undefined, { reg with codeblocks := reg.codeblocks.set cb.id cb.countExecution }) := by
    unfold executeBlock
    rw [hget]
  have haft : afterExecuteBlock reg cb.id
      = { reg with codeblocks := reg.codeblocks.set cb.id cb.countExecution } := by
    unfold afterExecuteBlock
    rw [hex]
  have hlt : cb.id < reg.codeblocks.length := by
    rcases Nat.lt_or_ge cb.id reg.codeblocks.length with h | h
    · exact h
    · rw [List.getElem?_eq_none h] at hget
      cases hget
  refine ⟨by rw [haft, hex], ?_, ?_⟩
  · rw [haft]
    simp only [List.getElem?_set_self hlt, Codeblock.countExecution]
  · intro other hother hne
    rw [haft]
    simp only []
    rw [List.getElem?_set_ne (fun h => hne h.symm)]
    exact consistent_getElem reg hreg other hother

theorem logicalOr_executeBlock (reg : Registry) (hreg : reg.Consistent) (cb : Codeblock)
    (hcb : cb ∈ reg.codeblocks) (x : Evaluation) :
    logicalOr (executeBlock cb.id) x reg = x (afterExecuteBlock reg cb.id) := by
  unfold logicalOr
  rw [(executeBlock_member reg hreg cb hcb).1]
  rfl

theorem visitUnits_ranges (code : List Char) (n : JSValue) (id : Nat) :
    (visitUnits code n id).map unitRange = ownRanges n := by
  unfold ownRanges
  cases n with
  | node type range props =>
    cases type with
    | none => rfl
    | some t =>
      cases range with
      | none => rfl
      | some r =>
        simp only [visitUnits, List.map_append]
        congr 1
        · split <;> rfl
        · split
          · split <;> rfl
          · split
            · split <;> rfl
            · rfl
  | _ => rfl

theorem discover_ranges (code : List Char) (syntaxTree : JSValue) (reg : Registry)
    (st1 : DiscoverState) (h : discover code syntaxTree reg = .ok st1) :
    st1.2.map unitRange = (visited syntaxTree).flatMap ownRanges :=
  discover_project code (fun l => l.map unitRange) rfl (fun a b => List.map_append _ a b)
    ownRanges (fun n st _ _ => visitUnits_ranges code n st.1.nextId) syntaxTree reg st1 h

theorem statementRange_mem_tops (props : List (String × JSValue)) (key : String)
    (r : Nat × Nat) (h : statementRange (getProp props key) = .ok r) :
    r ∈ topsProps props := by
  induction props with
  | nil => simp [getProp, statementRange] at h
  | cons kv rest ih =>
    obtain ⟨k, v⟩ := kv
    simp only [getProp] at h
    simp only [topsProps, List.mem_append]
    by_cases hk : k = key
    · rw [if_pos hk] at h
      left
      cases v with
      | node type range props1 =>
        cases range with
        | none => simp [statementRange] at h
        | some r1 =>
          simp only [statementRange, Except.ok.injEq] at h
          subst h
          simp [tops]
      | _ => simp [statementRange] at h
    · rw [if_neg hk] at h
      right
      exact ih h

theorem ownRanges_cases (type : String) (range : Nat × Nat)
    (props : List (String × JSValue)) :
    ownRanges (.node (some type) (some range) props) = [] ∨
    (∃ x, ownRanges (.node (some type) (some range) props) = [x]) ∨
    (∃ c a, ownRanges (.node (some type) (some range) props) = [c, a] ∧
      a ∈ topsProps props) := by
  unfold ownRanges
  simp only [visitUnits]
  by_cases hb : regularBlocks.contains type = true
  · have hne1 : ¬ type = "ConditionalExpression" := by
      rcases regularBlocks_contains type hb with ht | ht <;> subst ht <;> decide
    have hne2 : ¬ type = "SwitchCase" := by
      rcases regularBlocks_contains type hb with ht | ht <;> subst ht <;> decide
    right; left
    simp only [hb, if_true, hne1, hne2, if_false, List.append_nil]
    exact ⟨_, rfl⟩
  · have hb2 : regularBlocks.contains type = false := by simpa using hb
    simp only [hb2, Bool.false_eq_true, if_false, List.nil_append]
    by_cases hc : type = "ConditionalExpression"
    · simp only [hc, if_true]
      cases h1 : statementRange (getProp props "consequent") with
      | error e => left; rfl
      | ok r1 =>
        cases h2 : statementRange (getProp props "alternate") with
        | error e => left; rfl
        | ok r2 =>
          right; right
          exact ⟨r1, r2, rfl, statementRange_mem_tops props "alternate" r2 h2⟩
    · simp only [hc, if_false]
      by_cases hs : type = "SwitchCase"
      · simp only [hs, if_true]
        split
        · right; left; exact ⟨_, rfl⟩
        · left; rfl
      · left
        simp only [hs, if_false, List.map_nil]

theorem ownRanges_of_no_range (type : Option String) (props : List (String × JSValue)) :
    ownRanges (.node type none props) = [] := by
  cases type <;> rfl

theorem apart_symm {a b : Nat × Nat} (h : Apart a b) : Apart b a :=
  Or.symm h

theorem within_trans {a b c : Nat × Nat} (h1 : Within a b) (h2 : Within b c) : Within a c :=
  ⟨Nat.le_trans h2.1 h1.1, Nat.le_trans h1.2 h2.2⟩

theorem apart_of_within {a b s t : Nat × Nat} (h : Apart s t) (ha : Within a s)
    (hb : Within b t) : Apart a b := by
  unfold Apart Within at *
  omega

theorem visitedElems_ranges (child : JSValue) (rest : List JSValue) :
    (visitedElems (child :: rest)).flatMap ownRanges
      = (visited child).flatMap ownRanges ++ (visitedElems rest).flatMap ownRanges := by
  cases child <;> simp only [visitedElems, List.flatMap_append] <;> rfl

theorem visitedProps_ranges (key : String) (child : JSValue)
    (rest : List (String × JSValue)) :
    (visitedProps ((key, child) :: rest)).flatMap ownRanges
      = (visited child).flatMap ownRanges ++ (visitedProps rest).flatMap ownRanges := by
  cases child <;> simp only [visitedProps, List.flatMap_append] <;> rfl

theorem within_refl (a : Nat × Nat) : Within a a :=
  ⟨Nat.le_refl _, Nat.le_refl _⟩

theorem unitRangeOk_iff (range : Nat × Nat) (below : List (Nat × Nat)) (r : Nat × Nat) :
    unitRangeOk range below r = true ↔
      r.1 ≤ r.2 ∧ Within r range ∧ ∀ t ∈ below, Within t r ∨ Apart t r := by
  simp only [unitRangeOk, Bool.and_eq_true, decide_eq_true_eq, List.all_eq_true, and_assoc]

mutual
theorem ranges_nest (object : JSValue) (h : wellRanged object = true) :
    ((visited object).flatMap ownRanges).Pairwise Precedes ∧
      ∀ b ∈ (visited object).flatMap ownRanges,
        b.1 ≤ b.2 ∧ ∃ t ∈ tops object, Within b t := by
  cases object with
  | node type range props =>
    cases range with
    | none =>
      simp only [wellRanged, Bool.and_eq_true, decide_eq_true_eq] at h
      have ih := ranges_nest_props props h.2 h.1
      simp only [visited, List.flatMap_cons, ownRanges_of_no_range, List.nil_append, tops]
      exact ih
    | some r =>
      simp only [wellRanged, Bool.and_eq_true, decide_eq_true_eq, List.all_eq_true] at h
      obtain ⟨⟨⟨⟨_, hin⟩, hpa⟩, hown⟩, hprops⟩ := h
      have ih := ranges_nest_props props hprops hpa
      have hown2 : ∀ sp ∈ ownRanges (.node type (some r) props),
          sp.1 ≤ sp.2 ∧ Within sp r ∧ ∀ t ∈ topsProps props, Within t sp ∨ Apart t sp :=
        fun sp hsp => (unitRangeOk_iff _ _ _).mp (hown sp hsp)
      simp only [visited, List.flatMap_cons, tops, List.mem_singleton, exists_eq_left]
      constructor
      · rw [List.pairwise_append]
        refine ⟨?_, ih.1, ?_⟩
        · cases type with
          | none => exact List.Pairwise.nil
          | some ty =>
            rcases ownRanges_cases ty r props with h0 | ⟨x, h1⟩ | ⟨c, a, h2, ha⟩
            · rw [h0]; exact List.Pairwise.nil
            · rw [h1]; exact List.pairwise_singleton _ _
            · have hc := hown2 c (by rw [h2]; exact List.mem_cons_self _ _)
              rw [h2]
              refine List.Pairwise.cons ?_ (List.pairwise_singleton _ _)
              intro y hy
              rw [List.mem_singleton] at hy
              subst hy
              rcases hc.2.2 y ha with hw | hap
              · exact Or.inr hw
              · exact Or.inl (apart_symm hap)
        · intro a ha b hb
          obtain ⟨_, t, ht, hbt⟩ := ih.2 b hb
          rcases (hown2 a ha).2.2 t ht with hw | hap
          · exact Or.inr (within_trans hbt hw)
          · exact Or.inl (apart_symm (apart_of_within hap hbt (within_refl a)))
      · intro b hb
        rcases List.mem_append.mp hb with h1 | h1
        · exact ⟨(hown2 b h1).1, (hown2 b h1).2.1⟩
        · obtain ⟨hle, t, ht, hbt⟩ := ih.2 b h1
          exact ⟨hle, within_trans hbt (hin t ht)⟩
  | array elems =>
    simp only [wellRanged, Bool.and_eq_true, decide_eq_true_eq] at h
    have ih := ranges_nest_elems elems h.2 h.1
    have h0 : ownRanges (.array elems) = [] := rfl
    simp only [visited, List.flatMap_cons, h0, List.nil_append, tops]
    exact ih
  | undefined => exact ⟨List.Pairwise.nil, fun b hb => by cases hb⟩
  | null => exact ⟨List.Pairwise.nil, fun b hb => by cases hb⟩
  | bool v => exact ⟨List.Pairwise.nil, fun b hb => by cases hb⟩
  | number v => exact ⟨List.Pairwise.nil, fun b hb => by cases hb⟩
  | string v => exact ⟨List.Pairwise.nil, fun b hb => by cases hb⟩
theorem ranges_nest_elems (elems : List JSValue) (h : wellRangedElems elems = true)
    (ha : (topsElems elems).Pairwise Apart) :
    ((visitedElems elems).flatMap ownRanges).Pairwise Precedes ∧
      ∀ b ∈ (visitedElems elems).flatMap ownRanges,
        b.1 ≤ b.2 ∧ ∃ t ∈ topsElems elems, Within b t := by
  cases elems with
  | nil => exact ⟨List.Pairwise.nil, fun b hb => by cases hb⟩
  | cons child rest =>
    simp only [wellRangedElems, Bool.and_eq_true] at h
    simp only [topsElems, List.pairwise_append] at ha
    have ih1 := ranges_nest child h.1
    have ih2 := ranges_nest_elems rest h.2 ha.2.1
    rw [visitedElems_ranges]
    simp only [topsElems, List.mem_append]
    constructor
    · rw [List.pairwise_append]
      refine ⟨ih1.1, ih2.1, ?_⟩
      intro a haa b hbb
      obtain ⟨_, s, hs, has⟩ := ih1.2 a haa
      obtain ⟨_, t, ht, hbt⟩ := ih2.2 b hbb
      exact Or.inl (apart_of_within (ha.2.2 s hs t ht) has hbt)
    · intro b hb
      rcases hb with h1 | h1
      · obtain ⟨hle, t, ht, hbt⟩ := ih1.2 b h1
        exact ⟨hle, t, Or.inl ht, hbt⟩
      · obtain ⟨hle, t, ht, hbt⟩ := ih2.2 b h1
        exact ⟨hle, t, Or.inr ht, hbt⟩
theorem ranges_nest_props (props : List (String × JSValue))
    (h : wellRangedProps props = true) (ha : (topsProps props).Pairwise Apart) :
    ((visitedProps props).flatMap ownRanges).Pairwise Precedes ∧
      ∀ b ∈ (visitedProps props).flatMap ownRanges,
        b.1 ≤ b.2 ∧ ∃ t ∈ topsProps props, Within b t := by
  cases props with
  | nil => exact ⟨List.Pairwise.nil, fun b hb => by cases hb⟩
  | cons kv rest =>
    obtain ⟨key, child⟩ := kv
    simp only [wellRangedProps, Bool.and_eq_true] at h
    simp only [topsProps, List.pairwise_append] at ha
    have ih1 := ranges_nest child h.1
    have ih2 := ranges_nest_props rest h.2 ha.2.1
    rw [visitedProps_ranges]
    simp only [topsProps, List.mem_append]
    constructor
    · rw [List.pairwise_append]
      refine ⟨ih1.1, ih2.1, ?_⟩
      intro a haa b hbb
      obtain ⟨_, s, hs, has⟩ := ih1.2 a haa
      obtain ⟨_, t, ht, hbt⟩ := ih2.2 b hbb
      exact Or.inl (apart_of_within (ha.2.2 s hs t ht) has hbt)
    · intro b hb
      rcases hb with h1 | h1
      · obtain ⟨hle, t, ht, hbt⟩ := ih1.2 b h1
        exact ⟨hle, t, Or.inl ht, hbt⟩
      · obtain ⟨hle, t, ht, hbt⟩ := ih2.2 b h1
        exact ⟨hle, t, Or.inr ht, hbt⟩
end

theorem orderedInsert_pairwise {α : Type} (r : α → α → Prop) [DecidableRel r]
    (Q : α → α → Prop) (x : α) :
    ∀ (s : List α), s.Pairwise (fun a b => Q a b ∨ (Q b a ∧ ¬ r b a)) →
      (∀ y ∈ s, Q x y) →
      (s.orderedInsert r x).Pairwise (fun a b => Q a b ∨ (Q b a ∧ ¬ r b a)) := by
  intro s
  induction s with
  | nil => intro _ _; exact List.pairwise_singleton _ _
  | cons b s ih =>
    intro hs hx
    rw [List.orderedInsert]
    by_cases hr : r x b
    · rw [if_pos hr]
      exact List.Pairwise.cons (fun y hy => Or.inl (hx y hy)) hs
    · rw [if_neg hr]
      rw [List.pairwise_cons] at hs
      refine List.Pairwise.cons ?_ (ih hs.2 (fun y hy => hx y (List.mem_cons_of_mem _ hy)))
      intro z hz
      rcases (List.mem_orderedInsert r).mp hz with rfl | hz
      · exact Or.inr ⟨hx b (List.mem_cons_self _ _), hr⟩
      · exact hs.1 z hz

theorem insertionSort_pairwise {α : Type} (r : α → α → Prop) [DecidableRel r]
    (Q : α → α → Prop) :
    ∀ (l : List α), l.Pairwise Q →
      (l.insertionSort r).Pairwise (fun a b => Q a b ∨ (Q b a ∧ ¬ r b a)) := by
  intro l
  induction l with
  | nil => intro _; exact List.Pairwise.nil
  | cons x l ih =>
    intro h
    rw [List.pairwise_cons] at h
    rw [List.insertionSort]
    apply orderedInsert_pairwise r Q x _ (ih h.2)
    intro y hy
    exact h.1 y ((List.perm_insertionSort r l).mem_iff.mp hy)

theorem sortCodeblocks_inListOrder (discovered : List Codeblock)
    (hp : (discovered.map unitRange).Pairwise Precedes)
    (hle : ∀ u ∈ discovered, u.rangeStart ≤ u.rangeEnd) :
    ((sortCodeblocks discovered).map unitRange).Pairwise InListOrder := by
  rw [List.pairwise_map] at hp ⊢
  have h1 := insertionSort_pairwise (fun a b : Codeblock => a.rangeStart ≤ b.rangeStart)
    (fun a b => Precedes (unitRange a) (unitRange b)) discovered hp
  have h2 := (sortCodeblocks_props discovered).2
  have hperm := (sortCodeblocks_props discovered).1
  have h3 : (sortCodeblocks discovered).Pairwise
      (fun a b => a.rangeStart ≤ b.rangeStart ∧
        (Precedes (unitRange a) (unitRange b) ∨
          (Precedes (unitRange b) (unitRange a) ∧ ¬ b.rangeStart ≤ a.rangeStart))) :=
    List.Pairwise.and h2 h1
  refine List.Pairwise.imp_of_mem ?_ h3
  intro a b ha hb h
  have hal := hle a (hperm.mem_iff.mp ha)
  have hbl := hle b (hperm.mem_iff.mp hb)
  revert h
  simp only [InListOrder, Precedes, Apart, Within, unitRange]
  omega

theorem marksAt_type (units : List Codeblock) (p : Nat) :
    (marksAt units p).map Mark.type = eventsAt units p := by
  unfold marksAt eventsAt
  induction units with
  | nil => rfl
  | cons u rest ih =>
    simp only [List.flatMap_cons, List.map_append, ih]
    congr 1
    by_cases h1 : u.rangeStart = p <;> by_cases h2 : u.rangeEnd = p <;>
      simp [h1, h2, Mark.type]

theorem marksAt_injection (units : List Codeblock) (p : Nat) :
    (marksAt units p).flatMap (fun m => injection m.type) = markersAt units p := by
  unfold marksAt markersAt
  induction units with
  | nil => rfl
  | cons u rest ih =>
    simp only [List.flatMap_cons, List.flatMap_append, ih]
    congr 1
    by_cases h1 : u.rangeStart = p <;> by_cases h2 : u.rangeEnd = p <;>
      by_cases h3 : u.executionCount > 0 <;>
      simp [h1, h2, h3, Mark.type, injection, openMarker, closeMarker]

theorem matchMarks_append (l1 l2 : List Mark) :
    ∀ (stack : List Codeblock),
      matchMarks (l1 ++ l2) stack
        = (match matchMarks l1 stack with
          | none => none
          | some r1 => (matchMarks l2 r1.2).map (fun r => (r1.1 ++ r.1, r.2))) := by
  induction l1 with
  | nil =>
    intro stack
    simp only [List.nil_append, matchMarks]
    cases matchMarks l2 stack <;> simp
  | cons m rest ih =>
    intro stack
    cases m with
    | opening u =>
      simp only [List.cons_append, matchMarks]
      exact ih (u :: stack)
    | closing c =>
      cases stack with
      | nil => simp only [List.cons_append, matchMarks]
      | cons o stack =>
        simp only [List.cons_append, matchMarks, List.append_eq]
        rw [ih stack]
        cases matchMarks rest stack with
        | none => rfl
        | some r1 =>
          simp only [Option.map_some']
          cases matchMarks l2 r1.2 <;> simp

theorem matchMarks_closings (X : List Codeblock) :
    ∀ (Y stack : List Codeblock), X.length = Y.length →
      matchMarks (Y.map Mark.closing) (X ++ stack) = some (X.zip Y, stack) := by
  induction X with
  | nil =>
    intro Y stack h
    cases Y with
    | nil => rfl
    | cons y Y => simp at h
  | cons x X ih =>
    intro Y stack h
    cases Y with
    | nil => simp at h
    | cons y Y =>
      simp only [List.length_cons, Nat.add_right_cancel_iff] at h
      simp only [List.map_cons, List.cons_append, matchMarks, List.append_eq, ih Y stack h,
        Option.map_some', List.zip_cons_cons]

theorem filter_or_split {α : Type} (p q : α → Bool) :
    ∀ (l : List α), l.Pairwise (fun a b => q a = true → p b = false) →
      (∀ x ∈ l, p x = true → q x = false) →
      l.filter (fun x => p x || q x) = l.filter p ++ l.filter q := by
  intro l
  induction l with
  | nil => intro _ _; rfl
  | cons a l ih =>
    intro hpw hex
    rw [List.pairwise_cons] at hpw
    have ih1 := ih hpw.2 (fun x hx => hex x (List.mem_cons_of_mem _ hx))
    by_cases hpa : p a = true
    · have hqa := hex a (List.mem_cons_self _ _) hpa
      simp only [List.filter_cons, hpa, hqa, Bool.or_false, if_true, Bool.false_eq_true,
        if_false, ih1, List.cons_append]
    · have hpa2 : p a = false := by simpa using hpa
      by_cases hqa : q a = true
      · have hnil : l.filter p = [] := by
          rw [List.filter_eq_nil_iff]
          intro b hb
          rw [hpw.1 b hb hqa]
          exact Bool.false_ne_true
        simp only [List.filter_cons, hpa2, hqa, Bool.or_true, if_true, Bool.false_eq_true,
          if_false, ih1, hnil, List.nil_append]
      · have hqa2 : q a = false := by simpa using hqa
        simp only [List.filter_cons, hpa2, hqa2, Bool.or_false, Bool.false_eq_true, if_false,
          ih1]

theorem marksAt_append (l1 l2 : List Codeblock) (p : Nat) :
    marksAt (l1 ++ l2) p = marksAt l1 p ++ marksAt l2 p := by
  unfold marksAt
  exact List.flatMap_append _ _ _

theorem marksAt_started (p : Nat) :
    ∀ (l : List Codeblock), (∀ u ∈ l, u.rangeStart < p) →
      marksAt l p = (l.filter (fun u => decide (u.rangeEnd = p))).map Mark.closing := by
  intro l
  induction l with
  | nil => intro _; rfl
  | cons u l ih =>
    intro h
    have hu := h u (List.mem_cons_self _ _)
    have hne : ¬ u.rangeStart = p := by omega
    have ih1 := ih (fun v hv => h v (List.mem_cons_of_mem _ hv))
    unfold marksAt at ih1 ⊢
    simp only [List.flatMap_cons, ih1, hne, if_false, List.nil_append, List.filter_cons]
    by_cases he : u.rangeEnd = p
    · simp [he]
    · simp [he]

theorem matchMarks_starting (p : Nat) :
    ∀ (l stack : List Codeblock),
      (∀ u ∈ l, p ≤ u.rangeStart ∧ u.rangeStart ≤ u.rangeEnd) →
      matchMarks (marksAt l p) stack
        = some ((l.filter (fun u => decide (u.rangeEnd = p))).map (fun u => (u, u)),
            (l.filter (fun u => decide (u.rangeStart = p ∧ p < u.rangeEnd))).reverse ++ stack) := by
  intro l
  induction l with
  | nil => intro stack _; rfl
  | cons u l ih =>
    intro stack h
    have hu := h u (List.mem_cons_self _ _)
    have ih1 := fun st => ih st (fun v hv => h v (List.mem_cons_of_mem _ hv))
    have hcons : marksAt (u :: l) p
        = ((if u.rangeStart = p then [Mark.opening u] else []) ++
            (if u.rangeEnd = p then [Mark.closing u] else [])) ++ marksAt l p := by
      unfold marksAt
      rw [List.flatMap_cons]
    rw [hcons]
    by_cases hs : u.rangeStart = p
    · by_cases he : u.rangeEnd = p
      · have hc : ¬ (u.rangeStart = p ∧ p < u.rangeEnd) := by omega
        simp only [hs, he, if_true, List.cons_append, List.nil_append, matchMarks, ih1,
          Option.map_some', List.filter_cons, decide_True, List.map_cons, lt_self_iff_false,
          and_false, decide_False, Bool.false_eq_true, if_false]
      · have hc : u.rangeStart = p ∧ p < u.rangeEnd := by omega
        simp only [hs, he, if_true, if_false, List.append_nil, List.cons_append,
          List.nil_append, matchMarks, ih1, List.filter_cons, decide_False,
          Bool.false_eq_true, hc, decide_True, List.reverse_cons, List.append_assoc,
          hc.2, and_self]
    · have he : ¬ u.rangeEnd = p := by omega
      have hc : ¬ (u.rangeStart = p ∧ p < u.rangeEnd) := by omega
      simp only [hs, he, if_false, List.append_nil, List.nil_append, ih1, List.filter_cons,
        decide_False, Bool.false_eq_true, false_and]

theorem matchMarks_position_split (p : Nat) (L R : List Codeblock)
    (hL : ∀ u ∈ L, u.rangeStart < p)
    (hR : ∀ u ∈ R, p ≤ u.rangeStart ∧ u.rangeStart ≤ u.rangeEnd)
    (hpw : L.Pairwise (fun a b => a.rangeEnd = p → ¬ p < b.rangeEnd)) :
    ∃ pairs,
      matchMarks (marksAt (L ++ R) p)
          ((L ++ R).filter (fun u => decide (u.rangeStart < p ∧ p ≤ u.rangeEnd))).reverse
        = some (pairs,
            ((L ++ R).filter
              (fun u => decide (u.rangeStart < p + 1 ∧ p + 1 ≤ u.rangeEnd))).reverse) ∧
      (∀ oc ∈ pairs, oc.1 ∈ L ++ R ∧ oc.2 ∈ L ++ R ∧ oc.1.rangeEnd = p ∧ oc.2.rangeEnd = p) ∧
      (pairs.map Prod.fst).Perm ((L ++ R).filter (fun u => decide (u.rangeEnd = p))) := by
  -- the stack before: the units of `L` still open, those ending at `p` on top
  have hA : (L ++ R).filter (fun u => decide (u.rangeStart < p ∧ p ≤ u.rangeEnd))
      = L.filter (fun u => decide (p < u.rangeEnd))
          ++ L.filter (fun u => decide (u.rangeEnd = p)) := by
    have h1 : R.filter (fun u => decide (u.rangeStart < p ∧ p ≤ u.rangeEnd)) = [] := by
      rw [List.filter_eq_nil_iff]
      intro u hu
      have := hR u hu
      simp only [decide_eq_true_eq]
      omega
    have h2 : L.filter (fun u => decide (u.rangeStart < p ∧ p ≤ u.rangeEnd))
        = L.filter (fun u => decide (p < u.rangeEnd) || decide (u.rangeEnd = p)) := by
      apply List.filter_congr
      intro u hu
      have := hL u hu
      rw [← Bool.decide_or, decide_eq_decide]
      omega
    rw [List.filter_append, h1, List.append_nil, h2]
    apply filter_or_split
    · refine List.Pairwise.imp ?_ hpw
      intro a b h ha
      simp only [decide_eq_true_eq] at ha
      simpa using h ha
    · intro u _ hu
      simp only [decide_eq_true_eq] at hu
      simp only [decide_eq_false_iff_not]
      omega
  -- the stack after
  have hB : (L ++ R).filter (fun u => decide (u.rangeStart < p + 1 ∧ p + 1 ≤ u.rangeEnd))
      = L.filter (fun u => decide (p < u.rangeEnd))
          ++ R.filter (fun u => decide (u.rangeStart = p ∧ p < u.rangeEnd)) := by
    rw [List.filter_append]
    congr 1
    · apply List.filter_congr
      intro u hu
      have := hL u hu
      rw [decide_eq_decide]
      omega
    · apply List.filter_congr
      intro u hu
      have := hR u hu
      rw [decide_eq_decide]
      omega
  have hC : (L ++ R).filter (fun u => decide (u.rangeEnd = p))
      = L.filter (fun u => decide (u.rangeEnd = p))
          ++ R.filter (fun u => decide (u.rangeEnd = p)) := List.filter_append _ _
  refine ⟨(L.filter (fun u => decide (u.rangeEnd = p))).reverse.zip
        (L.filter (fun u => decide (u.rangeEnd = p)))
      ++ (R.filter (fun u => decide (u.rangeEnd = p))).map (fun u => (u, u)), ?_, ?_, ?_⟩
  · rw [hA, hB, marksAt_append, marksAt_started p L hL, matchMarks_append,
      List.reverse_append, List.reverse_append,
      matchMarks_closings _ _ _ (List.length_reverse _)]
    dsimp only
    rw [matchMarks_starting p R _ hR]
    rfl
  · intro oc hoc
    rcases List.mem_append.mp hoc with h | h
    · have h1 := List.of_mem_zip h
      have ho := List.mem_filter.mp (List.mem_reverse.mp h1.1)
      have hc := List.mem_filter.mp h1.2
      exact ⟨List.mem_append_left _ ho.1, List.mem_append_left _ hc.1,
        by simpa using ho.2, by simpa using hc.2⟩
    · obtain ⟨u, hu, rfl⟩ := List.mem_map.mp h
      have h1 := List.mem_filter.mp hu
      exact ⟨List.mem_append_right _ h1.1, List.mem_append_right _ h1.1,
        by simpa using h1.2, by simpa using h1.2⟩
  · rw [hC, List.map_append, List.map_map]
    have h1 : ((L.filter (fun u => decide (u.rangeEnd = p))).reverse.zip
        (L.filter (fun u => decide (u.rangeEnd = p)))).map Prod.fst
        = (L.filter (fun u => decide (u.rangeEnd = p))).reverse :=
      List.map_fst_zip _ _ (by simp)
    have h2 : (R.filter (fun u => decide (u.rangeEnd = p))).map
        (Prod.fst ∘ fun u => (u, u)) = R.filter (fun u => decide (u.rangeEnd = p)) :=
      (List.map_congr_left (fun _ _ => rfl)).trans (List.map_id _)
    rw [h1, h2]
    exact List.Perm.append_right _ (List.reverse_perm _)

theorem units_split (units : List Codeblock) (p : Nat)
    (hs : units.Pairwise (fun a b => a.rangeStart ≤ b.rangeStart)) :
    units.filter (fun u => decide (u.rangeStart < p))
        ++ units.filter (fun u => !decide (u.rangeStart < p)) = units := by
  rw [← filter_or_split]
  · rw [List.filter_eq_self]
    intro u _
    cases decide (u.rangeStart < p) <;> rfl
  · refine List.Pairwise.imp ?_ hs
    intro a b h ha
    simp only [Bool.not_eq_true', decide_eq_false_iff_not] at ha ⊢
    omega
  · intro u _ hu
    simp only [hu, Bool.not_true]

theorem matchMarks_position (units : List Codeblock)
    (hord : (units.map unitRange).Pairwise InListOrder)
    (hle : ∀ u ∈ units, u.rangeStart ≤ u.rangeEnd) (p : Nat) :
    ∃ pairs,
      matchMarks (marksAt units p)
          (units.filter (fun u => decide (u.rangeStart < p ∧ p ≤ u.rangeEnd))).reverse
        = some (pairs,
            (units.filter
              (fun u => decide (u.rangeStart < p + 1 ∧ p + 1 ≤ u.rangeEnd))).reverse) ∧
      (∀ oc ∈ pairs, oc.1 ∈ units ∧ oc.2 ∈ units ∧ oc.1.rangeEnd = p ∧ oc.2.rangeEnd = p) ∧
      (pairs.map Prod.fst).Perm (units.filter (fun u => decide (u.rangeEnd = p))) := by
  rw [List.pairwise_map] at hord
  have hs : units.Pairwise (fun a b => a.rangeStart ≤ b.rangeStart) :=
    List.Pairwise.imp (fun h => h.1) hord
  have hsplit := units_split units p hs
  have h := matchMarks_position_split p
    (units.filter (fun u => decide (u.rangeStart < p)))
    (units.filter (fun u => !decide (u.rangeStart < p)))
    (by
      intro u hu
      simpa using (List.mem_filter.mp hu).2)
    (by
      intro u hu
      have h1 := List.mem_filter.mp hu
      have h2 := hle u h1.1
      have h3 : ¬ u.rangeStart < p := by simpa using h1.2
      omega)
    (by
      refine List.Pairwise.imp_of_mem ?_ (List.Pairwise.filter _ hord)
      intro a b _ hb h ha
      have hb1 : b.rangeStart < p := by simpa using (List.mem_filter.mp hb).2
      simp only [InListOrder, unitRange] at h
      omega)
  rw [hsplit] at h
  exact h

theorem filter_end_perm (p : Nat) :
    ∀ (units : List Codeblock),
      (units.filter (fun u => decide (u.rangeEnd < p))
          ++ units.filter (fun u => decide (u.rangeEnd = p))).Perm
        (units.filter (fun u => decide (u.rangeEnd < p + 1))) := by
  intro units
  induction units with
  | nil => exact List.Perm.refl _
  | cons u l ih =>
    have e1 : ∀ (q : Codeblock → Bool), (u :: l).filter q
        = if q u = true then u :: l.filter q else l.filter q := fun q => by
      rw [List.filter_cons]
    by_cases h1 : u.rangeEnd < p
    · have d1 : decide (u.rangeEnd < p) = true := decide_eq_true h1
      have d2 : decide (u.rangeEnd = p) = false := decide_eq_false (by omega)
      have d3 : decide (u.rangeEnd < p + 1) = true := decide_eq_true (by omega)
      rw [e1, e1, e1, d1, d2, d3]
      exact List.Perm.cons _ ih
    · by_cases h2 : u.rangeEnd = p
      · have d1 : decide (u.rangeEnd < p) = false := decide_eq_false h1
        have d2 : decide (u.rangeEnd = p) = true := decide_eq_true h2
        have d3 : decide (u.rangeEnd < p + 1) = true := decide_eq_true (by omega)
        rw [e1, e1, e1, d1, d2, d3]
        exact List.perm_middle.trans (List.Perm.cons _ ih)
      · have d1 : decide (u.rangeEnd < p) = false := decide_eq_false h1
        have d2 : decide (u.rangeEnd = p) = false := decide_eq_false h2
        have d3 : decide (u.rangeEnd < p + 1) = false := decide_eq_false (by omega)
        rw [e1, e1, e1, d1, d2, d3]
        exact ih

theorem matchMarks_upto (units : List Codeblock)
    (hord : (units.map unitRange).Pairwise InListOrder)
    (hle : ∀ u ∈ units, u.rangeStart ≤ u.rangeEnd) :
    ∀ (p : Nat), ∃ pairs,
      matchMarks ((List.range p).flatMap (marksAt units)) []
        = some (pairs,
            (units.filter (fun u => decide (u.rangeStart < p ∧ p ≤ u.rangeEnd))).reverse) ∧
      (∀ oc ∈ pairs, oc.1 ∈ units ∧ oc.2 ∈ units ∧ oc.1.rangeEnd = oc.2.rangeEnd) ∧
      (pairs.map Prod.fst).Perm (units.filter (fun u => decide (u.rangeEnd < p))) := by
  intro p
  induction p with
  | zero =>
    refine ⟨[], ?_, ?_, ?_⟩
    · have h : units.filter (fun u => decide (u.rangeStart < 0 ∧ 0 ≤ u.rangeEnd)) = [] := by
        rw [List.filter_eq_nil_iff]
        intro u _
        simp
      rw [h]
      rfl
    · intro oc hoc
      exact absurd hoc (List.not_mem_nil _)
    · have h : units.filter (fun u => decide (u.rangeEnd < 0)) = [] := by
        rw [List.filter_eq_nil_iff]
        intro u _
        simp
      rw [h]
      exact List.Perm.refl _
  | succ p ih =>
    obtain ⟨pairs1, h1, hp1, hperm1⟩ := ih
    obtain ⟨pairs2, h2, hp2, hperm2⟩ := matchMarks_position units hord hle p
    refine ⟨pairs1 ++ pairs2, ?_, ?_, ?_⟩
    · rw [List.range_succ, List.flatMap_append, matchMarks_append, h1]
      dsimp only
      have hsingle : [p].flatMap (marksAt units) = marksAt units p := by
        simp [List.flatMap]
      rw [hsingle, h2]
      rfl
    · intro oc hoc
      rcases List.mem_append.mp hoc with h | h
      · exact hp1 oc h
      · have := hp2 oc h
        exact ⟨this.1, this.2.1, this.2.2.1.trans this.2.2.2.symm⟩
    · rw [List.map_append]
      exact (List.Perm.append hperm1 hperm2).trans (filter_end_perm p units)

theorem rangeEnd_lt_markerBound (units : List Codeblock) :
    ∀ u ∈ units, u.rangeEnd < markerBound units := by
  induction units with
  | nil => intro u hu; cases hu
  | cons v rest ih =>
    intro u hu
    simp only [markerBound]
    rcases List.mem_cons.mp hu with rfl | h
    · omega
    · have := ih u h
      omega

theorem startPoint_unitStart (u : Codeblock) : startPoint (unitStart u) = insertionPoint u := by
  unfold startPoint unitStart insertionPoint
  simp only [decide_eq_true_eq]
  rfl

theorem visitUnits_starts (code : List Char) (n : JSValue) (id : Nat) :
    (visitUnits code n id).map unitStart = ownStarts n := by
  unfold ownStarts
  cases n with
  | node type range props =>
    cases type with
    | none => rfl
    | some t =>
      cases range with
      | none => rfl
      | some r =>
        simp only [visitUnits, List.map_append]
        congr 1
        · split <;> rfl
        · split
          · split <;> rfl
          · split
            · split <;> rfl
            · rfl
  | _ => rfl

theorem discover_starts (code : List Char) (syntaxTree : JSValue) (reg : Registry)
    (st1 : DiscoverState) (h : discover code syntaxTree reg = .ok st1) :
    st1.2.map unitStart = (visited syntaxTree).flatMap ownStarts :=
  discover_project code (fun l => l.map unitStart) rfl (fun a b => List.map_append _ a b)
    ownStarts (fun n st _ _ => visitUnits_starts code n st.1.nextId) syntaxTree reg st1 h

theorem ownRanges_eq_starts (node : JSValue) :
    ownRanges node = (ownStarts node).map Prod.snd := by
  unfold ownRanges ownStarts
  rw [List.map_map]
  rfl

theorem ownStarts_of_no_range (type : Option String) (props : List (String × JSValue)) :
    ownStarts (.node type none props) = [] := by
  cases type <;> rfl

theorem ownStarts_cases (type : String) (range : Nat × Nat)
    (props : List (String × JSValue)) :
    ownStarts (.node (some type) (some range) props) = [] ∨
    (type = "BlockStatement" ∧
      ownStarts (.node (some type) (some range) props) = [(true, range)]) ∨
    (type ≠ "BlockStatement" ∧
      ∃ sp, ownStarts (.node (some type) (some range) props) = [(false, sp)]) ∨
    (type ≠ "BlockStatement" ∧
      ∃ x y, ownStarts (.node (some type) (some range) props) = [x, y] ∧
        statementRange (getProp props "consequent") = .ok x.2 ∧
        statementRange (getProp props "alternate") = .ok y.2) := by
  unfold ownStarts
  simp only [visitUnits]
  by_cases hb : regularBlocks.contains type = true
  · have hne1 : ¬ type = "ConditionalExpression" := by
      rcases regularBlocks_contains type hb with ht | ht <;> subst ht <;> decide
    have hne2 : ¬ type = "SwitchCase" := by
      rcases regularBlocks_contains type hb with ht | ht <;> subst ht <;> decide
    simp only [hb, if_true, hne1, hne2, if_false, List.append_nil]
    rcases regularBlocks_contains type hb with ht | ht
    · right; left
      subst ht
      exact ⟨rfl, rfl⟩
    · right; right; left
      subst ht
      exact ⟨by decide, _, rfl⟩
  · have hb2 : regularBlocks.contains type = false := by simpa using hb
    have hnb : type ≠ "BlockStatement" := by
      intro h
      subst h
      exact hb (by decide)
    simp only [hb2, Bool.false_eq_true, if_false, List.nil_append]
    by_cases hc : type = "ConditionalExpression"
    · simp only [hc, if_true]
      cases h1 : statementRange (getProp props "consequent") with
      | error e => left; rfl
      | ok r1 =>
        cases h2 : statementRange (getProp props "alternate") with
        | error e => left; rfl
        | ok r2 =>
          right; right; right
          exact ⟨by decide, _, _, rfl, rfl, rfl⟩
    · simp only [hc, if_false]
      by_cases hs : type = "SwitchCase"
      · simp only [hs, if_true]
        split
        · right; right; left; exact ⟨by decide, _, rfl⟩
        · left; rfl
      · left
        simp only [hs, if_false, List.map_nil]

theorem branch_apart (key1 key2 : String) (hk : key1 ≠ key2) (c a : Nat × Nat) :
    ∀ (props : List (String × JSValue)), (topsProps props).Pairwise Apart →
      statementRange (getProp props key1) = .ok c →
      statementRange (getProp props key2) = .ok a → Apart c a := by
  intro props
  induction props with
  | nil => intro _ h; simp [getProp, statementRange] at h
  | cons kv rest ih =>
    obtain ⟨k, v⟩ := kv
    intro hpa h1 h2
    simp only [topsProps, List.pairwise_append] at hpa
    by_cases hk1 : k = key1
    · have hk2 : ¬ k = key2 := fun h => hk (hk1.symm.trans h)
      have hc := statementRange_mem_tops ((k, v) :: rest) key1 c h1
      simp only [getProp, if_neg hk2] at h2
      have ha := statementRange_mem_tops rest key2 a h2
      simp only [getProp, if_pos hk1] at h1
      have hcv : c ∈ tops v := by
        cases v with
        | node type range props1 =>
          cases range with
          | none => simp [statementRange] at h1
          | some r1 =>
            simp only [statementRange, Except.ok.injEq] at h1
            subst h1
            simp [tops]
        | _ => simp [statementRange] at h1
      exact hpa.2.2 c hcv a ha
    · simp only [getProp, if_neg hk1] at h1
      by_cases hk2 : k = key2
      · have hc := statementRange_mem_tops rest key1 c h1
        simp only [getProp, if_pos hk2] at h2
        have hav : a ∈ tops v := by
          cases v with
          | node type range props1 =>
            cases range with
            | none => simp [statementRange] at h2
            | some r1 =>
              simp only [statementRange, Except.ok.injEq] at h2
              subst h2
              simp [tops]
          | _ => simp [statementRange] at h2
        exact apart_symm (hpa.2.2 a hav c hc)
      · simp only [getProp, if_neg hk2] at h2
        exact ih hpa.2.1 h1 h2

theorem apart_discoveredBefore (a b : Bool × (Nat × Nat)) (ha : GoodStart a)
    (hb : GoodStart b) (h : Apart a.2 b.2) : DiscoveredBefore a b := by
  obtain ⟨ta, sa, ea⟩ := a
  obtain ⟨tb, sb, eb⟩ := b
  unfold GoodStart at ha hb
  unfold Apart at h
  unfold DiscoveredBefore startPoint
  cases ta <;> cases tb <;> simp at ha hb h ⊢ <;> omega

theorem unitStartOk_iff (type : Option String) (range : Nat × Nat)
    (below : List (Nat × Nat)) (x : Bool × (Nat × Nat)) :
    unitStartOk type range below x = true ↔
      x.2.1 < x.2.2 ∧
      (x.1 = true → type = some "BlockStatement" ∧ range.1 + 2 ≤ range.2 ∧
        ∀ t ∈ below, range.1 < t.1) ∧
      (x.1 = false → range.1 < x.2.1) := by
  unfold unitStartOk
  cases hx : x.1 <;>
    simp [Bool.and_eq_true, decide_eq_true_eq, List.all_eq_true, and_assoc]

theorem visitedElems_starts (child : JSValue) (rest : List JSValue) :
    (visitedElems (child :: rest)).flatMap ownStarts
      = (visited child).flatMap ownStarts ++ (visitedElems rest).flatMap ownStarts := by
  cases child <;> simp only [visitedElems, List.flatMap_append] <;> rfl

theorem visitedProps_starts (key : String) (child : JSValue)
    (rest : List (String × JSValue)) :
    (visitedProps ((key, child) :: rest)).flatMap ownStarts
      = (visited child).flatMap ownStarts ++ (visitedProps rest).flatMap ownStarts := by
  cases child <;> simp only [visitedProps, List.flatMap_append] <;> rfl

theorem own_discoveredBefore (x y : Bool × (Nat × Nat)) (t : Nat × Nat)
    (hxt : Within t x.2 ∨ Apart t x.2) (hx : GoodStart x)
    (hxb : x.1 = true → x.2.1 < t.1)
    (hy : GoodStart y) (hyt : Within y.2 t) (hyn : y.1 = false → t.1 < y.2.1) :
    DiscoveredBefore x y := by
  obtain ⟨tx, sx, ex⟩ := x
  obtain ⟨ty, sy, ey⟩ := y
  obtain ⟨t1, t2⟩ := t
  unfold GoodStart at hx hy
  unfold Within Apart at hxt
  unfold Within at hyt
  unfold DiscoveredBefore startPoint
  cases tx <;> cases ty <;> simp at hx hy hxt hxb hyt hyn ⊢ <;> omega

mutual
theorem starts_nest (object : JSValue) (hw : wellRanged object = true)
    (hs : startsOk object = true) :
    ((visited object).flatMap ownStarts).Pairwise DiscoveredBefore ∧
      ∀ x ∈ (visited object).flatMap ownStarts,
        GoodStart x ∧ ∃ t ∈ tops object, Within x.2 t ∧ (x.1 = false → t.1 < x.2.1) := by
  cases object with
  | node type range props =>
    cases range with
    | none =>
      simp only [wellRanged, Bool.and_eq_true, decide_eq_true_eq] at hw
      simp only [startsOk] at hs
      have ih := starts_nest_props props hw.2 hs hw.1
      simp only [visited, List.flatMap_cons, ownStarts_of_no_range, List.nil_append, tops]
      exact ih
    | some r =>
      simp only [wellRanged, Bool.and_eq_true, decide_eq_true_eq, List.all_eq_true] at hw
      obtain ⟨⟨⟨⟨_, hin⟩, hpa⟩, hown⟩, hprops⟩ := hw
      simp only [startsOk, Bool.and_eq_true, List.all_eq_true] at hs
      obtain ⟨hst, hsp⟩ := hs
      have ih := starts_nest_props props hprops hsp hpa
      have hX : ∀ x ∈ ownStarts (.node type (some r) props),
          GoodStart x ∧ Within x.2 r ∧ (∀ t ∈ topsProps props, Within t x.2 ∨ Apart t x.2) ∧
            (x.1 = true → ∀ t ∈ topsProps props, x.2.1 < t.1) ∧
            (x.1 = false → r.1 < x.2.1) := by
        intro x hx
        have h1 := (unitRangeOk_iff _ _ _).mp
          (hown x.2 (by rw [ownRanges_eq_starts]; exact List.mem_map_of_mem _ hx))
        have h2 := (unitStartOk_iff _ _ _ _).mp (hst x hx)
        have hxr : x.1 = true → x.2 = r := by
          intro hx1
          have ht := (h2.2.1 hx1).1
          cases type with
          | none => cases ht
          | some ty =>
            simp only [Option.some.injEq] at ht
            rcases ownStarts_cases ty r props with h0 | ⟨_, h0⟩ | ⟨hn, _⟩ | ⟨hn, _⟩
            · rw [h0] at hx; cases hx
            · rw [h0, List.mem_singleton] at hx
              rw [hx]
            · exact absurd ht hn
            · exact absurd ht hn
        refine ⟨⟨h2.1, ?_⟩, h1.2.1, h1.2.2, ?_, h2.2.2⟩
        · intro hx1
          rw [hxr hx1]
          exact (h2.2.1 hx1).2.1
        · intro hx1 t ht
          rw [hxr hx1]
          exact (h2.2.1 hx1).2.2 t ht
      simp only [visited, List.flatMap_cons, tops, List.mem_singleton, exists_eq_left]
      constructor
      · rw [List.pairwise_append]
        refine ⟨?_, ih.1, ?_⟩
        · cases type with
          | none => exact List.Pairwise.nil
          | some ty =>
            rcases ownStarts_cases ty r props with h0 | ⟨_, h0⟩ | ⟨_, sp, h0⟩ |
              ⟨_, x, y, h0, hc, ha⟩
            · rw [h0]; exact List.Pairwise.nil
            · rw [h0]; exact List.pairwise_singleton _ _
            · rw [h0]; exact List.pairwise_singleton _ _
            · have hx := hX x (by rw [h0]; exact List.mem_cons_self _ _)
              have hy := hX y (by
                rw [h0]; exact List.mem_cons_of_mem _ (List.mem_cons_self _ _))
              rw [h0]
              refine List.Pairwise.cons ?_ (List.pairwise_singleton _ _)
              intro z hz
              rw [List.mem_singleton] at hz
              subst hz
              exact apart_discoveredBefore x z hx.1 hy.1
                (branch_apart "consequent" "alternate" (by decide) x.2 z.2 props hpa hc ha)
        · intro a ha b hb
          obtain ⟨hgb, t, ht, hbt, hbn⟩ := ih.2 b hb
          have hxa := hX a ha
          exact own_discoveredBefore a b t (hxa.2.2.1 t ht) hxa.1
            (fun h => hxa.2.2.2.1 h t ht) hgb hbt hbn
      · intro b hb
        rcases List.mem_append.mp hb with h1 | h1
        · have hxb := hX b h1
          exact ⟨hxb.1, hxb.2.1, hxb.2.2.2.2⟩
        · obtain ⟨hgb, t, ht, hbt, hbn⟩ := ih.2 b h1
          refine ⟨hgb, within_trans hbt (hin t ht), ?_⟩
          intro hb1
          have := hbn hb1
          have := (hin t ht).1
          omega
  | array elems =>
    simp only [wellRanged, Bool.and_eq_true, decide_eq_true_eq] at hw
    simp only [startsOk] at hs
    have ih := starts_nest_elems elems hw.2 hs hw.1
    have h0 : ownStarts (.array elems) = [] := rfl
    simp only [visited, List.flatMap_cons, h0, List.nil_append, tops]
    exact ih
  | undefined => exact ⟨List.Pairwise.nil, fun b hb => by cases hb⟩
  | null => exact ⟨List.Pairwise.nil, fun b hb => by cases hb⟩
  | bool v => exact ⟨List.Pairwise.nil, fun b hb => by cases hb⟩
  | number v => exact ⟨List.Pairwise.nil, fun b hb => by cases hb⟩
  | string v => exact ⟨List.Pairwise.nil, fun b hb => by cases hb⟩
theorem starts_nest_elems (elems : List JSValue) (hw : wellRangedElems elems = true)
    (hs : startsOkElems elems = true) (ha : (topsElems elems).Pairwise Apart) :
    ((visitedElems elems).flatMap ownStarts).Pairwise DiscoveredBefore ∧
      ∀ x ∈ (visitedElems elems).flatMap ownStarts,
        GoodStart x ∧ ∃ t ∈ topsElems elems, Within x.2 t ∧ (x.1 = false → t.1 < x.2.1) := by
  cases elems with
  | nil => exact ⟨List.Pairwise.nil, fun b hb => by cases hb⟩
  | cons child rest =>
    simp only [wellRangedElems, Bool.and_eq_true] at hw
    simp only [startsOkElems, Bool.and_eq_true] at hs
    simp only [topsElems, List.pairwise_append] at ha
    have ih1 := starts_nest child hw.1 hs.1
    have ih2 := starts_nest_elems rest hw.2 hs.2 ha.2.1
    rw [visitedElems_starts]
    simp only [topsElems, List.mem_append]
    constructor
    · rw [List.pairwise_append]
      refine ⟨ih1.1, ih2.1, ?_⟩
      intro a haa b hbb
      obtain ⟨hga, s, hs1, has, _⟩ := ih1.2 a haa
      obtain ⟨hgb, t, ht, hbt, _⟩ := ih2.2 b hbb
      exact apart_discoveredBefore a b hga hgb (apart_of_within (ha.2.2 s hs1 t ht) has hbt)
    · intro b hb
      rcases hb with h1 | h1
      · obtain ⟨hg, t, ht, hbt, hbn⟩ := ih1.2 b h1
        exact ⟨hg, t, Or.inl ht, hbt, hbn⟩
      · obtain ⟨hg, t, ht, hbt, hbn⟩ := ih2.2 b h1
        exact ⟨hg, t, Or.inr ht, hbt, hbn⟩
theorem starts_nest_props (props : List (String × JSValue))
    (hw : wellRangedProps props = true) (hs : startsOkProps props = true)
    (ha : (topsProps props).Pairwise Apart) :
    ((visitedProps props).flatMap ownStarts).Pairwise DiscoveredBefore ∧
      ∀ x ∈ (visitedProps props).flatMap ownStarts,
        GoodStart x ∧ ∃ t ∈ topsProps props, Within x.2 t ∧ (x.1 = false → t.1 < x.2.1) := by
  cases props with
  | nil => exact ⟨List.Pairwise.nil, fun b hb => by cases hb⟩
  | cons kv rest =>
    obtain ⟨key, child⟩ := kv
    simp only [wellRangedProps, Bool.and_eq_true] at hw
    simp only [startsOkProps, Bool.and_eq_true] at hs
    simp only [topsProps, List.pairwise_append] at ha
    have ih1 := starts_nest child hw.1 hs.1
    have ih2 := starts_nest_props rest hw.2 hs.2 ha.2.1
    rw [visitedProps_starts]
    simp only [topsProps, List.mem_append]
    constructor
    · rw [List.pairwise_append]
      refine ⟨ih1.1, ih2.1, ?_⟩
      intro a haa b hbb
      obtain ⟨hga, s, hs1, has, _⟩ := ih1.2 a haa
      obtain ⟨hgb, t, ht, hbt, _⟩ := ih2.2 b hbb
      exact apart_discoveredBefore a b hga hgb (apart_of_within (ha.2.2 s hs1 t ht) has hbt)
    · intro b hb
      rcases hb with h1 | h1
      · obtain ⟨hg, t, ht, hbt, hbn⟩ := ih1.2 b h1
        exact ⟨hg, t, Or.inl ht, hbt, hbn⟩
      · obtain ⟨hg, t, ht, hbt, hbn⟩ := ih2.2 b h1
        exact ⟨hg, t, Or.inr ht, hbt, hbn⟩
end

theorem program_starts (syntaxTree : JSValue) (hw : wellRanged syntaxTree = true)
    (hp : programOk syntaxTree = true) :
    ((visited syntaxTree).flatMap ownStarts).Pairwise DiscoveredBefore ∧
      ∀ x ∈ (visited syntaxTree).flatMap ownStarts, x.1 = true → x.2.1 + 2 ≤ x.2.2 := by
  cases syntaxTree with
  | node type range props =>
    cases type with
    | none => simp [programOk] at hp
    | some ty =>
      simp only [programOk, Bool.and_eq_true, decide_eq_true_eq] at hp
      obtain ⟨hty, hsp⟩ := hp
      subst hty
      cases range with
      | none =>
        simp only [wellRanged, Bool.and_eq_true, decide_eq_true_eq] at hw
        have ih := starts_nest_props props hw.2 hsp hw.1
        simp only [visited, List.flatMap_cons, ownStarts_of_no_range, List.nil_append]
        exact ⟨ih.1, fun x hx => (ih.2 x hx).1.2⟩
      | some r =>
        simp only [wellRanged, Bool.and_eq_true, decide_eq_true_eq, List.all_eq_true] at hw
        obtain ⟨⟨⟨⟨_, hin⟩, hpa⟩, _⟩, hprops⟩ := hw
        have ih := starts_nest_props props hprops hsp hpa
        have h0 : ownStarts (.node (some "Program") (some r) props) = [(false, r)] := rfl
        simp only [visited, List.flatMap_cons, h0, List.singleton_append]
        constructor
        · refine List.Pairwise.cons ?_ ih.1
          intro y hy
          obtain ⟨_, t, ht, hyt, hyn⟩ := ih.2 y hy
          have h1 := (hin t ht).1
          obtain ⟨ty, sy, ey⟩ := y
          unfold Within at hyt
          unfold DiscoveredBefore startPoint
          cases ty <;> simp at hyt hyn ⊢ <;> omega
        · intro x hx hx1
          rcases List.mem_cons.mp hx with h | h
          · rw [h] at hx1
            cases hx1
          · exact (ih.2 x h).1.2 hx1
  | _ => simp [programOk] at hp

theorem insertionPoint_bounds (u : Codeblock) :
    u.rangeStart ≤ insertionPoint u ∧ insertionPoint u ≤ u.rangeStart + 1 := by
  unfold insertionPoint
  split <;> omega

theorem sortCodeblocks_insertionPoints (discovered : List Codeblock)
    (hq : (discovered.map unitStart).Pairwise DiscoveredBefore) :
    ((sortCodeblocks discovered).map insertionPoint).Pairwise (fun a b => a < b) := by
  rw [List.pairwise_map] at hq ⊢
  have h1 := insertionSort_pairwise (fun a b : Codeblock => a.rangeStart ≤ b.rangeStart)
    (fun a b => DiscoveredBefore (unitStart a) (unitStart b)) discovered hq
  have h2 := (sortCodeblocks_props discovered).2
  have h3 : (sortCodeblocks discovered).Pairwise
      (fun a b => a.rangeStart ≤ b.rangeStart ∧
        (DiscoveredBefore (unitStart a) (unitStart b) ∨
          (DiscoveredBefore (unitStart b) (unitStart a) ∧ ¬ b.rangeStart ≤ a.rangeStart))) :=
    List.Pairwise.and h2 h1
  refine List.Pairwise.imp ?_ h3
  intro a b h
  have ha := insertionPoint_bounds a
  have hb := insertionPoint_bounds b
  unfold DiscoveredBefore at h
  simp only [startPoint_unitStart] at h
  have e1 : (unitStart a).2.1 = a.rangeStart := rfl
  have e2 : (unitStart b).2.1 = b.rangeStart := rfl
  rw [e1, e2] at h
  omega

theorem trackingAt_unique (units : List Codeblock)
    (h : (units.map insertionPoint).Pairwise (fun a b => a < b)) :
    ∀ u ∈ units, trackingAt units (insertionPoint u) = watchBlock u := by
  induction units with
  | nil => intro u hu; cases hu
  | cons v rest ih =>
    intro u hu
    simp only [List.map_cons, List.pairwise_cons, List.mem_map, forall_exists_index, and_imp,
      forall_apply_eq_imp_iff₂] at h
    rw [trackingAt_cons]
    rcases List.mem_cons.mp hu with rfl | hu1
    · rw [if_pos rfl, trackingAt_eq_nil rest _ (fun w hw => Nat.ne_of_gt (h.1 w hw))]
      exact List.append_nil _
    · rw [if_neg (Nat.ne_of_lt (h.1 u hu1)), ih h.2 u hu1]
      rfl

theorem instrument_eq_annotate (code : List Char) (units : List Codeblock)
    (h : (units.map insertionPoint).Pairwise (fun a b => a ≤ b)) :
    instrument code units = annotate code (trackingAt units) (insertionBound units) := by
  have h1 := injectLoop_spec code units 0 [] 0 (insertionBound units) h
    (fun _ _ => Nat.zero_le _) (by simp) (Nat.le_refl _) (Nat.zero_le _)
  simp only [List.nil_append, List.drop_zero, Nat.sub_zero] at h1
  unfold instrument annotate
  rw [h1, List.range_eq_range']

/-! ## Theorems -/

/-- C1: stripping the inserted tracking strings from the instrumented text,
each where it was inserted, gives back the source; the source is a subsequence
of the instrumented text, whose length is the source length plus the lengths of
the tracking strings. -/
theorem instrument_strip_roundtrip (code : List Char) (codeblocks : List Codeblock) :
    stripTracking codeblocks (instrument code codeblocks) = some code ∧
    code.Sublist (instrument code codeblocks) ∧
    (instrument code codeblocks).length
      = code.length + (codeblocks.map (fun cb => (watchBlock cb).length)).sum := by
  refine ⟨?_, ?_, ?_⟩
  · exact stripLoop_injectLoop codeblocks code 0
  · exact sublist_injectLoop codeblocks (code, 0)
  · exact length_injectLoop codeblocks (code, 0)

/-- C2: the tracking text is `Tailwind.executeBlock( <id> ) || ` for an
expression-form unit and `Tailwind.executeBlock( <id> );` for a statement-form
unit, where `<id>` is the decimal numeral of the unit's own id. -/
theorem watchBlock_text (cb : Codeblock) :
    watchBlock cb
      = (if cb.expression = true then
          ("Tailwind.executeBlock( " ++ toString cb.id ++ " ) || ").toList
        else
          ("Tailwind.executeBlock( " ++ toString cb.id ++ " );").toList) ∧
    decimalValue (toString cb.id).toList = cb.id := by
  refine ⟨?_, decimalValue_toDigits cb.id⟩
  unfold watchBlock numberToString
  by_cases h : cb.expression = true
  · simp only [h, if_true, String.toList, String.data_append]; rfl
  · simp only [h, if_false, String.toList, String.data_append]; rfl

/-- C3 as stated fails: the unit created from the `Program` node of the source
`a;` has its tracking call inserted at `rangeStart = 0`, not one character
after it. -/
theorem program_unit_insertion_counterexample :
    (discover "a;".toList programTree Registry.init).map Prod.snd = .ok [programUnit] ∧
    instrument "a;".toList [programUnit] = "Tailwind.executeBlock( 0 );a;".toList ∧
    instrument "a;".toList [programUnit]
      ≠ "a;".toList.take (programUnit.rangeStart + 1) ++ watchBlock programUnit
          ++ "a;".toList.drop (programUnit.rangeStart + 1) := by
  refine ⟨rfl, by decide, by decide⟩

/-- C3, amended: a unit of type `BlockStatement` gets its tracking call one
character after `rangeStart` (shifted by the accumulated offset); every other
unit, a `Program` unit included, gets it at `rangeStart` itself. -/
theorem injectStep_insertion_point (code : List Char) (offset : Nat) (cb : Codeblock) :
    injectStep (code, offset) cb
      = (if cb.type = some "BlockStatement" then
          (code.take (cb.rangeStart + offset + 1) ++ watchBlock cb
              ++ code.drop (cb.rangeStart + offset + 1),
            offset + (watchBlock cb).length)
        else
          (code.take (cb.rangeStart + offset) ++ watchBlock cb
              ++ code.drop (cb.rangeStart + offset),
            offset + (watchBlock cb).length)) ∧
    instrument code [cb]
      = (if cb.type = some "BlockStatement" then
          code.take (cb.rangeStart + 1) ++ watchBlock cb ++ code.drop (cb.rangeStart + 1)
        else
          code.take cb.rangeStart ++ watchBlock cb ++ code.drop cb.rangeStart) := by
  constructor
  · rw [injectStep_eq]
    by_cases h : cb.type = some "BlockStatement" <;> simp [h]
  · unfold instrument
    simp only [injectLoop]
    rw [injectStep_eq]
    by_cases h : cb.type = some "BlockStatement" <;> simp [h]

/-- C4: `getReport` returns the number of units as `statements` and the number
of units with `executionCount > 0` as `executed`; `executed` never exceeds
`statements`, both are `0` for an empty unit list, and the stats object is left
as it was. -/
theorem getReport_counts (stats : TailwindStats) (sourceCode : List Char) :
    stats.getReport.1.statements = stats.codeblocks.length ∧
    stats.getReport.1.executed
      = (stats.codeblocks.filter (fun cb => decide (cb.executionCount > 0))).length ∧
    stats.getReport.1.executed ≤ stats.getReport.1.statements ∧
    (TailwindStats.getReport ⟨sourceCode, []⟩).1 = ⟨0, 0⟩ ∧
    stats.getReport.2 = stats := by
  have h := getReportLoop_eq stats.codeblocks ⟨stats.codeblocks.length, 0⟩
  refine ⟨?_, ?_, ?_, rfl, rfl⟩
  · simp [TailwindStats.getReport, h]
  · simp [TailwindStats.getReport, h]
  · simp only [TailwindStats.getReport, h, Nat.zero_add]
    exact List.length_filter_le _ _

/-- C5: for the id of a registered unit, `executeBlock` raises that unit's
`executionCount` by exactly one and leaves every other unit, and every other
field, as it was; over any sequence of `executeBlock` calls no unit's id or
range changes and no `executionCount` decreases; a newly constructed unit
starts with `executionCount` 0. -/
theorem executeBlock_counts_one (reg : Registry) (hreg : reg.Consistent) (cb : Codeblock)
    (hcb : cb ∈ reg.codeblocks) (blockIds : List Nat) (statement : JSValue)
    (sourceCode : Option (List Char)) (expression : Bool) :
    executeBlock cb.id reg
      = .ok (.undefined,
          { nextId := reg.nextId,
            codeblocks := reg.codeblocks.map (fun u =>
              if u.id = cb.id then { u with executionCount := u.executionCount + 1 } else u) }) ∧
    List.Forall₂
      (fun u v => v.id = u.id ∧ v.rangeStart = u.rangeStart ∧ v.rangeEnd = u.rangeEnd ∧
        u.executionCount ≤ v.executionCount)
      reg.codeblocks (afterExecuteBlocks reg blockIds).codeblocks ∧
    (match newCodeblock statement sourceCode expression reg with
      | .ok (u, _) => u.executionCount = 0
      | .error _ => True) := by
  refine ⟨?_, ?_, ?_⟩
  · unfold executeBlock
    rw [consistent_getElem reg hreg cb hcb]
    simp only [Codeblock.countExecution]
    rw [consistent_set_eq_map reg hreg cb hcb]
  · exact forall₂_afterExecuteBlocks blockIds reg
  · unfold newCodeblock
    cases statementRange statement <;> simp

/-- Witness for C5 on `sampleRegistry` and its second unit. -/
theorem executeBlock_counts_one_witness :
    executeBlock 1 sampleRegistry
      = .ok (.undefined,
          { nextId := 2,
            codeblocks := sampleRegistry.codeblocks.map (fun u =>
              if u.id = 1 then { u with executionCount := u.executionCount + 1 } else u) }) :=
  (executeBlock_counts_one sampleRegistry (by decide)
    { id := 1, statement := .node (some "Identifier") (some (0, 1)) [],
      rangeStart := 0, rangeEnd := 1, type := some "Identifier", expression := true,
      code := some "a".toList, executionCount := 3 }
    (List.Mem.tail _ (List.Mem.head _)) [1, 0, 1] .undefined none false).1

/-- C6: for the id of a registered unit, `executeBlock` returns a falsy value
(`undefined`), whatever the unit's `executionCount` was. -/
theorem executeBlock_returns_falsy (reg : Registry) (hreg : reg.Consistent) (cb : Codeblock)
    (hcb : cb ∈ reg.codeblocks) :
    ∃ v reg1, executeBlock cb.id reg = .ok (v, reg1) ∧ toBoolean v = false := by
  refine ⟨.undefined,
    { reg with codeblocks := reg.codeblocks.set cb.id cb.countExecution }, ?_, rfl⟩
  unfold executeBlock
  rw [consistent_getElem reg hreg cb hcb]

/-- Witness for C6 on `sampleRegistry` and its first unit. -/
theorem executeBlock_returns_falsy_witness :
    ∃ v reg1, executeBlock 0 sampleRegistry = .ok (v, reg1) ∧ toBoolean v = false :=
  executeBlock_returns_falsy sampleRegistry (by decide)
    { id := 0, statement := programTree, rangeStart := 0, rangeEnd := 2,
      type := some "Program", expression := false, code := some "a;".toList,
      executionCount := 0 }
    (List.Mem.head _)

/-- C7: on a tree that meets the parser's guarantees discovery returns, and
its statement-form units with a type of `regularBlocks` are, in visiting order,
exactly one for every visited node that has a range and whose type is
`BlockStatement` or `Program`, with the node's own type and range,
`executionCount` 0 and the source slice of its range as code; the visit of such
a node pushes exactly that unit (with the next free id) and goes on to the
node's children; a node without type or without range creates no unit and its
children are traversed. -/
theorem discover_regular_blocks (code : List Char) (syntaxTree : JSValue) (reg : Registry)
    (hwf : (visited syntaxTree).all visitOk = true)
    (st : DiscoverState) (type : Option String) (noRange : Option (Nat × Nat))
    (range : Nat × Nat) (props : List (String × JSValue)) :
    (∃ st1, discover code syntaxTree reg = .ok st1 ∧
      (st1.2.filter isBlockUnit).map
          (fun u => (u.type, u.rangeStart, u.rangeEnd, u.expression, u.executionCount, u.code))
        = ((visited syntaxTree).filterMap regularBlockNode?).map
            (fun tr => (some tr.1, tr.2.1, tr.2.2, false, 0,
              some (substring code tr.2.1 tr.2.2)))) ∧
    traverse code (.node (some "BlockStatement") (some range) props) st
      = traverseProps code props
          ({ nextId := st.1.nextId + 1,
             codeblocks := st.1.codeblocks ++
               [{ id := st.1.nextId,
                  statement := .node (some "BlockStatement") (some range) props,
                  rangeStart := range.1, rangeEnd := range.2, type := some "BlockStatement",
                  expression := false, code := some (substring code range.1 range.2),
                  executionCount := 0 }] },
           st.2 ++
             [{ id := st.1.nextId,
                statement := .node (some "BlockStatement") (some range) props,
                rangeStart := range.1, rangeEnd := range.2, type := some "BlockStatement",
                expression := false, code := some (substring code range.1 range.2),
                executionCount := 0 }]) ∧
    traverse code (.node (some "Program") (some range) props) st
      = traverseProps code props
          ({ nextId := st.1.nextId + 1,
             codeblocks := st.1.codeblocks ++
               [{ id := st.1.nextId,
                  statement := .node (some "Program") (some range) props,
                  rangeStart := range.1, rangeEnd := range.2, type := some "Program",
                  expression := false, code := some (substring code range.1 range.2),
                  executionCount := 0 }] },
           st.2 ++
             [{ id := st.1.nextId,
                statement := .node (some "Program") (some range) props,
                rangeStart := range.1, rangeEnd := range.2, type := some "Program",
                expression := false, code := some (substring code range.1 range.2),
                executionCount := 0 }]) ∧
    traverse code (.node none noRange props) st = traverseProps code props st ∧
    traverse code (.node type none props) st = traverseProps code props st := by
  refine ⟨?_, ?_, ?_, ?_, ?_⟩
  · obtain ⟨st1, h⟩ := discover_ok_of_visitOk code syntaxTree reg hwf
    have h1 := discover_project code
      (fun l => (l.filter isBlockUnit).map
        (fun u => (u.type, u.rangeStart, u.rangeEnd, u.expression, u.executionCount, u.code)))
      rfl (by intro a b; simp)
      (fun n => (regularBlockNode? n).toList.map
        (fun tr => (some tr.1, tr.2.1, tr.2.2, false, 0, some (substring code tr.2.1 tr.2.2))))
      (fun n st0 _ _ => visitUnits_blocks code n st0.1.nextId) syntaxTree reg st1 h
    rw [flatMap_toList_map] at h1
    exact ⟨st1, h, h1⟩
  · rw [traverse]
    have hb : regularBlocks.contains "BlockStatement" = true := by decide
    simp only [visitor, hb, if_true]
    rw [pushCodeblock_of_range code (.node (some "BlockStatement") (some range) props) false
      st range rfl]
    rfl
  · rw [traverse]
    have hb : regularBlocks.contains "Program" = true := by decide
    simp only [visitor, hb, if_true]
    rw [pushCodeblock_of_range code (.node (some "Program") (some range) props) false
      st range rfl]
    rfl
  · rw [traverse]; rfl
  · rw [traverse]
    cases type <;> rfl

/-- Witness for C7 on `switchTree`: its one regular block is the `Program`
node. -/
theorem discover_regular_blocks_witness :
    ∃ st1, discover switchSource switchTree Registry.init = .ok st1 ∧
      (st1.2.filter isBlockUnit).map
          (fun u => (u.type, u.rangeStart, u.rangeEnd, u.expression, u.executionCount, u.code))
        = [(some "Program", 0, 38, false, 0, some switchSource)] :=
  (discover_regular_blocks switchSource switchTree Registry.init rfl
    (Registry.init, []) none none (0, 0) []).1

/-- C8: on a tree that meets the parser's guarantees discovery returns, and its
expression-form units are, in visiting order, exactly the units for the
`consequent` and then the `alternate` of each visited `ConditionalExpression`
node, two per node, so no other kind of node creates an expression-form unit;
the visit of such a node pushes exactly these two units, with the ranges of
`consequent` and `alternate`, and none for its own range. -/
theorem discover_conditional_branches (code : List Char) (syntaxTree : JSValue)
    (reg : Registry) (hwf : (visited syntaxTree).all visitOk = true)
    (st : DiscoverState) (range : Nat × Nat) (props : List (String × JSValue))
    (r1 r2 : Nat × Nat) (h1 : statementRange (getProp props "consequent") = .ok r1)
    (h2 : statementRange (getProp props "alternate") = .ok r2) :
    (∃ st1, discover code syntaxTree reg = .ok st1 ∧
      (st1.2.filter (fun u => u.expression)).map (fun u => (u.rangeStart, u.rangeEnd))
        = (visited syntaxTree).flatMap branchRanges ∧
      (st1.2.filter (fun u => u.expression)).length
        = 2 * ((visited syntaxTree).filter isConditionalNode).length) ∧
    visitor code (.node (some "ConditionalExpression") (some range) props) st
      = .ok
          ({ nextId := st.1.nextId + 2,
             codeblocks := st.1.codeblocks ++
               [{ id := st.1.nextId, statement := getProp props "consequent",
                  rangeStart := r1.1, rangeEnd := r1.2,
                  type := statementType (getProp props "consequent"), expression := true,
                  code := some (substring code r1.1 r1.2), executionCount := 0 },
                { id := st.1.nextId + 1, statement := getProp props "alternate",
                  rangeStart := r2.1, rangeEnd := r2.2,
                  type := statementType (getProp props "alternate"), expression := true,
                  code := some (substring code r2.1 r2.2), executionCount := 0 }] },
           st.2 ++
             [{ id := st.1.nextId, statement := getProp props "consequent",
                rangeStart := r1.1, rangeEnd := r1.2,
                type := statementType (getProp props "consequent"), expression := true,
                code := some (substring code r1.1 r1.2), executionCount := 0 },
              { id := st.1.nextId + 1, statement := getProp props "alternate",
                rangeStart := r2.1, rangeEnd := r2.2,
                type := statementType (getProp props "alternate"), expression := true,
                code := some (substring code r2.1 r2.2), executionCount := 0 }]) := by
  obtain ⟨st1, h⟩ := discover_ok_of_visitOk code syntaxTree reg hwf
  have hA := discover_project code
    (fun l => (l.filter (fun u => u.expression)).map (fun u => (u.rangeStart, u.rangeEnd)))
    rfl (by intro a b; simp) branchRanges
    (fun n st0 _ _ => visitUnits_branches code n st0.1.nextId) syntaxTree reg st1 h
  have hB := discover_project code
    (fun l => (l.filter (fun u => u.expression)).map (fun _ => ()))
    rfl (by intro a b; simp)
    (fun n => if isConditionalNode n = true then [(), ()] else [])
    (fun n st0 st2 hv => by
      have e1 := visitUnits_branches code n st0.1.nextId
      have e2 := visitor_ok_branches code n st0 st2 hv
      show List.map (fun _ => ()) (List.filter (fun u => u.expression)
          (visitUnits code n st0.1.nextId))
        = if isConditionalNode n = true then [(), ()] else []
      rw [← e2, ← e1, List.map_map])
    syntaxTree reg st1 h
  refine ⟨⟨st1, h, hA, ?_⟩, ?_⟩
  · have hlen := congrArg List.length hB
    rw [List.length_map, flatMap_pair_length] at hlen
    exact hlen
  · have hb : regularBlocks.contains "ConditionalExpression" = false := by decide
    simp only [visitor, hb, if_true, Bool.false_eq_true, if_false]
    rw [pushCodeblock_of_range code (getProp props "consequent") true st r1 h1]
    simp only []
    rw [pushCodeblock_of_range code (getProp props "alternate") true _ r2 h2]
    simp [mkUnit, Nat.add_assoc]

/-- Witness for C8 on `switchTree`: the two expression-form units are the
branches `b` and `c` of its one ternary. -/
theorem discover_conditional_branches_witness :
    ∃ st1, discover switchSource switchTree Registry.init = .ok st1 ∧
      (st1.2.filter (fun u => u.expression)).map (fun u => (u.rangeStart, u.rangeEnd))
        = [(19, 20), (21, 22)] ∧
      (st1.2.filter (fun u => u.expression)).length = 2 :=
  (discover_conditional_branches switchSource switchTree Registry.init rfl
    (Registry.init, []) (17, 22)
    [("test", .node (some "Identifier") (some (17, 18)) [("name", .string "a")]),
      ("consequent", .node (some "Identifier") (some (19, 20)) [("name", .string "b")]),
      ("alternate", .node (some "Identifier") (some (21, 22)) [("name", .string "c")])]
    (19, 20) (21, 22) rfl rfl).1

/-- C9: on a tree that meets the parser's guarantees discovery returns, and its
statement-form units of type `SwitchCase` are, in visiting order, exactly one
for every visited `SwitchCase` node with a non-empty body, ranging from the
start of the first body statement to the end of the last; the visit of such a
node pushes exactly that unit, whatever the node's own range is, and the visit
of a `SwitchCase` node with an empty body pushes nothing. -/
theorem discover_switch_cases (code : List Char) (syntaxTree : JSValue)
    (reg : Registry) (hwf : (visited syntaxTree).all visitOk = true)
    (st : DiscoverState) (range : Nat × Nat) (props : List (String × JSValue))
    (elems : List JSValue) (first last : JSValue) (r1 r2 : Nat × Nat)
    (hc : getProp props "consequent" = .array elems)
    (hf : elems.head? = some first) (hl : elems.getLast? = some last)
    (h1 : statementRange first = .ok r1) (h2 : statementRange last = .ok r2)
    (emptyRange : Nat × Nat) (emptyProps : List (String × JSValue))
    (he : getProp emptyProps "consequent" = .array []) :
    (∃ st1, discover code syntaxTree reg = .ok st1 ∧
      (st1.2.filter isSwitchUnit).map
          (fun u => (u.type, u.rangeStart, u.rangeEnd, u.expression, u.executionCount, u.code))
        = ((visited syntaxTree).filterMap switchBody?).map
            (fun r => (some "SwitchCase", r.1, r.2, false, 0,
              some (substring code r.1 r.2)))) ∧
    visitor code (.node (some "SwitchCase") (some range) props) st
      = .ok
          ({ nextId := st.1.nextId + 1,
             codeblocks := st.1.codeblocks ++
               [{ id := st.1.nextId,
                  statement := .node (some "SwitchCase") (some (r1.1, r2.2)) [],
                  rangeStart := r1.1, rangeEnd := r2.2, type := some "SwitchCase",
                  expression := false, code := some (substring code r1.1 r2.2),
                  executionCount := 0 }] },
           st.2 ++
             [{ id := st.1.nextId,
                statement := .node (some "SwitchCase") (some (r1.1, r2.2)) [],
                rangeStart := r1.1, rangeEnd := r2.2, type := some "SwitchCase",
                expression := false, code := some (substring code r1.1 r2.2),
                executionCount := 0 }]) ∧
    visitor code (.node (some "SwitchCase") (some emptyRange) emptyProps) st = .ok st := by
  have hb : regularBlocks.contains "SwitchCase" = false := by decide
  have hne : ¬ ("SwitchCase" = "ConditionalExpression") := by decide
  refine ⟨?_, ?_, ?_⟩
  · obtain ⟨st1, h⟩ := discover_ok_of_visitOk code syntaxTree reg hwf
    have hA := discover_project code
      (fun l => (l.filter isSwitchUnit).map
        (fun u => (u.type, u.rangeStart, u.rangeEnd, u.expression, u.executionCount, u.code)))
      rfl (by intro a b; simp)
      (fun n => (switchBody? n).toList.map
        (fun r => (some "SwitchCase", r.1, r.2, false, 0, some (substring code r.1 r.2))))
      (fun n st0 _ _ => visitUnits_switch code n st0.1.nextId) syntaxTree reg st1 h
    rw [flatMap_toList_map] at hA
    exact ⟨st1, h, hA⟩
  · have hpos : lengthPositive (.array elems) = .ok true := by
      cases elems with
      | nil => simp at hf
      | cons a rest => simp [lengthPositive]
    have hstmt : switchCaseStatement (.array elems)
        = .ok (.node (some "SwitchCase") (some (r1.1, r2.2)) []) := by
      simp only [switchCaseStatement, hf, hl, h1, h2]
    simp only [visitor, hb, hne, if_true, Bool.false_eq_true, if_false, hc, hpos, hstmt]
    rw [pushCodeblock_of_range code (.node (some "SwitchCase") (some (r1.1, r2.2)) []) false st
      (r1.1, r2.2) rfl]
    rfl
  · simp only [visitor, hb, hne, if_true, Bool.false_eq_true, if_false, he, lengthPositive,
      List.length_nil, Nat.lt_irrefl, decide_False]

/-- Witness for C9 on `switchTree`: the one unit of type `SwitchCase` spans the
body `a?b:c;break;` of the first case (17 to 29), not the case itself (10 to
29), and the empty `default:` case has none. -/
theorem discover_switch_cases_witness :
    ∃ st1, discover switchSource switchTree Registry.init = .ok st1 ∧
      (st1.2.filter isSwitchUnit).map
          (fun u => (u.type, u.rangeStart, u.rangeEnd, u.expression, u.executionCount, u.code))
        = [(some "SwitchCase", 17, 29, false, 0, some "a?b:c;break;".toList)] :=
  (discover_switch_cases switchSource switchTree Registry.init rfl
    (Registry.init, []) (10, 29)
    [("test", .node (some "Literal") (some (15, 16)) [("value", .number 1)]),
      ("consequent", .array [
        .node (some "ExpressionStatement") (some (17, 23)) [],
        .node (some "BreakStatement") (some (23, 29)) [("label", .null)]])]
    [.node (some "ExpressionStatement") (some (17, 23)) [],
      .node (some "BreakStatement") (some (23, 29)) [("label", .null)]]
    (.node (some "ExpressionStatement") (some (17, 23)) [])
    (.node (some "BreakStatement") (some (23, 29)) [("label", .null)])
    (17, 23) (23, 29) rfl rfl rfl rfl rfl
    (29, 37) [("test", .null), ("consequent", .array [])] rfl).1

/-- C10: the marker stage of `Reporters.html` yields the source text with, for
each unit, its opening marker in front of position `rangeStart` and the closing
marker `</span>` in front of position `rangeEnd` (markers of one position in
unit order), the opening marker being the "covered" one exactly when
`executionCount > 0`; every source character is kept in order, and removing the
markers position by position gives back the source. -/
theorem markerStage_marks_units (stats : TailwindStats) (u : Codeblock) :
    markerStage stats
      = annotate stats.sourceCode
          (fun p => stats.codeblocks.flatMap (fun u =>
            (if u.rangeStart = p then openMarker u else []) ++
              (if u.rangeEnd = p then closeMarker else [])))
          (markerBound stats.codeblocks) ∧
    openMarker u
      = (if u.executionCount > 0 then "<span class=\"tailwind-covered\">".toList
          else "<span class=\"tailwind-missed\">".toList) ∧
    closeMarker = "</span>".toList ∧
    stats.sourceCode.Sublist (markerStage stats) ∧
    stripMarkers stats.codeblocks stats.sourceCode.length (markerStage stats)
      = some stats.sourceCode := by
  refine ⟨markerStage_eq_annotate stats, rfl, rfl, ?_, ?_⟩
  · rw [markerStage_eq_annotate]
    exact sublist_annotate _ _ _
  · rw [markerStage_eq_annotate]
    unfold stripMarkers annotate
    have h := stripMarkersFrom_spec stats.codeblocks stats.sourceCode
      (markerBound stats.codeblocks) 0
    simp only [Nat.zero_add, List.drop_zero] at h
    rw [List.range_eq_range']
    exact h

/-- C15: for an id that no registered unit has, `executeBlock` throws (a
`TypeError`, `codeblocks[blockId]` being `undefined`) and the registry, hence
every unit's `executionCount`, is as it was. -/
theorem executeBlock_unknown_id (reg : Registry) (hreg : reg.Consistent) (blockId : Nat)
    (h : ∀ cb ∈ reg.codeblocks, cb.id ≠ blockId) :
    executeBlock blockId reg = .error (.typeError, reg) ∧
    afterExecuteBlock reg blockId = reg := by
  have hnone : reg.codeblocks[blockId]? = none := by
    rcases Nat.lt_or_ge blockId reg.codeblocks.length with hlt | hge
    · exact absurd (consistent_id_getElem reg hreg blockId hlt)
        (h _ (List.getElem_mem hlt))
    · exact List.getElem?_eq_none hge
  constructor
  · unfold executeBlock; rw [hnone]
  · unfold afterExecuteBlock executeBlock; rw [hnone]

/-- Witness for C15 on `sampleRegistry`, which has the ids 0 and 1, and the
id 2. -/
theorem executeBlock_unknown_id_witness :
    executeBlock 2 sampleRegistry = .error (.typeError, sampleRegistry) ∧
    afterExecuteBlock sampleRegistry 2 = sampleRegistry :=
  executeBlock_unknown_id sampleRegistry (by decide) 2 (by
    intro cb hcb
    simp only [sampleRegistry, List.mem_cons, List.mem_singleton, List.not_mem_nil,
      or_false] at hcb
    rcases hcb with rfl | rfl <;> decide)

/-- C19: when `runCode` returns, the unit list of the returned stats consists
of the units discovered by the traversal (the same objects, whatever their
counts have become), rearranged: it is a permutation of the discovered list, in
non-decreasing `rangeStart` order, and two units `a` before `b` in discovery
order with `a.rangeStart ≤ b.rangeStart`, equal starts included, stay in that
order. -/
theorem runCode_stores_sorted_units (window : Window) (code : List Char) (reg : Registry)
    (hreg : reg.Consistent)
    (parse : List Char → Except JSError JSValue) (syntaxTree : JSValue) (reg1 : Registry)
    (discovered : List Codeblock) (calls : List Nat)
    (hw : window.esprima = some parse) (hp : parse code = .ok syntaxTree)
    (hd : discover code syntaxTree reg = .ok (reg1, discovered))
    (he : window.eval (instrument code (sortCodeblocks discovered)) = (calls, none))
    (a b : Codeblock) (hab : List.Sublist [a, b] discovered)
    (hle : a.rangeStart ≤ b.rangeStart) :
    ∃ stats reg2, runCode window code reg = .ok (stats, reg2) ∧
      stats.codeblocks.map Codeblock.resetCount = sortCodeblocks discovered ∧
      (sortCodeblocks discovered).Perm discovered ∧
      (sortCodeblocks discovered).Sorted (fun u v => u.rangeStart ≤ v.rangeStart) ∧
      List.Sublist [a, b] (sortCodeblocks discovered) := by
  obtain ⟨hc1, hcb, -, h0⟩ := discover_consistent code syntaxTree reg (reg1, discovered) hreg hd
  simp only [] at hc1 hcb h0
  refine ⟨_, _, runCode_returns window code reg parse syntaxTree reg1 discovered calls
    hw hp hd he, ?_, (sortCodeblocks_props discovered).1, (sortCodeblocks_props discovered).2,
    sortCodeblocks_stable discovered a b hab hle⟩
  simp only [List.map_map]
  have hmem : ∀ cb ∈ sortCodeblocks discovered,
      (Codeblock.resetCount ∘ Codeblock.current (afterExecuteBlocks reg1 calls)) cb = id cb := by
    intro cb hcbm
    have hd2 : cb ∈ discovered := ((sortCodeblocks_props discovered).1.mem_iff).mp hcbm
    have hr : cb ∈ reg1.codeblocks := by rw [hcb]; exact List.mem_append_right _ hd2
    have hz : cb.resetCount = cb := by
      have := List.map_eq_map_iff.mp (h0.trans (List.map_id discovered).symm) cb hd2
      simpa using this
    exact current_resetCount reg1 hc1 calls cb hr hz
  rw [List.map_congr_left hmem, List.map_id]

/-- Witness for C19 on `ternaryTree`: the block of the function, discovered
last, is stored second. -/
theorem runCode_stores_sorted_units_witness :
    ∃ stats reg2, runCode ternaryWindow ternarySource Registry.init = .ok (stats, reg2) ∧
      stats.codeblocks.map Codeblock.resetCount = sortCodeblocks ternaryDiscovered.2 ∧
      (sortCodeblocks ternaryDiscovered.2).Perm ternaryDiscovered.2 ∧
      (sortCodeblocks ternaryDiscovered.2).Sorted (fun u v => u.rangeStart ≤ v.rangeStart) ∧
      List.Sublist
        [mkUnit ternarySource 1 (.node (some "Identifier") (some (16, 17)) [("name", .string "b")])
            (16, 17) true,
          mkUnit ternarySource 2
            (.node (some "Identifier") (some (18, 19)) [("name", .string "c")]) (18, 19) true]
        (sortCodeblocks ternaryDiscovered.2) :=
  runCode_stores_sorted_units ternaryWindow ternarySource Registry.init (by decide)
    ternaryParse ternaryTree ternaryDiscovered.1 ternaryDiscovered.2 [0, 3, 1] rfl rfl rfl rfl
    _ _
    (List.Sublist.cons _ (List.Sublist.cons₂ _ (List.Sublist.cons₂ _ (List.Sublist.cons _
      (List.Sublist.slnil)))))
    (by decide)

/-- C20: after any sequence of `runCode` calls on pages whose parser keeps its
guarantees, the id counter is the number of units ever created and the unit at
index `k` of the module-level array has id `k`, so no two units share an id and
`executeBlock( cb.id )` counts exactly the unit `cb`, whose tracking text
carries that id; the units of a further discovery get the next consecutive
ids in discovery order. -/
theorem registry_ids_are_indices (calls : List (Window × List Char))
    (hp : ∀ c ∈ calls, c.1.ParserOk) (cb : Codeblock)
    (hcb : cb ∈ (afterRunCodes Registry.init calls).codeblocks)
    (code : List Char) (syntaxTree : JSValue) (st1 : DiscoverState)
    (hd : discover code syntaxTree (afterRunCodes Registry.init calls) = .ok st1) :
    (afterRunCodes Registry.init calls).nextId
      = (afterRunCodes Registry.init calls).codeblocks.length ∧
    (afterRunCodes Registry.init calls).codeblocks.map (fun u => u.id)
      = List.range (afterRunCodes Registry.init calls).codeblocks.length ∧
    ((afterRunCodes Registry.init calls).codeblocks.map (fun u => u.id)).Nodup ∧
    (afterRunCodes Registry.init calls).codeblocks[cb.id]? = some cb ∧
    executeBlock cb.id (afterRunCodes Registry.init calls)
      = .ok (.undefined,
          { nextId := (afterRunCodes Registry.init calls).nextId,
            codeblocks := (afterRunCodes Registry.init calls).codeblocks.map (fun u =>
              if u.id = cb.id then { u with executionCount := u.executionCount + 1 } else u) }) ∧
    watchBlock cb
      = (if cb.expression = true then
          ("Tailwind.executeBlock( " ++ toString cb.id ++ " ) || ").toList
        else
          ("Tailwind.executeBlock( " ++ toString cb.id ++ " );").toList) ∧
    st1.2.map (fun u => u.id)
      = List.range' (afterRunCodes Registry.init calls).nextId st1.2.length ∧
    st1.1.codeblocks = (afterRunCodes Registry.init calls).codeblocks ++ st1.2 := by
  have hc := afterRunCodes_consistent calls Registry.init consistent_init hp
  have hdisc := discover_consistent code syntaxTree _ st1 hc hd
  refine ⟨hc.1, hc.2, ?_, consistent_getElem _ hc cb hcb, ?_, ?_, hdisc.2.2.1, hdisc.2.1⟩
  · rw [hc.2]; exact List.nodup_range _
  · unfold executeBlock
    rw [consistent_getElem _ hc cb hcb]
    simp only [Codeblock.countExecution]
    rw [consistent_set_eq_map _ hc cb hcb]
  · unfold watchBlock numberToString
    by_cases h : cb.expression = true
    · simp only [h, if_true, String.toList, String.data_append]; rfl
    · simp only [h, if_false, String.toList, String.data_append]; rfl

/-- Witness for C20 after one run on `ternaryTree`: the block unit has id 3
and sits at index 3, and a second discovery gets the ids 4 to 7. -/
theorem registry_ids_are_indices_witness :
    secondDiscovered.2.map (fun u => u.id) = [4, 5, 6, 7] :=
  (registry_ids_are_indices [(ternaryWindow, ternarySource)]
    (by
      intro c hc
      simp only [List.mem_singleton] at hc
      subst hc
      exact ternaryParse_ok _)
    { id := 3, statement := .node (some "BlockStatement") (some (12, 14)) [("body", .array [])],
      rangeStart := 12, rangeEnd := 14, type := some "BlockStatement", expression := false,
      code := some "\x7b\x7d".toList, executionCount := 1 }
    (List.Mem.tail _ (List.Mem.tail _ (List.Mem.tail _ (List.Mem.head _))))
    ternarySource ternaryTree secondDiscovered rfl).2.2.2.2.2.2.1

/-- C16 as stated fails: two runs of the same source that throw the same value,
one after counting the function's block and one before, leave the caller with
the same thing, the thrown value, although the counts in the registry differ;
the caller gets no stats object. -/
theorem runCode_throw_hides_counts_counterexample :
    callerReceives (runCode throwingWindow ternarySource Registry.init)
      = .error (.error "x is not defined") ∧
    callerReceives (runCode undefinedWindow ternarySource Registry.init)
      = .error (.error "x is not defined") ∧
    (afterRunCode Registry.init (throwingWindow, ternarySource)).codeblocks.map
        (fun u => (u.id, u.executionCount)) = [(0, 1), (1, 0), (2, 0), (3, 1)] ∧
    (afterRunCode Registry.init (undefinedWindow, ternarySource)).codeblocks.map
        (fun u => (u.id, u.executionCount)) = [(0, 1), (1, 0), (2, 0), (3, 0)] := by
  refine ⟨rfl, rfl, rfl, rfl⟩

/-- C16, amended: when the instrumented program throws, `runCode` throws the
same value; the units of the run stay in the module-level array with the
counts recorded before the throw, and the caller receives the thrown value and
no stats object. -/
theorem runCode_propagates_throw (window : Window) (code : List Char) (reg : Registry)
    (parse : List Char → Except JSError JSValue) (syntaxTree : JSValue) (reg1 : Registry)
    (discovered : List Codeblock) (calls : List Nat) (e : JSError)
    (hw : window.esprima = some parse) (hp : parse code = .ok syntaxTree)
    (hd : discover code syntaxTree reg = .ok (reg1, discovered))
    (he : window.eval (instrument code (sortCodeblocks discovered)) = (calls, some e)) :
    runCode window code reg = .error (e, afterExecuteBlocks reg1 calls) ∧
    callerReceives (runCode window code reg) = .error e ∧
    afterRunCode reg (window, code) = afterExecuteBlocks reg1 calls ∧
    (afterRunCode reg (window, code)).codeblocks.map Codeblock.resetCount
      = (reg.codeblocks ++ discovered).map Codeblock.resetCount := by
  have h := runCode_throws window code reg parse syntaxTree reg1 discovered calls e hw hp hd he
  have hr : afterRunCode reg (window, code) = afterExecuteBlocks reg1 calls := by
    unfold afterRunCode
    simp only [h]
  refine ⟨h, by rw [h]; rfl, hr, ?_⟩
  rw [hr, afterExecuteBlocks_resetCount]
  have h1 := discover_ok_units code syntaxTree reg (reg1, discovered) hd
  simp only [Prod.mk.injEq] at h1
  rw [h1.1, ← h1.2]

/-- Witness for C16 on `throwingWindow`. -/
theorem runCode_propagates_throw_witness :
    runCode throwingWindow ternarySource Registry.init
      = .error (.error "x is not defined", afterExecuteBlocks ternaryDiscovered.1 [0, 3]) :=
  (runCode_propagates_throw throwingWindow ternarySource Registry.init ternaryParse
    ternaryTree ternaryDiscovered.1 ternaryDiscovered.2 [0, 3] (.error "x is not defined")
    rfl rfl rfl rfl).1

/-- C17 as stated fails: the request `runScript` creates has no error
callback, and when it completes with status 404 `handleReadyStateChange` calls
nothing and throws nothing. -/
theorem runScript_failure_dropped_counterexample :
    handleReadyStateChange
        { runScriptRequest (fun _ => none) with
          readyState := 4, status := 404, responseText := "Not Found".toList }
      = ([], none) := by
  rfl

/-- C17, amended: for a request that completes (readyState 4) with a status of
400 or more, the success callback is not called; the error callback is called,
once, exactly when the request has one, and without one nothing is called and
nothing is thrown. -/
theorem handleReadyStateChange_failure (request : Request) (h4 : request.readyState = 4)
    (hs : request.status ≥ 400) :
    handleReadyStateChange request
      = (match request.onerror with
        | some thrown => ([.onerror], thrown)
        | none => ([], none)) ∧
    (∀ text, Call.callback text ∉ (handleReadyStateChange request).1) ∧
    (runScriptRequest request.callback).onerror = none := by
  have h : handleReadyStateChange request
      = (match request.onerror with
        | some thrown => ([.onerror], thrown)
        | none => ([], none)) := by
    unfold handleReadyStateChange
    rw [if_pos h4, if_pos hs]
  refine ⟨h, ?_, rfl⟩
  intro text
  rw [h]
  cases request.onerror <;> simp

/-- Witness for C17 on a request with an error callback and status 500. -/
theorem handleReadyStateChange_failure_witness :
    handleReadyStateChange
        { readyState := 4, status := 500, responseText := [], callback := fun _ => none,
          onerror := some none }
      = ([.onerror], none) :=
  (handleReadyStateChange_failure
    { readyState := 4, status := 500, responseText := [], callback := fun _ => none,
      onerror := some none } rfl (by decide)).1

/-- C12 (the claim as stated fails): the unit of `quotedStats` is the one
discovery creates from the parse of `quotedSource`, counted once, so every unit
has been executed and `getReport` gives one executed unit out of one; the
report still contains the opening marker of a missed unit, because the source
text, which spells it inside a string, is copied into the report as it is. -/
theorem html_miss_marker_from_source_counterexample :
    (discover quotedSource quotedTree Registry.init).toOption.map
        (fun st => st.2.map (fun u => u.countExecution.executionCount))
      = some (quotedStats.codeblocks.map (fun u => u.executionCount)) ∧
    (∀ u ∈ quotedStats.codeblocks, u.executionCount > 0) ∧
    quotedStats.getReport.1 = ⟨1, 1⟩ ∧
    Reporters.html quotedStats
      = ("<span class=\"tailwind-lineno\">1</span><span class=\"tailwind-covered\">a;\n" ++
          "<span class=\"tailwind-lineno\">2</span>b = \x27<span class=\"tailwind-missed\">\x27;" ++
          "</span>").toList ∧
    List.IsInfix missMarker (Reporters.html quotedStats) := by
  refine ⟨rfl, ?_, rfl, by decide,
    ⟨("<span class=\"tailwind-lineno\">1</span><span class=\"tailwind-covered\">a;\n" ++
        "<span class=\"tailwind-lineno\">2</span>b = \x27").toList,
      "\x27;</span>".toList, by decide⟩⟩
  intro u hu
  simp only [quotedStats, List.mem_singleton] at hu
  subst hu
  decide

/-- C12 (amended): when every unit has an execution count above 0 and the
source text itself does not contain the opening marker of a missed unit,
`getReport` gives `executed` equal to `statements` and the text
`Reporters.html` returns contains no opening marker of a missed unit. -/
theorem html_all_executed_no_miss (stats : TailwindStats)
    (hall : ∀ u ∈ stats.codeblocks, u.executionCount > 0)
    (hsrc : ¬ List.IsInfix missMarker stats.sourceCode) :
    stats.getReport.1.executed = stats.getReport.1.statements ∧
    ¬ List.IsInfix missMarker (Reporters.html stats) := by
  constructor
  · have h := getReportLoop_eq stats.codeblocks ⟨stats.codeblocks.length, 0⟩
    simp only [TailwindStats.getReport, h, Nat.zero_add]
    rw [List.filter_eq_self.mpr]
    intro u hu
    simpa using hall u hu
  · unfold Reporters.html
    apply noMiss_insertLineNumbers
    rw [markerStage_eq_annotate]
    exact noMiss_annotate _ _ _ (fun p => markersAt_inert _ p hall) hsrc

/-- C12 (amended), at the stats of a run of `a;` and `b;` on two lines. -/
theorem html_all_executed_no_miss_witness :
    (∀ u ∈ twoLineStats.codeblocks, u.executionCount > 0) ∧
    ¬ List.IsInfix missMarker twoLineStats.sourceCode ∧
    twoLineStats.getReport.1.executed = twoLineStats.getReport.1.statements ∧
    ¬ List.IsInfix missMarker (Reporters.html twoLineStats) :=
  have hall : ∀ u ∈ twoLineStats.codeblocks, u.executionCount > 0 := by
    intro u hu
    simp only [twoLineStats, List.mem_singleton] at hu
    subst hu
    decide
  ⟨hall, by decide, html_all_executed_no_miss twoLineStats hall (by decide)⟩

/-- C11 (evaluation at the failing input): for the one-line source `a;` the
report is the marker-annotated line alone, with no line-number element in front
of it: `reduce` is called without an initial value, so on a one-element array
its callback never runs. For the three lines `a;`, an empty line and `b;` the
report has two lines, numbered 1 and 2: the split on runs of line breaks drops
the empty line. -/
theorem html_one_line_has_no_line_number :
    markerStage oneLineStats = "<span class=\"tailwind-covered\">a;</span>".toList ∧
    Reporters.html oneLineStats = "<span class=\"tailwind-covered\">a;</span>".toList ∧
    ¬ List.IsPrefix linenoStart (Reporters.html oneLineStats) ∧
    Reporters.html blankLineStats
      = ("<span class=\"tailwind-lineno\">1</span><span class=\"tailwind-covered\">a;\n" ++
          "<span class=\"tailwind-lineno\">2</span>b;</span>").toList := by
  refine ⟨by decide, by decide, by decide, by decide⟩

set_option maxRecDepth 100000

/-- C13 (evaluation at the failing input): `runCode` on the function
`branching1` of the test script creates four units (the `Program`, the function
body, the `if` block, the `else` block) and evaluates `branchingInstrumented`;
after the load one unit is executed; the first call `branching1( false )`
raises `getReport().executed` from 1 to 3, that is by 2 (function body and
`else` block), and the following call `branching1( true )` from 3 to 4, that
is by 1 (the `if` block). -/
theorem branching1_raises_executed_by_two_then_one :
    (runCode branchingWindow branchingSource Registry.init).toOption.map
        (fun r => r.1.codeblocks.map (fun u => (u.id, u.type, u.rangeStart, u.rangeEnd)))
      = some [(0, some "Program", 0, 125), (1, some "BlockStatement", 29, 125),
          (2, some "BlockStatement", 52, 80), (3, some "BlockStatement", 94, 123)] ∧
    instrument branchingSource branchingStats.codeblocks = branchingInstrumented ∧
    executedAt branchingStats branchingLoaded = 1 ∧
    executedAt branchingStats (afterEvaluation (branching1 (.bool false)) branchingLoaded)
      = 1 + 2 ∧
    executedAt branchingStats
        (afterEvaluation (branching1 (.bool true))
          (afterEvaluation (branching1 (.bool false)) branchingLoaded))
      = 3 + 1 := by
  refine ⟨rfl, by decide, rfl, rfl, rfl⟩

/-- C14: (1) in the instrumented ternary
`a ? Tailwind.executeBlock( i ) || x : Tailwind.executeBlock( j ) || y`, with
`i` and `j` the ids of two different registered units, an evaluation in which
`a` comes out truthy goes on as the evaluation of `x` from the registry in
which the unit `i` has one execution more and the unit `j` is as it was, and
an evaluation in which `a` comes out falsy goes on as the evaluation of `y`
from the registry in which the unit `j` has one execution more and the unit
`i` is as it was; a branch that is itself a ternary `t ? c : d` reads
`Tailwind.executeBlock( j ) || t ? c : d` and evaluates as
`Tailwind.executeBlock( j ) || ( t ? c : d )`.  (2) `runCode` on the function
`conditional` of the test script evaluates `conditionalInstrumented`; after
the load and `conditional()` four units are executed, `conditional( 0 )` raises
`getReport().executed` from 4 to 5 and `conditional( true )` from 5 to 6. -/
theorem ternary_counts_taken_branch (a x y t c d : Evaluation) (reg reg1 : Registry)
    (v : JSValue) (unitX unitY : Codeblock) (hreg : reg1.Consistent)
    (hx : unitX ∈ reg1.codeblocks) (hy : unitY ∈ reg1.codeblocks)
    (hxy : unitX.id ≠ unitY.id) (ha : a reg = .ok (v, reg1)) :
    (toBoolean v = true →
      trackedConditional unitX.id unitY.id a x y reg = x (afterExecuteBlock reg1 unitX.id) ∧
      (afterExecuteBlock reg1 unitX.id).codeblocks[unitX.id]?
        = some { unitX with executionCount := unitX.executionCount + 1 } ∧
      (afterExecuteBlock reg1 unitX.id).codeblocks[unitY.id]? = some unitY) ∧
    (toBoolean v = false →
      trackedConditional unitX.id unitY.id a x y reg = y (afterExecuteBlock reg1 unitY.id) ∧
      (afterExecuteBlock reg1 unitY.id).codeblocks[unitY.id]?
        = some { unitY with executionCount := unitY.executionCount + 1 } ∧
      (afterExecuteBlock reg1 unitY.id).codeblocks[unitX.id]? = some unitX) ∧
    conditionalExpression (logicalOr (executeBlock unitY.id) t) c d reg1
      = logicalOr (executeBlock unitY.id) (conditionalExpression t c d) reg1 ∧
    instrument conditionalSource conditionalStats.codeblocks = conditionalInstrumented ∧
    executedAt conditionalStats
        (afterEvaluation (conditional .undefined) conditionalLoaded) = 4 ∧
    executedAt conditionalStats
        (afterEvaluation (conditional (.number 0))
          (afterEvaluation (conditional .undefined) conditionalLoaded)) = 4 + 1 ∧
    executedAt conditionalStats
        (afterEvaluation (conditional (.bool true))
          (afterEvaluation (conditional (.number 0))
            (afterEvaluation (conditional .undefined) conditionalLoaded))) = 5 + 1 := by
  have hmx := executeBlock_member reg1 hreg unitX hx
  have hmy := executeBlock_member reg1 hreg unitY hy
  refine ⟨?_, ?_, ?_, by decide, rfl, rfl, rfl⟩
  · intro hv
    refine ⟨?_, hmx.2.1, hmx.2.2 unitY hy (fun h => hxy h.symm)⟩
    unfold trackedConditional conditionalExpression
    rw [ha]
    simp only [hv, if_true]
    exact logicalOr_executeBlock reg1 hreg unitX hx x
  · intro hv
    refine ⟨?_, hmy.2.1, hmy.2.2 unitX hx hxy⟩
    unfold trackedConditional conditionalExpression
    rw [ha]
    simp only [hv, Bool.false_eq_true, if_false]
    exact logicalOr_executeBlock reg1 hreg unitY hy y
  · rw [logicalOr_executeBlock reg1 hreg unitY hy]
    unfold conditionalExpression
    rw [logicalOr_executeBlock reg1 hreg unitY hy]

/-- Witness for C14 on `sampleRegistry`: a ternary with a truthy test and the
two units of the registry as its branches. -/
theorem ternary_counts_taken_branch_witness :
    trackedConditional 0 1 (valueOf (.bool true)) (valueOf (.number 1)) (valueOf (.number 2))
        sampleRegistry
      = .ok (.number 1, afterExecuteBlock sampleRegistry 0) :=
  ((ternary_counts_taken_branch (valueOf (.bool true)) (valueOf (.number 1))
    (valueOf (.number 2)) (valueOf .undefined) (valueOf .null) (valueOf .null)
    sampleRegistry sampleRegistry (.bool true)
    { id := 0, statement := programTree, rangeStart := 0, rangeEnd := 2,
      type := some "Program", expression := false, code := some "a;".toList,
      executionCount := 0 }
    { id := 1, statement := .node (some "Identifier") (some (0, 1)) [],
      rangeStart := 0, rangeEnd := 1, type := some "Identifier", expression := true,
      code := some "a".toList, executionCount := 3 }
    (by decide) (List.Mem.head _) (List.Mem.tail _ (List.Mem.head _)) (by decide) rfl).1
      rfl).1

/-- C21 (the claim as stated fails): the trees of `{}` and of
`switch(x){case 1:{}}` meet the parser's guarantees, and discovery creates two
units with the same range from each: the `Program` and its only statement, the
block; the body of the case and the block that is this body. -/
theorem identical_ranges_counterexample :
    (visited blockTree).all visitOk = true ∧ wellRanged blockTree = true ∧
    (discover "\x7b\x7d".toList blockTree Registry.init).toOption.map
        (fun st => st.2.map (fun u => (u.id, u.type, unitRange u)))
      = some [(0, some "Program", (0, 2)), (1, some "BlockStatement", (0, 2))] ∧
    (visited caseBlockTree).all visitOk = true ∧ wellRanged caseBlockTree = true ∧
    (discover caseBlockSource caseBlockTree Registry.init).toOption.map
        (fun st => st.2.map (fun u => (u.id, u.type, unitRange u)))
      = some [(0, some "Program", (0, 20)), (1, some "SwitchCase", (17, 19)),
          (2, some "BlockStatement", (17, 19))] := by
  refine ⟨by decide, by decide, rfl, by decide, by decide, rfl⟩

/-- C21 (amended): on a tree that meets the parser's guarantees (`visitOk` at
every visited object and `wellRanged`) discovery returns, and of any two units
it creates the one discovered later lies within the one discovered earlier or
the two are apart, so that their ranges are disjoint or nested (equal ranges
included); no range is inverted; and in the list as `runCode` sorts it every
unit starts no later than the units after it and ends where they start or
before, or no earlier than they end. -/
theorem discover_ranges_nest (code : List Char) (syntaxTree : JSValue) (reg : Registry)
    (hwf : (visited syntaxTree).all visitOk = true) (hr : wellRanged syntaxTree = true) :
    ∃ st1, discover code syntaxTree reg = .ok st1 ∧
      (st1.2.map unitRange).Pairwise Precedes ∧
      (st1.2.map unitRange).Pairwise Laminar ∧
      (∀ u ∈ st1.2, u.rangeStart ≤ u.rangeEnd) ∧
      ((sortCodeblocks st1.2).map unitRange).Pairwise InListOrder := by
  obtain ⟨st1, hd⟩ := discover_ok_of_visitOk code syntaxTree reg hwf
  have hm := discover_ranges code syntaxTree reg st1 hd
  have hn := ranges_nest syntaxTree hr
  rw [← hm] at hn
  have hle : ∀ u ∈ st1.2, u.rangeStart ≤ u.rangeEnd := fun u hu =>
    (hn.2 (unitRange u) (List.mem_map_of_mem _ hu)).1
  refine ⟨st1, hd, hn.1, ?_, hle, sortCodeblocks_inListOrder st1.2 hn.1 hle⟩
  refine List.Pairwise.imp ?_ hn.1
  intro a b h
  rcases h with h | h
  · exact Or.inl h
  · exact Or.inr (Or.inr h)

/-- Witness for C21 on `switchTree`, which has a case body and a ternary in
it. -/
theorem discover_ranges_nest_witness :
    (visited switchTree).all visitOk = true ∧ wellRanged switchTree = true ∧
    ∃ st1, discover switchSource switchTree Registry.init = .ok st1 ∧
      (st1.2.map unitRange).Pairwise Precedes ∧
      (st1.2.map unitRange).Pairwise Laminar ∧
      (∀ u ∈ st1.2, u.rangeStart ≤ u.rangeEnd) ∧
      ((sortCodeblocks st1.2).map unitRange).Pairwise InListOrder :=
  ⟨by decide, by decide,
    discover_ranges_nest switchSource switchTree Registry.init (by decide) (by decide)⟩

/-- C22 (the claim as stated fails): in the stats `runCode` returns for
`ternarySource` the `Program` (0 to 19, executed) and the second branch (18 to
19, not executed) end at the same position; the unit ranges are disjoint or
nested and in list order; `html` queues at position 19 the closing marker of
the `Program` first and the one of the branch second, so that, read left to
right, the closing marker inserted for the `Program` (id 0) closes the opening
marker of the branch (id 2), and the one inserted for the branch closes the
opening marker of the `Program`. -/
theorem closing_marker_closes_inner_unit_counterexample :
    ternaryStats.codeblocks.map (fun u => (u.id, unitRange u, u.executionCount))
      = [(0, (0, 19), 1), (3, (12, 14), 1), (1, (16, 17), 1), (2, (18, 19), 0)] ∧
    (ternaryStats.codeblocks.map unitRange).Pairwise Laminar ∧
    (ternaryStats.codeblocks.map unitRange).Pairwise InListOrder ∧
    queuedAt (queueMarkers ternaryStats.codeblocks []) 19 = [.hitEnd, .missEnd] ∧
    (matchMarks (allMarks ternaryStats.codeblocks) []).map
        (fun r => (r.1.map (fun oc => (oc.1.id, oc.2.id)), r.2.map (fun u => u.id)))
      = some ([(3, 3), (1, 1), (2, 0), (0, 2)], []) := by
  refine ⟨rfl, by decide, by decide, rfl, rfl⟩

/-- C22 (amended): for every stats object in whose unit list every unit stands
in list order to the units after it (`InListOrder`) and no range is inverted,
the markers `html` queues at a position are those of `marksAt`, the marker
stage is the source text with their texts inserted, and the markers are
properly nested: reading them left to right every closing marker has an opening
marker to close, none stays open at the end, every unit's opening marker is
closed exactly once, and the closing marker that closes the opening marker of a
unit stands at that unit's `rangeEnd` (it was inserted for a unit with the same
`rangeEnd`). -/
theorem markers_close_at_range_end (stats : TailwindStats)
    (hord : (stats.codeblocks.map unitRange).Pairwise InListOrder)
    (hle : ∀ u ∈ stats.codeblocks, u.rangeStart ≤ u.rangeEnd) :
    (∀ p, queuedAt (queueMarkers stats.codeblocks []) p
      = (marksAt stats.codeblocks p).map Mark.type) ∧
    markerStage stats
      = annotate stats.sourceCode
          (fun p => (marksAt stats.codeblocks p).flatMap (fun m => injection m.type))
          (markerBound stats.codeblocks) ∧
    ∃ pairs, matchMarks (allMarks stats.codeblocks) [] = some (pairs, []) ∧
      (pairs.map Prod.fst).Perm stats.codeblocks ∧
      ∀ oc ∈ pairs, oc.1 ∈ stats.codeblocks ∧ oc.2 ∈ stats.codeblocks ∧
        oc.1.rangeEnd = oc.2.rangeEnd := by
  refine ⟨?_, ?_, ?_⟩
  · intro p
    rw [marksAt_type]
    have h := (queueMarkers_spec stats.codeblocks []).2 p
    rw [h]
    simp [queuedAt]
  · rw [markerStage_eq_annotate]
    congr 1
    funext p
    exact (marksAt_injection stats.codeblocks p).symm
  · obtain ⟨pairs, h1, h2, h3⟩ :=
      matchMarks_upto stats.codeblocks hord hle (markerBound stats.codeblocks)
    have hb := rangeEnd_lt_markerBound stats.codeblocks
    have hnil : stats.codeblocks.filter (fun u => decide (u.rangeStart
        < markerBound stats.codeblocks ∧ markerBound stats.codeblocks ≤ u.rangeEnd)) = [] := by
      rw [List.filter_eq_nil_iff]
      intro u hu
      have := hb u hu
      simp only [decide_eq_true_eq]
      omega
    have hall : stats.codeblocks.filter
        (fun u => decide (u.rangeEnd < markerBound stats.codeblocks)) = stats.codeblocks := by
      rw [List.filter_eq_self]
      intro u hu
      simpa using hb u hu
    rw [hnil] at h1
    rw [hall] at h3
    exact ⟨pairs, h1, h3, h2⟩

/-- Witness for C22 on `ternaryStats`. -/
theorem markers_close_at_range_end_witness :
    (ternaryStats.codeblocks.map unitRange).Pairwise InListOrder ∧
    (∀ u ∈ ternaryStats.codeblocks, u.rangeStart ≤ u.rangeEnd) ∧
    ∃ pairs, matchMarks (allMarks ternaryStats.codeblocks) [] = some (pairs, []) ∧
      (pairs.map Prod.fst).Perm ternaryStats.codeblocks ∧
      ∀ oc ∈ pairs, oc.1 ∈ ternaryStats.codeblocks ∧ oc.2 ∈ ternaryStats.codeblocks ∧
        oc.1.rangeEnd = oc.2.rangeEnd :=
  ⟨by decide, by decide,
    (markers_close_at_range_end ternaryStats (by decide) (by decide)).2.2⟩

/-- C18 (the claim as stated fails): for the source `{a}` the list `runCode`
builds is the `Program` unit followed by the block unit, both with
`rangeStart` 0.  The pass puts the tracking text of the `Program` unit, a unit
of kind block, at position 0 in front of the brace, not one character after
its `rangeStart`; with every unit of kind block one character after its
`rangeStart` the text would read differently. -/
theorem program_tracking_before_brace_counterexample :
    (visited braceTree).all visitOk = true ∧ wellRanged braceTree = true ∧
    programOk braceTree = true ∧
    braceUnits.map (fun u => (u.id, u.type, u.rangeStart, isBlockUnit u, insertionPoint u))
      = [(0, some "Program", 0, true, 0), (1, some "BlockStatement", 0, true, 1)] ∧
    instrument braceSource braceUnits
      = "Tailwind.executeBlock( 0 );\x7bTailwind.executeBlock( 1 );a\x7d".toList ∧
    annotate braceSource
        (fun p => braceUnits.flatMap
          (fun u => if u.rangeStart + (if isBlockUnit u = true then 1 else 0) = p
            then watchBlock u else []))
        2
      = "\x7bTailwind.executeBlock( 0 );Tailwind.executeBlock( 1 );a\x7d".toList ∧
    instrument braceSource braceUnits
      ≠ annotate braceSource
          (fun p => braceUnits.flatMap
            (fun u => if u.rangeStart + (if isBlockUnit u = true then 1 else 0) = p
              then watchBlock u else []))
          2 := by
  refine ⟨by decide, by decide, by decide, rfl, by decide, by decide, by decide⟩

/-- C18 (amended): on a tree that meets the parser's guarantees (`visitOk` at
every visited object, `wellRanged`, `programOk`) discovery returns, and for the
list `runCode` builds from it (the discovered units sorted by `rangeStart`)
the insertion points (`rangeStart`, one more for a unit of type
`BlockStatement`, none for the `Program` unit) increase strictly; the forward
pass yields the source text with, in front of each position, the tracking
texts of the units whose insertion point it is; at the insertion point of a
unit that is the whole tracking text of this unit and nothing else, so that it
is followed by the original character at that position; and the insertion
point of a unit that is not empty and lies in the text is a position of the
text. -/
theorem runCode_inserts_at_insertion_points (code : List Char) (syntaxTree : JSValue)
    (reg : Registry) (hwf : (visited syntaxTree).all visitOk = true)
    (hr : wellRanged syntaxTree = true) (hp : programOk syntaxTree = true) :
    ∃ st1, discover code syntaxTree reg = .ok st1 ∧
      ((sortCodeblocks st1.2).map insertionPoint).Pairwise (fun a b => a < b) ∧
      instrument code (sortCodeblocks st1.2)
        = annotate code (trackingAt (sortCodeblocks st1.2))
            (insertionBound (sortCodeblocks st1.2)) ∧
      (∀ u ∈ sortCodeblocks st1.2,
        trackingAt (sortCodeblocks st1.2) (insertionPoint u) = watchBlock u) ∧
      (∀ u ∈ sortCodeblocks st1.2, u.rangeStart < u.rangeEnd → u.rangeEnd ≤ code.length →
        insertionPoint u < code.length) := by
  obtain ⟨st1, hd⟩ := discover_ok_of_visitOk code syntaxTree reg hwf
  have hm := discover_starts code syntaxTree reg st1 hd
  have hn := program_starts syntaxTree hr hp
  rw [← hm] at hn
  have hlt := sortCodeblocks_insertionPoints st1.2 hn.1
  refine ⟨st1, hd, hlt, ?_, trackingAt_unique _ hlt, ?_⟩
  · exact instrument_eq_annotate code _ (List.Pairwise.imp (fun h => Nat.le_of_lt h) hlt)
  · intro u hu hne hlen
    have hu1 : u ∈ st1.2 := (sortCodeblocks_props st1.2).1.mem_iff.mp hu
    have h2 := hn.2 (unitStart u) (List.mem_map_of_mem _ hu1)
    unfold insertionPoint
    by_cases hb : u.type = some "BlockStatement"
    · have h3 := h2 (by simp [unitStart, hb])
      have e1 : (unitStart u).2.1 = u.rangeStart := rfl
      have e2 : (unitStart u).2.2 = u.rangeEnd := rfl
      rw [e1, e2] at h3
      rw [if_pos hb]
      omega
    · rw [if_neg hb]
      omega

/-- Witness for C18 on the function `conditional` of the test script. -/
theorem runCode_inserts_at_insertion_points_witness :
    (visited conditionalTree).all visitOk = true ∧ wellRanged conditionalTree = true ∧
    programOk conditionalTree = true ∧
    ∃ st1, discover conditionalSource conditionalTree Registry.init = .ok st1 ∧
      ((sortCodeblocks st1.2).map insertionPoint).Pairwise (fun a b => a < b) ∧
      instrument conditionalSource (sortCodeblocks st1.2)
        = annotate conditionalSource (trackingAt (sortCodeblocks st1.2))
            (insertionBound (sortCodeblocks st1.2)) ∧
      (∀ u ∈ sortCodeblocks st1.2,
        trackingAt (sortCodeblocks st1.2) (insertionPoint u) = watchBlock u) ∧
      (∀ u ∈ sortCodeblocks st1.2, u.rangeStart < u.rangeEnd →
        u.rangeEnd ≤ conditionalSource.length →
        insertionPoint u < conditionalSource.length) :=
  ⟨by decide, by decide, by decide,
    runCode_inserts_at_insertion_points conditionalSource conditionalTree Registry.init
      (by decide) (by decide) (by decide)⟩

end Tailwind
